import Mathlib

/-! # fms: an event-driven finite-state machine on a gonum multigraph

Shallow embedding of `src/main.go`.  The program stores its states and
transitions in a `multi.DirectedGraph` of `gonum.org/v1/gonum/graph/multi`;
the graph operations the program calls (`AddNode`, `SetLine`, `From`, `Node`,
`Lines`, `graph.LinesOf`) are embedded next to the program's own functions.

Conventions of the embedding

* A Go map is an association list kept in insertion order.  Go leaves the
  iteration order of a map unspecified, so every `range` over a map takes the
  order as an explicit argument: a priority on the keys, the entries being
  visited by increasing priority (ties in insertion order).  The constant
  priority is insertion order.
* A Go panic is the `error` case of `Except Panic`; a Go `error` result is an
  `Option String`.
* Standard output is the list of the chunks written, in order.
* `int` is taken to be 64 bits wide; `NodeIDCntr++` and `LineIDCntr++` wrap.
* `main.go` spells `multi.NewDirectionGraph` and `graph.line`; they are read as
  `multi.NewDirectedGraph` and `graph.Line`.
-/

namespace Fms

/-! ## Go maps -/

/-- A Go map: its entries, in insertion order. -/
abbrev GoMap (K V : Type) := List (K × V)

namespace GoMap

variable {K V : Type}

/-- The map index expression `m[k]` with its presence flag. -/
def get [DecidableEq K] : GoMap K V → K → Option V
  | [], _ => none
  | (k', v) :: rest, k => if k' = k then some v else get rest k

/-- The assignment `m[k] = v`. -/
def set [DecidableEq K] : GoMap K V → K → V → GoMap K V
  | [], k, v => [(k, v)]
  | (k', v') :: rest, k, v => if k' = k then (k, v) :: rest else (k', v') :: set rest k v

/-- The entries of `m` in the order a `range` loop visits them under the key
priority `prio`. -/
def range (prio : K → Nat) (m : GoMap K V) : List (K × V) :=
  m.insertionSort (fun a b => prio a.1 ≤ prio b.1)

end GoMap

/-! ## Data model (`main.go` lines 14-74) -/

abbrev Event := String
abbrev Operator := String

/-- A value of type `interface{}` as stored in `State.Value`: the dynamic types
that `State.String` distinguishes, floats by their bit pattern, and every other
dynamic type by its name. -/
inductive Interface where
  | null
  | int (n : Int)
  | float32 (bits : Nat)
  | float64 (bits : Nat)
  | bool (b : Bool)
  | string (s : String)
  | other (typeName : String)
  deriving DecidableEq, Repr

structure State where
  Id : Int
  Value : Interface
  deriving DecidableEq, Repr

structure Link where
  Id : Int
  T : State
  F : State
  Rules : GoMap Operator Event
  deriving DecidableEq, Repr

/-- The part of `multi.DirectedGraph` that `AddNode`, `SetLine`, `From`, `Node`
and `Lines` read: `nodes` and `from`.  The fields `to`, `nodeIDs` and `lineIDs`
are written by `AddNode` and `SetLine` and read by none of the five. -/
structure DirectedGraph where
  nodes : GoMap Int State
  from_ : GoMap Int (GoMap Int (GoMap Int Link))
  deriving DecidableEq, Repr

structure StateMachine where
  PresentState : State
  g : DirectedGraph
  deriving DecidableEq, Repr

/-- The package-level variables `NodeIDCntr` and `LineIDCntr`. -/
structure Globals where
  NodeIDCntr : Int
  LineIDCntr : Int
  deriving DecidableEq, Repr

/-- The values the package-level variables are declared with (lines 68-69). -/
def Globals.initial : Globals := ⟨0, 1⟩

inductive Panic where
  | nodeIDCollision (id : Int)
  | nilDereference
  | typeAssertion
  | indexOutOfRange
  deriving DecidableEq, Repr

deriving instance DecidableEq for Except

/-- The iteration orders of the maps one `FireEvent` call ranges over: the
successor map `g.from[uid]` (keys: destination ids), the line map
`g.from[uid][vid]` of each destination `vid` (keys: line ids) and the rule map
of the line chosen for `vid` (keys: operators). -/
structure MapOrder where
  succ : Int → Nat
  line : Int → Int → Nat
  rule : Int → Operator → Nat

/-- Every map is visited in insertion order. -/
def MapOrder.insertion : MapOrder := ⟨fun _ => 0, fun _ _ => 0, fun _ _ => 0⟩

/-- The two float verbs of `fmt.Sprintf` that `State.String` uses, on bit
patterns. -/
structure Sprintf where
  f32 : Nat → String
  f64 : Nat → String

/-- Two's-complement wrap-around of a 64-bit `int`. -/
def wrapInt (x : Int) : Int := (x + 2 ^ 63) % 2 ^ 64 - 2 ^ 63

/-! ## `State.String` (lines 29-45) -/

def Itoa (n : Int) : String :=
  match n with
  | Int.ofNat m => Nat.repr m
  | Int.negSucc m => "-" ++ Nat.repr (m + 1)

def FormatBool (b : Bool) : String := if b then "true" else "false"

def State.String (fmt : Sprintf) (n : State) : String :=
  match n.Value with
  | .int v => Itoa v
  | .float32 v => fmt.f32 v
  | .float64 v => fmt.f64 v
  | .bool v => FormatBool v
  | .string v => v
  | _ => ""

/-! ## The graph store (`gonum.org/v1/gonum/graph/multi`, `DirectedGraph`) -/

def NewDirectedGraph : DirectedGraph := ⟨[], []⟩

/-- `AddNode` panics when the id is already a key of `nodes`. -/
def AddNode (g : DirectedGraph) (n : State) : Except Panic DirectedGraph :=
  match g.nodes.get n.Id with
  | some _ => .error (.nodeIDCollision n.Id)
  | none => .ok { g with nodes := g.nodes.set n.Id n }

/-- `Node` returns the stored node, or nil. -/
def Node (g : DirectedGraph) (id : Int) : Option State := g.nodes.get id

/-- The first half of `SetLine`: store an endpoint, through `AddNode` when its
id is new and by overwriting the stored node otherwise. -/
def setEndpoint (g : DirectedGraph) (n : State) : Except Panic DirectedGraph :=
  match g.nodes.get n.Id with
  | none => AddNode g n
  | some _ => .ok { g with nodes := g.nodes.set n.Id n }

/-- The second half of `SetLine`: the three-way switch that stores the line
under `from[fid][tid][lid]`. -/
def setFrom (g : DirectedGraph) (fid tid lid : Int) (l : Link) : DirectedGraph :=
  match g.from_.get fid with
  | none => { g with from_ := g.from_.set fid [(tid, [(lid, l)])] }
  | some m =>
    match m.get tid with
    | none => { g with from_ := g.from_.set fid (m.set tid [(lid, l)]) }
    | some lm => { g with from_ := g.from_.set fid (m.set tid (lm.set lid l)) }

def SetLine (g : DirectedGraph) (l : Link) : Except Panic DirectedGraph :=
  match setEndpoint g l.F with
  | .error p => .error p
  | .ok g1 =>
    match setEndpoint g1 l.T with
    | .error p => .error p
    | .ok g2 => .ok (setFrom g2 l.F.Id l.T.Id l.Id l)

/-- `From(id)`: the iterator over the keys of `g.from[id]`, each key `vid`
yielding `g.nodes[vid]` (nil when absent). -/
def From (ord : MapOrder) (g : DirectedGraph) (id : Int) : List (Option State) :=
  match g.from_.get id with
  | none => []
  | some m => (GoMap.range ord.succ m).map (fun p => g.nodes.get p.1)

/-- `graph.LinesOf(g.Lines(uid, vid))`: the lines of `g.from[uid][vid]` in map
order, nil when there is none. -/
def Lines (ord : MapOrder) (g : DirectedGraph) (uid vid : Int) : List Link :=
  match g.from_.get uid with
  | none => []
  | some m =>
    match m.get vid with
    | none => []
    | some lm => (GoMap.range (ord.line vid) lm).map (fun p => p.2)

/-! ## The state machine (lines 76-141) -/

def New : StateMachine := ⟨⟨0, .null⟩, NewDirectedGraph⟩

def Init (c : Globals) (s : StateMachine) (initStateValue : Interface) :
    Except Panic (Globals × StateMachine × State) :=
  let present : State := ⟨c.NodeIDCntr, initStateValue⟩
  match AddNode s.g present with
  | .error p => .error p
  | .ok g => .ok ({ c with NodeIDCntr := wrapInt (c.NodeIDCntr + 1) },
                  { PresentState := present, g := g }, present)

def NewState (c : Globals) (s : StateMachine) (stateValue : Interface) :
    Except Panic (Globals × StateMachine × State) :=
  let state : State := ⟨c.NodeIDCntr, stateValue⟩
  match AddNode s.g state with
  | .error p => .error p
  | .ok g => .ok ({ c with NodeIDCntr := wrapInt (c.NodeIDCntr + 1) }, { s with g := g }, state)

def NewRule (triggerConditionOperator : Operator) (comparisonValue : Event) :
    GoMap Operator Event :=
  [(triggerConditionOperator, comparisonValue)]

def LinkStates (c : Globals) (s : StateMachine) (s1 s2 : State) (rule : GoMap Operator Event) :
    Except Panic (Globals × StateMachine) :=
  match SetLine s.g { F := s1, T := s2, Id := c.LineIDCntr, Rules := rule } with
  | .error p => .error p
  | .ok g => .ok ({ c with LineIDCntr := wrapInt (c.LineIDCntr + 1) }, { s with g := g })

/-- What the loop over `line.Rules` (lines 116-128) does with the entries in
the order given: `goto` is the assignment and `return nil` of lines 121-122,
`fail k` the `default` branch, `next` the end of the loop. -/
inductive RuleOutcome where
  | next
  | goto
  | fail (k : String)
  deriving DecidableEq, Repr

def rulesLoop (e : Event) : List (Operator × Event) → RuleOutcome
  | [] => .next
  | (key, val) :: rest =>
    if key = "eq" then
      if val = e then .goto else rulesLoop e rest
    else .fail key

/-- What a `FireEvent` call that returns leaves behind: the machine, the
`error` returned and what was printed. -/
structure Fired where
  machine : StateMachine
  err : Option String
  out : List String
  deriving DecidableEq, Repr

/-- The result of `FireEvent` when a rule fired towards `n`. -/
def Fired.moved (s : StateMachine) (n : State) : Fired :=
  ⟨{ s with PresentState := n }, none, []⟩

/-- The result of `FireEvent` when no rule fired. -/
def Fired.stayed (s : StateMachine) : Fired := ⟨s, none, []⟩

/-- The result of `FireEvent` on the unsupported operator `k`. -/
def Fired.failed (s : StateMachine) (k : String) : Fired :=
  ⟨s, some "UNSUPPORTED_COMPARISON_OPERATOR",
    ["Sorry, comparison operator '" ++ k ++ "' is not supported\n"]⟩

/-- The loop `for it.Next()` of lines 111-129 over the nodes `From` yields. -/
def nodesLoop (ord : MapOrder) (s : StateMachine) (presentNode : State) (e : Event) :
    List (Option State) → Except Panic Fired
  | [] => .ok ⟨s, none, []⟩
  | none :: _ => .error .nilDereference
  | some m :: rest =>
    match Node s.g m.Id with
    | none => .error .typeAssertion
    | some n =>
      match Lines ord s.g presentNode.Id n.Id with
      | [] => .error .indexOutOfRange
      | line :: _ =>
        match rulesLoop e (GoMap.range (ord.rule n.Id) line.Rules) with
        | .goto => .ok ⟨{ s with PresentState := n }, none, []⟩
        | .fail k =>
          .ok ⟨s, some "UNSUPPORTED_COMPARISON_OPERATOR",
            ["Sorry, comparison operator '" ++ k ++ "' is not supported\n"]⟩
        | .next => nodesLoop ord s presentNode e rest

def FireEvent (ord : MapOrder) (s : StateMachine) (e : Event) : Except Panic Fired :=
  nodesLoop ord s s.PresentState e (From ord s.g s.PresentState.Id)

/-- `Compute`: the machine left behind, the state returned and what was
printed.  `ords i` is the map order of the call of `FireEvent` on `events[i]`. -/
def Compute (fmt : Sprintf) (ords : Nat → MapOrder) (s : StateMachine) :
    List String → Bool → Except Panic (StateMachine × State × List String)
  | [], _ => .ok (s, s.PresentState, [])
  | e :: es, printState =>
    match FireEvent (ords 0) s e with
    | .error p => .error p
    | .ok r =>
      match Compute fmt (fun i => ords (i + 1)) r.machine es printState with
      | .error p => .error p
      | .ok (s2, ret, out) =>
        .ok (s2, ret,
          r.out ++ (if printState then [State.String fmt r.machine.PresentState ++ "\n"] else [])
            ++ out)

/-! ## Well-formed graphs and the transitions leaving a state -/

/-- The shape `AddNode` and `SetLine` keep a graph in: a node is stored under
its own id; in every successor map the destination ids are distinct, every
destination is a stored node and has at least one line, and every line is
stored under the id of its `To` node. -/
def WF (g : DirectedGraph) : Prop :=
  (∀ p ∈ g.nodes, p.2.Id = p.1) ∧
  (∀ q ∈ g.from_, (q.2.map Prod.fst).Nodup ∧
    ∀ p ∈ q.2, (g.nodes.get p.1).isSome = true ∧ p.2 ≠ [] ∧ ∀ r ∈ p.2, r.2.T.Id = p.1)

instance (g : DirectedGraph) : Decidable (WF g) := by
  unfold WF; infer_instance

/-- The transitions leaving the node `uid`: all the lines of `g.from[uid]`. -/
def outgoing (g : DirectedGraph) (uid : Int) : List Link :=
  match g.from_.get uid with
  | none => []
  | some m => (m.map (fun p => p.2.map (fun r => r.2))).flatten

/-- No entry of the rule set can fire on `e`, and none is unsupported. -/
def Link.misses (l : Link) (e : Event) : Prop :=
  ∀ x ∈ l.Rules, x.1 = "eq" ∧ x.2 ≠ e

/-- Every entry of the rule set is an equality, and one of them expects `e`. -/
def Link.hits (l : Link) (e : Event) : Prop :=
  (∀ x ∈ l.Rules, x.1 = "eq") ∧ ∃ x ∈ l.Rules, x.2 = e

/-- No entry of the rule set fires on `e`, and one of them is unsupported. -/
def Link.unsupported (l : Link) (e : Event) : Prop :=
  (∀ x ∈ l.Rules, x.1 = "eq" → x.2 ≠ e) ∧ ∃ x ∈ l.Rules, x.1 ≠ "eq"

instance (l : Link) (e : Event) : Decidable (l.misses e) := by
  unfold Link.misses; infer_instance

instance (l : Link) (e : Event) : Decidable (l.hits e) := by
  unfold Link.hits; infer_instance

instance (l : Link) (e : Event) : Decidable (l.unsupported e) := by
  unfold Link.unsupported; infer_instance

/-- A graph on which the map orders cannot be seen: every rule entry has the
operator "eq", no two transitions leaving the same state lead to the same
destination, and no two transitions leaving the same state expect the same
event. -/
def Unambiguous (g : DirectedGraph) : Prop :=
  ∀ q ∈ g.from_, ∀ x ∈ q.2, ∀ r ∈ x.2,
    (∀ a ∈ r.2.Rules, a.1 = "eq") ∧
    ∀ y ∈ q.2, ∀ r' ∈ y.2, r'.2 ≠ r.2 →
      r'.2.T.Id ≠ r.2.T.Id ∧ ∀ a ∈ r.2.Rules, ∀ b ∈ r'.2.Rules, a.2 ≠ b.2

instance (g : DirectedGraph) : Decidable (Unambiguous g) := by
  unfold Unambiguous; infer_instance

/-! ## Programs: sequences of calls on the machines of one process -/

/-- A call of an exported operation; `m` numbers the machines in the order
`New` returned them. -/
inductive Call where
  | new
  | init (m : Nat) (v : Interface)
  | newState (m : Nat) (v : Interface)
  | linkStates (m : Nat) (s1 s2 : State) (rule : GoMap Operator Event)
  | fireEvent (m : Nat) (ord : MapOrder) (e : Event)
  | compute (m : Nat) (fmt : Sprintf) (ords : Nat → MapOrder) (events : List String)
      (printState : Bool)

/-- The state of a process: the package-level counters, the machines and
standard output, together with two records kept for the statements only: the
states `Init` and `NewState` returned and the links `LinkStates` stored, in
order of creation. -/
structure World where
  c : Globals
  machines : List StateMachine
  out : List String
  created : List State
  linked : List Link
  deriving DecidableEq, Repr

/-- The process before its first call. -/
def World.initial : World := ⟨Globals.initial, [], [], [], []⟩

/-- One call.  A call on a machine that `New` has not returned is no call of a
program and leaves the world as it is. -/
def World.step (w : World) : Call → Except Panic World
  | .new => .ok { w with machines := w.machines ++ [New] }
  | .init m v =>
    match w.machines[m]? with
    | none => .ok w
    | some s =>
      match Init w.c s v with
      | .error p => .error p
      | .ok (c, s1, st) =>
        .ok { w with c := c, machines := w.machines.set m s1, created := w.created ++ [st] }
  | .newState m v =>
    match w.machines[m]? with
    | none => .ok w
    | some s =>
      match NewState w.c s v with
      | .error p => .error p
      | .ok (c, s1, st) =>
        .ok { w with c := c, machines := w.machines.set m s1, created := w.created ++ [st] }
  | .linkStates m s1 s2 rule =>
    match w.machines[m]? with
    | none => .ok w
    | some s =>
      match LinkStates w.c s s1 s2 rule with
      | .error p => .error p
      | .ok (c, s3) =>
        .ok { w with c := c, machines := w.machines.set m s3,
                     linked := w.linked ++ [⟨w.c.LineIDCntr, s2, s1, rule⟩] }
  | .fireEvent m ord e =>
    match w.machines[m]? with
    | none => .ok w
    | some s =>
      match FireEvent ord s e with
      | .error p => .error p
      | .ok r => .ok { w with machines := w.machines.set m r.machine, out := w.out ++ r.out }
  | .compute m fmt ords events printState =>
    match w.machines[m]? with
    | none => .ok w
    | some s =>
      match Compute fmt ords s events printState with
      | .error p => .error p
      | .ok (s1, _, out) => .ok { w with machines := w.machines.set m s1, out := w.out ++ out }

def World.run (w : World) : List Call → Except Panic World
  | [] => .ok w
  | a :: rest =>
    match w.step a with
    | .error p => .error p
    | .ok w1 => w1.run rest

/-- The counters count the creations: after `n` states and `k` transitions
they hold `n` and `k + 1` up to wrap-around, and the ids handed out so far are
the values the counters went through. -/
def World.Sequential (w : World) : Prop :=
  w.c.NodeIDCntr = wrapInt w.created.length ∧
  w.c.LineIDCntr = wrapInt (w.linked.length + 1) ∧
  w.created.map State.Id = (List.range w.created.length).map (fun i : Nat => wrapInt i) ∧
  w.linked.map Link.Id = (List.range w.linked.length).map (fun i : Nat => wrapInt (i + 1))

/-- Every machine of the process holds a well-formed graph. -/
def World.WF (w : World) : Prop := ∀ s ∈ w.machines, Fms.WF s.g

/-! ## The machines used as examples -/

/-- The setup of `main` (lines 144-156). -/
def mainSetup : List Call :=
  [.new,
   .init 0 (.string "locked"),
   .newState 0 (.string "unlocked"),
   .linkStates 0 ⟨0, .string "locked"⟩ ⟨1, .string "unlocked"⟩ (NewRule "eq" "coin"),
   .linkStates 0 ⟨1, .string "unlocked"⟩ ⟨0, .string "locked"⟩ (NewRule "eq" "push"),
   .linkStates 0 ⟨0, .string "locked"⟩ ⟨0, .string "locked"⟩ (NewRule "eq" "push"),
   .linkStates 0 ⟨1, .string "unlocked"⟩ ⟨1, .string "unlocked"⟩ (NewRule "eq" "coin")]

def locked : State := ⟨0, .string "locked"⟩

def unlocked : State := ⟨1, .string "unlocked"⟩

/-- The graph `mainSetup` builds. -/
def turnstileGraph : DirectedGraph :=
  { nodes := [(0, locked), (1, unlocked)],
    from_ :=
      [(0, [(1, [(1, ⟨1, unlocked, locked, [("eq", "coin")]⟩)]),
            (0, [(3, ⟨3, locked, locked, [("eq", "push")]⟩)])]),
       (1, [(0, [(2, ⟨2, locked, unlocked, [("eq", "push")]⟩)]),
            (1, [(4, ⟨4, unlocked, unlocked, [("eq", "coin")]⟩)])])] }

/-- The machine `mainSetup` builds. -/
def turnstile : StateMachine := ⟨locked, turnstileGraph⟩

/-- The process `mainSetup` leaves. -/
def mainWorld : World :=
  { c := ⟨2, 5⟩,
    machines := [turnstile],
    out := [],
    created := [locked, unlocked],
    linked := [⟨1, unlocked, locked, [("eq", "coin")]⟩, ⟨2, locked, unlocked, [("eq", "push")]⟩,
               ⟨3, locked, locked, [("eq", "push")]⟩, ⟨4, unlocked, unlocked, [("eq", "coin")]⟩] }

/-- Two parallel transitions from state 0 to state 1, the one on "b" linked
before the one on "a". -/
def shadowedSetup : List Call :=
  [.new,
   .init 0 (.string "s"),
   .newState 0 (.string "d"),
   .linkStates 0 ⟨0, .string "s"⟩ ⟨1, .string "d"⟩ (NewRule "eq" "b"),
   .linkStates 0 ⟨0, .string "s"⟩ ⟨1, .string "d"⟩ (NewRule "eq" "a")]

/-- The machine `shadowedSetup` builds. -/
def shadowed : StateMachine :=
  { PresentState := ⟨0, .string "s"⟩,
    g := { nodes := [(0, ⟨0, .string "s"⟩), (1, ⟨1, .string "d"⟩)],
           from_ :=
             [(0, [(1, [(1, ⟨1, ⟨1, .string "d"⟩, ⟨0, .string "s"⟩, [("eq", "b")]⟩),
                        (2, ⟨2, ⟨1, .string "d"⟩, ⟨0, .string "s"⟩, [("eq", "a")]⟩)])])] } }

/-- A transition on "v" to state 1 linked before a transition to state 2 whose
operator is "gt". -/
def mixedSetup : List Call :=
  [.new,
   .init 0 (.string "s"),
   .newState 0 (.string "a"),
   .newState 0 (.string "b"),
   .linkStates 0 ⟨0, .string "s"⟩ ⟨1, .string "a"⟩ (NewRule "eq" "v"),
   .linkStates 0 ⟨0, .string "s"⟩ ⟨2, .string "b"⟩ (NewRule "gt" "v")]

/-- The machine `mixedSetup` builds. -/
def mixed : StateMachine :=
  { PresentState := ⟨0, .string "s"⟩,
    g := { nodes := [(0, ⟨0, .string "s"⟩), (1, ⟨1, .string "a"⟩), (2, ⟨2, .string "b"⟩)],
           from_ :=
             [(0, [(1, [(1, ⟨1, ⟨1, .string "a"⟩, ⟨0, .string "s"⟩, [("eq", "v")]⟩)]),
                   (2, [(2, ⟨2, ⟨2, .string "b"⟩, ⟨0, .string "s"⟩, [("gt", "v")]⟩)])])] } }

/-- Two transitions on "x" from state 0, to state 1 and then to state 2. -/
def forkedSetup : List Call :=
  [.new,
   .init 0 (.string "s"),
   .newState 0 (.string "d1"),
   .newState 0 (.string "d2"),
   .linkStates 0 ⟨0, .string "s"⟩ ⟨1, .string "d1"⟩ (NewRule "eq" "x"),
   .linkStates 0 ⟨0, .string "s"⟩ ⟨2, .string "d2"⟩ (NewRule "eq" "x")]

/-- The machine `forkedSetup` builds. -/
def forked : StateMachine :=
  { PresentState := ⟨0, .string "s"⟩,
    g := { nodes := [(0, ⟨0, .string "s"⟩), (1, ⟨1, .string "d1"⟩), (2, ⟨2, .string "d2"⟩)],
           from_ :=
             [(0, [(1, [(1, ⟨1, ⟨1, .string "d1"⟩, ⟨0, .string "s"⟩, [("eq", "x")]⟩)]),
                   (2, [(2, ⟨2, ⟨2, .string "d2"⟩, ⟨0, .string "s"⟩, [("eq", "x")]⟩)])])] } }

/-- A map order that visits successors and lines by decreasing id, and the
entry "eq" of a rule set last. -/
def MapOrder.descending : MapOrder :=
  ⟨fun vid => (100 - vid).toNat, fun _ lid => (100 - lid).toNat,
    fun _ op => if op = "eq" then 1 else 0⟩

/-- One transition from state 0 to state 1 whose rule set has two entries. -/
def twoRulesSetup : List Call :=
  [.new,
   .init 0 (.string "s"),
   .newState 0 (.string "d"),
   .linkStates 0 ⟨0, .string "s"⟩ ⟨1, .string "d"⟩ [("eq", "x"), ("gt", "x")]]

/-- The machine `twoRulesSetup` builds. -/
def twoRules : StateMachine :=
  { PresentState := ⟨0, .string "s"⟩,
    g := { nodes := [(0, ⟨0, .string "s"⟩), (1, ⟨1, .string "d"⟩)],
           from_ :=
             [(0, [(1, [(1, ⟨1, ⟨1, .string "d"⟩, ⟨0, .string "s"⟩,
                          [("eq", "x"), ("gt", "x")]⟩)])])] } }

/-- A machine in state 0 whose only transition, to state 1, has the operator
"gt". -/
def failing : StateMachine :=
  { PresentState := ⟨0, .string "s"⟩,
    g := { nodes := [(0, ⟨0, .string "s"⟩), (1, ⟨1, .string "t"⟩)],
           from_ :=
             [(0, [(1, [(1, ⟨1, ⟨1, .string "t"⟩, ⟨0, .string "s"⟩, [("gt", "v")]⟩)])])] } }

/-! ## Specification-side definitions -/

/-- The batch operation in the words of the specification: "applies
`fireEvent` to each event in order", the result of each call discarded but for
the machine it leaves, and "returns the final current state" of the machine
reached. -/
def foldFire (ords : Nat → MapOrder) (s : StateMachine) : List String → Except Panic StateMachine
  | [] => .ok s
  | e :: es =>
    match FireEvent (ords 0) s e with
    | .error p => .error p
    | .ok r => foldFire (fun i => ords (i + 1)) r.machine es

/-- The map orders of a run from which the call number `n` is left out. -/
def skipOrder (n : Nat) (ords : Nat → MapOrder) : Nat → MapOrder :=
  fun i => if i < n then ords i else ords (i + 1)

/-- The map orders of a run whose first call visits the maps in `descending`
order and whose later calls visit them in insertion order. -/
def descendingFirst : Nat → MapOrder :=
  fun i => if i = 0 then MapOrder.descending else MapOrder.insertion

/-- A stand-in for `fmt.Sprintf` on machines that hold no float. -/
def noFloats : Sprintf := ⟨fun _ => "", fun _ => ""⟩

/-- The turnstile in the words of the specification: "coin" leads to
"unlocked", "push" leads to "locked", any other event changes nothing. -/
def turnstileNext (st : State) (e : String) : State :=
  if e = "coin" then unlocked else if e = "push" then locked else st

/-- The state of the turnstile after a sequence of events. -/
def turnstileEnd (st : State) : List String → State
  | [] => st
  | e :: es => turnstileEnd (turnstileNext st e) es

/-- The states of the turnstile after each event of a sequence. -/
def turnstileTrace (st : State) : List String → List State
  | [] => []
  | e :: es => turnstileNext st e :: turnstileTrace (turnstileNext st e) es

/-- The number a string of decimal digits writes, the first digit being the
most significant. -/
def decimal (cs : List Char) : Nat := cs.foldl (fun a c => 10 * a + (c.toNat - 48)) 0

/-! ## What one call of `FireEvent` looks at -/

/-- One turn of the loop of `FireEvent` up to line 114: the stored successor
`n` and the line `graph.LinesOf(...)[0]`, or nothing when the turn panics. -/
def examinedAt (ord : MapOrder) (s : StateMachine) : Option State → Option (State × Link)
  | none => none
  | some m =>
    match Node s.g m.Id with
    | none => none
    | some n =>
      match Lines ord s.g s.PresentState.Id n.Id with
      | [] => none
      | line :: _ => some (n, line)

/-- The successors and lines a call of `FireEvent` can come to evaluate, in the
order of the loop: for each node `From` yields, that node and the first line
`Lines` returns for it. -/
def examined (ord : MapOrder) (s : StateMachine) : List (State × Link) :=
  (From ord s.g s.PresentState.Id).filterMap (examinedAt ord s)

/-- The resolution in the words of the specification: the transitions are
taken in order; the first whose rule set fires makes its destination the
current state, the first whose rule set is unsupported aborts with the error,
and when none does either the state is unchanged. -/
def resolve (ord : MapOrder) (e : Event) (s : StateMachine) : List (State × Link) → Fired
  | [] => Fired.stayed s
  | (n, l) :: rest =>
    match rulesLoop e (GoMap.range (ord.rule n.Id) l.Rules) with
    | .goto => Fired.moved s n
    | .fail k => Fired.failed s k
    | .next => resolve ord e s rest

/-- The assignments `s.PresentState = n` (line 121) that the loop of `FireEvent`
performs, in order: a record kept for the statements only, read off the same
loop as `nodesLoop`. -/
def nodesLoopAssigns (ord : MapOrder) (s : StateMachine) (presentNode : State) (e : Event) :
    List (Option State) → List State
  | [] => []
  | none :: _ => []
  | some m :: rest =>
    match Node s.g m.Id with
    | none => []
    | some n =>
      match Lines ord s.g presentNode.Id n.Id with
      | [] => []
      | line :: _ =>
        match rulesLoop e (GoMap.range (ord.rule n.Id) line.Rules) with
        | .goto => [n]
        | .fail _ => []
        | .next => nodesLoopAssigns ord s presentNode e rest

/-- The assignments to `PresentState` that one call of `FireEvent` performs. -/
def FireEventAssigns (ord : MapOrder) (s : StateMachine) (e : Event) : List State :=
  nodesLoopAssigns ord s s.PresentState e (From ord s.g s.PresentState.Id)

/-- The destination the resolution moves to, in the words of the
specification: that of the first transition, in the order examined, whose rule
set fires, provided no transition before it is unsupported. -/
def fires (ord : MapOrder) (e : Event) : List (State × Link) → Option State
  | [] => none
  | (n, l) :: rest =>
    match rulesLoop e (GoMap.range (ord.rule n.Id) l.Rules) with
    | .goto => some n
    | .fail _ => none
    | .next => fires ord e rest

/-! ## Programs that pass on the states they were given -/

/-- A call a program can make with what the operations returned so far: on a
machine `New` has returned, and, for `LinkStates`, with two states that `Init`
or `NewState` returned. -/
def World.admits (w : World) : Call → Prop
  | .new => True
  | .init m _ => m < w.machines.length
  | .newState m _ => m < w.machines.length
  | .linkStates m s1 s2 _ => m < w.machines.length ∧ s1 ∈ w.created ∧ s2 ∈ w.created
  | .fireEvent m _ _ => m < w.machines.length
  | .compute m _ _ _ _ => m < w.machines.length

instance (w : World) (a : Call) : Decidable (w.admits a) := by
  cases a <;> (simp only [World.admits]; infer_instance)

/-- Every call of the sequence is admitted by the world it is made in. -/
def World.Admissible (w : World) : List Call → Prop
  | [] => True
  | a :: rest =>
    w.admits a ∧
      match w.step a with
      | .ok w1 => World.Admissible w1 rest
      | .error _ => True

instance World.instDecidableAdmissible :
    (w : World) → (calls : List Call) → Decidable (w.Admissible calls)
  | _, [] => isTrue trivial
  | w, a :: rest =>
    match h : w.step a with
    | .ok w1 =>
      have := World.instDecidableAdmissible w1 rest
      decidable_of_iff (w.admits a ∧ World.Admissible w1 rest) (by simp [World.Admissible, h])
    | .error _ => decidable_of_iff (w.admits a) (by simp [World.Admissible, h])

/-- Every node stored in a machine is a state `Init` or `NewState` returned. -/
def World.Owned (w : World) : Prop := ∀ s ∈ w.machines, ∀ p ∈ s.g.nodes, p.2 ∈ w.created

/-- The current state is the node stored under its id. -/
def StateMachine.Anchored (s : StateMachine) : Prop :=
  Node s.g s.PresentState.Id = some s.PresentState

/-- The setup of `main` followed by one call of `Compute`. -/
def mainRun : List Call :=
  mainSetup ++ [.compute 0 noFloats (fun _ => MapOrder.insertion) ["coin", "push", "coin"] true]

/-- The process `mainRun` leaves. -/
def mainRunWorld : World :=
  { mainWorld with
    machines := [⟨unlocked, turnstileGraph⟩],
    out := ["unlocked\n", "locked\n", "unlocked\n"] }

/-- A first machine that creates two states and links them. -/
def freshSetup : List Call :=
  [.new,
   .init 0 (.string "a"),
   .newState 0 (.string "b"),
   .linkStates 0 ⟨0, .string "a"⟩ ⟨1, .string "b"⟩ (NewRule "eq" "go")]

/-- The same calls as `freshSetup`, on a second machine, after the setup of
`main` on the first. -/
def secondSetup : List Call :=
  mainSetup ++
    [.new,
     .init 1 (.string "a"),
     .newState 1 (.string "b"),
     .linkStates 1 ⟨2, .string "a"⟩ ⟨3, .string "b"⟩ (NewRule "eq" "go")]

/-- A process that creates `n` machines and calls `Init` once on each of
them: `New().Init(nil)`, `n` times. -/
def manyInits : Nat → List Call
  | 0 => []
  | n + 1 => manyInits n ++ [.new, .init n .null]

/-! # Properties -/

/-! ## Lemmas on Go maps -/

namespace GoMap

variable {K V : Type}

theorem mem_of_get [DecidableEq K] {m : GoMap K V} {k : K} {v : V}
    (h : m.get k = some v) : (k, v) ∈ m := by
  induction m with
  | nil => simp [get] at h
  | cons a rest ih =>
    obtain ⟨k', v'⟩ := a
    by_cases hk : k' = k
    · subst hk
      simp [get] at h
      simp [h]
    · simp [get, hk] at h
      exact List.mem_cons_of_mem _ (ih h)

theorem get_of_mem [DecidableEq K] {m : GoMap K V} {k : K} {v : V}
    (hnd : (m.map Prod.fst).Nodup) (h : (k, v) ∈ m) : m.get k = some v := by
  induction m with
  | nil => simp at h
  | cons a rest ih =>
    obtain ⟨k', v'⟩ := a
    simp only [List.map_cons, List.nodup_cons] at hnd
    rcases List.mem_cons.mp h with h1 | h1
    · cases h1
      simp [get]
    · have hne : k' ≠ k := by
        intro hk
        subst hk
        exact hnd.1 (List.mem_map.mpr ⟨(k', v), h1, rfl⟩)
      simp [get, hne, ih hnd.2 h1]

theorem range_perm (prio : K → Nat) (m : GoMap K V) : (range prio m).Perm m :=
  List.perm_insertionSort _ m

theorem mem_range {prio : K → Nat} {m : GoMap K V} {p : K × V} :
    p ∈ range prio m ↔ p ∈ m :=
  (range_perm prio m).mem_iff

theorem range_ne_nil (prio : K → Nat) {m : GoMap K V} (h : m ≠ []) : range prio m ≠ [] := by
  intro h0
  have hp := range_perm prio m
  rw [h0] at hp
  exact h hp.symm.eq_nil

theorem mem_set [DecidableEq K] {m : GoMap K V} {k : K} {v : V} {p : K × V}
    (h : p ∈ m.set k v) : p = (k, v) ∨ p ∈ m := by
  induction m with
  | nil =>
    simp only [set, List.mem_singleton] at h
    exact Or.inl h
  | cons a rest ih =>
    obtain ⟨k', v'⟩ := a
    by_cases hk : k' = k
    · simp only [set, hk, if_true] at h
      rcases List.mem_cons.mp h with h1 | h1
      · exact Or.inl h1
      · exact Or.inr (List.mem_cons_of_mem _ h1)
    · simp only [set, hk, if_false] at h
      rcases List.mem_cons.mp h with h1 | h1
      · exact Or.inr (h1 ▸ List.mem_cons_self _ _)
      · rcases ih h1 with h2 | h2
        · exact Or.inl h2
        · exact Or.inr (List.mem_cons_of_mem _ h2)

theorem set_ne_nil [DecidableEq K] (m : GoMap K V) (k : K) (v : V) : m.set k v ≠ [] := by
  cases m with
  | nil => simp [set]
  | cons a rest =>
    obtain ⟨k', v'⟩ := a
    by_cases hk : k' = k <;> simp [set, hk]

theorem keys_set [DecidableEq K] (m : GoMap K V) (k : K) (v : V) :
    ∀ x, x ∈ (m.set k v).map Prod.fst ↔ x = k ∨ x ∈ m.map Prod.fst := by
  induction m with
  | nil => intro x; simp [set]
  | cons a rest ih =>
    obtain ⟨k', v'⟩ := a
    intro x
    by_cases hk : k' = k
    · subst hk
      simp [set]
    · simp only [set, hk, if_false, List.map_cons, List.mem_cons, ih x]
      constructor
      · rintro (h | h | h)
        · exact Or.inr (Or.inl h)
        · exact Or.inl h
        · exact Or.inr (Or.inr h)
      · rintro (h | h | h)
        · exact Or.inr (Or.inl h)
        · exact Or.inl h
        · exact Or.inr (Or.inr h)

theorem nodup_set [DecidableEq K] {m : GoMap K V} (k : K) (v : V)
    (h : (m.map Prod.fst).Nodup) : ((m.set k v).map Prod.fst).Nodup := by
  induction m with
  | nil => simp [set]
  | cons a rest ih =>
    obtain ⟨k', v'⟩ := a
    simp only [List.map_cons, List.nodup_cons] at h
    by_cases hk : k' = k
    · subst hk
      simp only [set, if_true, List.map_cons, List.nodup_cons]
      exact h
    · simp only [set, hk, if_false, List.map_cons, List.nodup_cons]
      refine ⟨fun hmem => ?_, ih h.2⟩
      rcases (keys_set rest k v k').mp hmem with h1 | h1
      · exact hk h1
      · exact h.1 h1

theorem get_isSome_iff [DecidableEq K] (m : GoMap K V) (k : K) :
    (m.get k).isSome = true ↔ k ∈ m.map Prod.fst := by
  induction m with
  | nil => simp [get]
  | cons a rest ih =>
    obtain ⟨k', v'⟩ := a
    by_cases hk : k' = k
    · subst hk
      simp [get]
    · simp only [get, hk, if_false, ih, List.map_cons, List.mem_cons]
      constructor
      · exact fun h => Or.inr h
      · rintro (h | h)
        · exact absurd h.symm hk
        · exact h

theorem get_set_isSome [DecidableEq K] (m : GoMap K V) (k : K) (v : V) (k' : K)
    (h : k' = k ∨ (m.get k').isSome = true) : ((m.set k v).get k').isSome = true := by
  rw [get_isSome_iff, keys_set]
  rcases h with h | h
  · exact Or.inl h
  · exact Or.inr ((get_isSome_iff m k').mp h)

theorem eq_of_key_eq [DecidableEq K] {m : GoMap K V} (hnd : (m.map Prod.fst).Nodup)
    {a b : K × V} (ha : a ∈ m) (hb : b ∈ m) (h : a.1 = b.1) : a = b := by
  have h1 := get_of_mem hnd (show (a.1, a.2) ∈ m from ha)
  have h2 := get_of_mem hnd (show (b.1, b.2) ∈ m from hb)
  rw [h, h2] at h1
  exact Prod.ext h (Option.some.inj h1).symm

theorem range_sorted (prio : K → Nat) (m : GoMap K V) :
    (range prio m).Pairwise (fun a b => prio a.1 ≤ prio b.1) := by
  have htotal : IsTotal (K × V) (fun a b => prio a.1 ≤ prio b.1) :=
    ⟨fun a b => Nat.le_total _ _⟩
  have htrans : IsTrans (K × V) (fun a b => prio a.1 ≤ prio b.1) :=
    ⟨fun a b c h1 h2 => Nat.le_trans h1 h2⟩
  exact List.sorted_insertionSort (fun a b : K × V => prio a.1 ≤ prio b.1) m

/-- The priorities reach every order: each arrangement of the entries of a map
with distinct keys is the order `range` gives for some priority. -/
theorem range_any_order [DecidableEq K] (m m' : GoMap K V) (hperm : m'.Perm m)
    (hnd : (m.map Prod.fst).Nodup) :
    ∃ prio : K → Nat, range prio m = m' := by
  have hnd' : (m'.map Prod.fst).Nodup := (hperm.map Prod.fst).nodup_iff.mpr hnd
  refine ⟨fun k => List.indexOf k (m'.map Prod.fst), ?_⟩
  have hp : (range (fun k => List.indexOf k (m'.map Prod.fst)) m).Perm m' :=
    (range_perm _ m).trans hperm.symm
  refine List.Perm.eq_of_sorted ?_ (range_sorted _ m) ?_ hp
  · intro a b ha hb h1 h2
    have ha' : a ∈ m' := hp.subset ha
    apply eq_of_key_eq hnd' ha' hb
    exact (List.indexOf_inj (List.mem_map.mpr ⟨a, ha', rfl⟩)
      (List.mem_map.mpr ⟨b, hb, rfl⟩)).mp (Nat.le_antisymm h1 h2)
  · rw [List.pairwise_iff_getElem]
    intro i j hi hj hij
    have hi' : i < (m'.map Prod.fst).length := by simpa using hi
    have hj' : j < (m'.map Prod.fst).length := by simpa using hj
    have e1 : (m'.map Prod.fst)[i] = m'[i].1 := List.getElem_map _
    have e2 : (m'.map Prod.fst)[j] = m'[j].1 := List.getElem_map _
    rw [← e1, ← e2, List.indexOf_getElem hnd', List.indexOf_getElem hnd']
    exact Nat.le_of_lt hij

end GoMap

/-! ## The rule loop -/

theorem rulesLoop_next {e : Event} {l : List (Operator × Event)}
    (h : ∀ x ∈ l, x.1 = "eq" ∧ x.2 ≠ e) : rulesLoop e l = .next := by
  induction l with
  | nil => rfl
  | cons a rest ih =>
    obtain ⟨k, v⟩ := a
    have ha := h (k, v) (List.mem_cons_self _ _)
    simp only at ha
    simp only [rulesLoop, ha.1, ha.2, if_true, if_false]
    exact ih (fun x hx => h x (List.mem_cons_of_mem _ hx))

theorem rulesLoop_goto {e : Event} {l : List (Operator × Event)}
    (hall : ∀ x ∈ l, x.1 = "eq") (hex : ∃ x ∈ l, x.2 = e) : rulesLoop e l = .goto := by
  induction l with
  | nil => simp at hex
  | cons a rest ih =>
    obtain ⟨k, v⟩ := a
    have ha := hall (k, v) (List.mem_cons_self _ _)
    simp only at ha
    by_cases hv : v = e
    · simp [rulesLoop, ha, hv]
    · simp only [rulesLoop, ha, hv, if_true, if_false]
      apply ih (fun x hx => hall x (List.mem_cons_of_mem _ hx))
      obtain ⟨x, hx, hxe⟩ := hex
      rcases List.mem_cons.mp hx with h1 | h1
      · subst h1
        exact absurd hxe hv
      · exact ⟨x, h1, hxe⟩

theorem rulesLoop_fail {e : Event} {l : List (Operator × Event)}
    (hall : ∀ x ∈ l, x.1 = "eq" → x.2 ≠ e) (hex : ∃ x ∈ l, x.1 ≠ "eq") :
    ∃ k, k ≠ "eq" ∧ rulesLoop e l = .fail k := by
  induction l with
  | nil => simp at hex
  | cons a rest ih =>
    obtain ⟨k, v⟩ := a
    by_cases hk : k = "eq"
    · have hv : v ≠ e := hall (k, v) (List.mem_cons_self _ _) hk
      simp only [rulesLoop, hk, hv, if_true, if_false]
      apply ih (fun x hx => hall x (List.mem_cons_of_mem _ hx))
      obtain ⟨x, hx, hxe⟩ := hex
      rcases List.mem_cons.mp hx with h1 | h1
      · subst h1
        exact absurd hk hxe
      · exact ⟨x, h1, hxe⟩
    · exact ⟨k, hk, by simp [rulesLoop, hk]⟩

theorem Link.misses_loop {l : Link} {e : Event} (h : l.misses e) (prio : Operator → Nat) :
    rulesLoop e (GoMap.range prio l.Rules) = .next :=
  rulesLoop_next (fun x hx => h x (GoMap.mem_range.mp hx))

theorem Link.hits_loop {l : Link} {e : Event} (h : l.hits e) (prio : Operator → Nat) :
    rulesLoop e (GoMap.range prio l.Rules) = .goto := by
  obtain ⟨x, hx, hxe⟩ := h.2
  exact rulesLoop_goto (fun y hy => h.1 y (GoMap.mem_range.mp hy))
    ⟨x, GoMap.mem_range.mpr hx, hxe⟩

theorem Link.unsupported_loop {l : Link} {e : Event} (h : l.unsupported e)
    (prio : Operator → Nat) :
    ∃ k, k ≠ "eq" ∧ rulesLoop e (GoMap.range prio l.Rules) = .fail k := by
  obtain ⟨x, hx, hxe⟩ := h.2
  exact rulesLoop_fail (fun y hy => h.1 y (GoMap.mem_range.mp hy))
    ⟨x, GoMap.mem_range.mpr hx, hxe⟩

/-! ## The successor loop -/

/-- One turn of the successor loop on a well-formed graph: the successor is a
stored node, one line of its line map is picked, and the rule loop on that
line decides. -/
theorem nodesLoop_entry (ord : MapOrder) (s : StateMachine) (present : State) (e : Event)
    (m : GoMap Int (GoMap Int Link)) (hwf : WF s.g)
    (hm : s.g.from_.get present.Id = some m) (p : Int × GoMap Int Link) (hp : p ∈ m)
    (rest : List (Option State)) :
    ∃ n l, s.g.nodes.get p.1 = some n ∧ l ∈ p.2.map (fun r => r.2) ∧
      nodesLoop ord s present e (s.g.nodes.get p.1 :: rest) =
        match rulesLoop e (GoMap.range (ord.rule p.1) l.Rules) with
        | .goto => .ok (Fired.moved s n)
        | .fail k => .ok (Fired.failed s k)
        | .next => nodesLoop ord s present e rest := by
  obtain ⟨hnodes, hfrom⟩ := hwf
  obtain ⟨hnd, hent⟩ := hfrom _ (GoMap.mem_of_get hm)
  obtain ⟨hsome, hne, _⟩ := hent p hp
  obtain ⟨n, hn⟩ := Option.isSome_iff_exists.mp hsome
  have hid : n.Id = p.1 := hnodes _ (GoMap.mem_of_get hn)
  have hget : m.get p.1 = some p.2 := GoMap.get_of_mem hnd hp
  have hrange := GoMap.range_ne_nil (ord.line p.1) hne
  obtain ⟨q, qs, hq⟩ := List.exists_cons_of_ne_nil hrange
  have hqmem : q ∈ p.2 := GoMap.mem_range.mp (by rw [hq]; exact List.mem_cons_self _ _)
  refine ⟨n, q.2, hn, List.mem_map.mpr ⟨q, hqmem, rfl⟩, ?_⟩
  simp only [hn, nodesLoop, Node, hid, Lines, hm, hget, hq, List.map_cons]
  cases rulesLoop e (GoMap.range (ord.rule p.1) q.2.Rules) <;> rfl

theorem mem_outgoing {g : DirectedGraph} {uid : Int} {l : Link} :
    l ∈ outgoing g uid ↔
      ∃ m, g.from_.get uid = some m ∧ ∃ x ∈ m, l ∈ x.2.map (fun r => r.2) := by
  unfold outgoing
  cases h : g.from_.get uid with
  | none => simp
  | some m =>
    show l ∈ (m.map (fun p => p.2.map (fun r => r.2))).flatten ↔ _
    rw [List.mem_flatten]
    constructor
    · rintro ⟨ls, hls, hl⟩
      obtain ⟨x, hx, rfl⟩ := List.mem_map.mp hls
      exact ⟨m, rfl, x, hx, hl⟩
    · rintro ⟨m', hm', x, hx, hl⟩
      cases hm'
      exact ⟨_, List.mem_map.mpr ⟨x, hx, rfl⟩, hl⟩

/-- The loop leaves the machine alone when every line it can pick misses. -/
theorem nodesLoop_stayed (ord : MapOrder) (s : StateMachine) (present : State) (e : Event)
    (m : GoMap Int (GoMap Int Link)) (hwf : WF s.g)
    (hm : s.g.from_.get present.Id = some m) (ps : List (Int × GoMap Int Link))
    (hps : ∀ x ∈ ps, x ∈ m ∧ ∀ l ∈ x.2.map (fun r => r.2), l.misses e) :
    nodesLoop ord s present e (ps.map (fun p => s.g.nodes.get p.1)) = .ok (Fired.stayed s) := by
  induction ps with
  | nil => rfl
  | cons x rest ih =>
    obtain ⟨hx, hmiss⟩ := hps x (List.mem_cons_self _ _)
    obtain ⟨n, l, _, hl, heq⟩ := nodesLoop_entry ord s present e m hwf hm x hx
      (rest.map (fun p => s.g.nodes.get p.1))
    rw [List.map_cons, heq, Link.misses_loop (hmiss l hl)]
    exact ih (fun y hy => hps y (List.mem_cons_of_mem _ hy))

/-- The loop moves to a node satisfying `P` when every line it can pick either
misses or hits towards such a node, and it can reach an entry whose lines all
hit. -/
theorem nodesLoop_moved (P : State → Prop) (ord : MapOrder) (s : StateMachine)
    (present : State) (e : Event)
    (m : GoMap Int (GoMap Int Link)) (hwf : WF s.g)
    (hm : s.g.from_.get present.Id = some m) (ps : List (Int × GoMap Int Link))
    (hps : ∀ x ∈ ps, x ∈ m ∧ ∀ l ∈ x.2.map (fun r => r.2),
      l.misses e ∨ (l.hits e ∧ ∀ n, s.g.nodes.get x.1 = some n → P n))
    (hex : ∃ x ∈ ps, ∀ l ∈ x.2.map (fun r => r.2), l.hits e) :
    ∃ d, P d ∧
      nodesLoop ord s present e (ps.map (fun p => s.g.nodes.get p.1)) =
        .ok (Fired.moved s d) := by
  induction ps with
  | nil => simp at hex
  | cons x rest ih =>
    obtain ⟨hx, hcase⟩ := hps x (List.mem_cons_self _ _)
    obtain ⟨n, l, hn, hl, heq⟩ := nodesLoop_entry ord s present e m hwf hm x hx
      (rest.map (fun p => s.g.nodes.get p.1))
    rw [List.map_cons, heq]
    rcases hcase l hl with hmiss | ⟨hhit, hP⟩
    · rw [Link.misses_loop hmiss]
      apply ih (fun y hy => hps y (List.mem_cons_of_mem _ hy))
      obtain ⟨y, hy, hyhit⟩ := hex
      rcases List.mem_cons.mp hy with h1 | h1
      · subst h1
        obtain ⟨z, hz, hze⟩ := (hyhit l hl).2
        exact absurd hze (hmiss z hz).2
      · exact ⟨y, h1, hyhit⟩
    · rw [Link.hits_loop hhit]
      exact ⟨n, hP n hn, rfl⟩

/-- The loop moves to the node of the first entry whose lines hit, when the
lines of the entries before it miss. -/
theorem nodesLoop_moved_prefix (ord : MapOrder) (s : StateMachine) (present : State)
    (e : Event) (m : GoMap Int (GoMap Int Link)) (hwf : WF s.g)
    (hm : s.g.from_.get present.Id = some m) (pre post : List (Int × GoMap Int Link))
    (x : Int × GoMap Int Link) (d : State)
    (hpre : ∀ a ∈ pre, a ∈ m ∧ ∀ l ∈ a.2.map (fun r => r.2), l.misses e)
    (hx : x ∈ m) (hhit : ∀ l ∈ x.2.map (fun r => r.2), l.hits e)
    (hd : s.g.nodes.get x.1 = some d) :
    nodesLoop ord s present e ((pre ++ x :: post).map (fun p => s.g.nodes.get p.1)) =
      .ok (Fired.moved s d) := by
  induction pre with
  | nil =>
    obtain ⟨n, l, hn, hl, heq⟩ := nodesLoop_entry ord s present e m hwf hm x hx
      (post.map (fun p => s.g.nodes.get p.1))
    rw [List.nil_append, List.map_cons, heq, Link.hits_loop (hhit l hl)]
    rw [hd] at hn
    rw [Option.some.inj hn]
  | cons a rest ih =>
    obtain ⟨ha, hmiss⟩ := hpre a (List.mem_cons_self _ _)
    obtain ⟨n, l, _, hl, heq⟩ := nodesLoop_entry ord s present e m hwf hm a ha
      ((rest ++ x :: post).map (fun p => s.g.nodes.get p.1))
    rw [List.cons_append, List.map_cons, heq, Link.misses_loop (hmiss l hl)]
    exact ih (fun b hb => hpre b (List.mem_cons_of_mem _ hb))

/-- The loop fails when every line it can pick either misses or is
unsupported, and it can reach an entry whose lines are all unsupported. -/
theorem nodesLoop_failed (ord : MapOrder) (s : StateMachine) (present : State) (e : Event)
    (m : GoMap Int (GoMap Int Link)) (hwf : WF s.g)
    (hm : s.g.from_.get present.Id = some m) (ps : List (Int × GoMap Int Link))
    (hps : ∀ x ∈ ps, x ∈ m ∧ ∀ l ∈ x.2.map (fun r => r.2), l.misses e ∨ l.unsupported e)
    (hex : ∃ x ∈ ps, ∀ l ∈ x.2.map (fun r => r.2), l.unsupported e) :
    ∃ k, k ≠ "eq" ∧
      nodesLoop ord s present e (ps.map (fun p => s.g.nodes.get p.1)) =
        .ok (Fired.failed s k) := by
  induction ps with
  | nil => simp at hex
  | cons x rest ih =>
    obtain ⟨hx, hcase⟩ := hps x (List.mem_cons_self _ _)
    obtain ⟨n, l, hn, hl, heq⟩ := nodesLoop_entry ord s present e m hwf hm x hx
      (rest.map (fun p => s.g.nodes.get p.1))
    rw [List.map_cons, heq]
    rcases hcase l hl with hmiss | hbad
    · rw [Link.misses_loop hmiss]
      apply ih (fun y hy => hps y (List.mem_cons_of_mem _ hy))
      obtain ⟨y, hy, hybad⟩ := hex
      rcases List.mem_cons.mp hy with h1 | h1
      · subst h1
        obtain ⟨z, hz, hze⟩ := (hybad l hl).2
        exact absurd (hmiss z hz).1 hze
      · exact ⟨y, h1, hybad⟩
    · obtain ⟨k, hk, hloop⟩ := Link.unsupported_loop hbad (ord.rule x.1)
      rw [hloop]
      exact ⟨k, hk, rfl⟩

/-- An error result leaves the machine as it was, on any list of successors. -/
theorem nodesLoop_err (ord : MapOrder) (s : StateMachine) (present : State) (e : Event)
    (ns : List (Option State)) (r : Fired)
    (h : nodesLoop ord s present e ns = .ok r) (herr : r.err ≠ none) : r.machine = s := by
  induction ns with
  | nil =>
    simp only [nodesLoop, Except.ok.injEq] at h
    subst h
    exact absurd rfl herr
  | cons a rest ih =>
    cases a with
    | none => simp [nodesLoop] at h
    | some m =>
      simp only [nodesLoop] at h
      split at h
      · cases h
      · split at h
        · cases h
        · split at h
          · simp only [Except.ok.injEq] at h
            subst h
            exact absurd rfl herr
          · simp only [Except.ok.injEq] at h
            subst h
            rfl
          · exact ih h

/-! ## `FireEvent` in terms of the outgoing transitions -/

theorem hits_not_misses {l : Link} {e : Event} (h : l.hits e) : ¬ l.misses e := by
  intro hm
  obtain ⟨x, hx, hxe⟩ := h.2
  exact (hm x hx).2 hxe

theorem unsupported_not_misses {l : Link} {e : Event} (h : l.unsupported e) : ¬ l.misses e := by
  intro hm
  obtain ⟨x, hx, hxe⟩ := h.2
  exact hxe (hm x hx).1

theorem FireEvent_of_no_successor (ord : MapOrder) (s : StateMachine) (e : Event)
    (h : s.g.from_.get s.PresentState.Id = none) : FireEvent ord s e = .ok (Fired.stayed s) := by
  simp [FireEvent, From, h, nodesLoop, Fired.stayed]

theorem FireEvent_of_successors (ord : MapOrder) (s : StateMachine) (e : Event)
    (m : GoMap Int (GoMap Int Link)) (h : s.g.from_.get s.PresentState.Id = some m) :
    FireEvent ord s e =
      nodesLoop ord s s.PresentState e
        ((GoMap.range ord.succ m).map (fun p => s.g.nodes.get p.1)) := by
  simp [FireEvent, From, h]

/-- The lines of an entry of a well-formed successor map lead to its key. -/
theorem WF.line_to {g : DirectedGraph} (hwf : WF g) {uid : Int}
    {m : GoMap Int (GoMap Int Link)} (hm : g.from_.get uid = some m)
    {x : Int × GoMap Int Link} (hx : x ∈ m) {l : Link} (hl : l ∈ x.2.map (fun r => r.2)) :
    l.T.Id = x.1 := by
  obtain ⟨r, hr, rfl⟩ := List.mem_map.mp hl
  exact ((hwf.2 _ (GoMap.mem_of_get hm)).2 x hx).2.2 r hr

/-- No outgoing transition can fire: the machine stays where it is. -/
theorem FireEvent_stayed (ord : MapOrder) (s : StateMachine) (e : Event) (hwf : WF s.g)
    (hmiss : ∀ l ∈ outgoing s.g s.PresentState.Id, l.misses e) :
    FireEvent ord s e = .ok (Fired.stayed s) := by
  cases hm : s.g.from_.get s.PresentState.Id with
  | none => exact FireEvent_of_no_successor ord s e hm
  | some m =>
    rw [FireEvent_of_successors ord s e m hm]
    apply nodesLoop_stayed ord s s.PresentState e m hwf hm
    intro x hx
    have hxm : x ∈ m := GoMap.mem_range.mp hx
    exact ⟨hxm, fun l hl => hmiss l (mem_outgoing.mpr ⟨m, hm, x, hxm, hl⟩)⟩

/-- Every outgoing transition misses or hits towards a node satisfying `P`,
and one transition hits together with all the transitions parallel to it: the
machine moves to a node satisfying `P`. -/
theorem FireEvent_moved (P : State → Prop) (ord : MapOrder) (s : StateMachine) (e : Event)
    (hwf : WF s.g)
    (hall : ∀ l ∈ outgoing s.g s.PresentState.Id,
      l.misses e ∨ (l.hits e ∧ ∀ n, Node s.g l.T.Id = some n → P n))
    (hex : ∃ l ∈ outgoing s.g s.PresentState.Id,
      ∀ l' ∈ outgoing s.g s.PresentState.Id, l'.T.Id = l.T.Id → l'.hits e) :
    ∃ d, P d ∧ FireEvent ord s e = .ok (Fired.moved s d) := by
  obtain ⟨l0, hl0, hhit0⟩ := hex
  obtain ⟨m, hm, x0, hx0, hl0x⟩ := mem_outgoing.mp hl0
  rw [FireEvent_of_successors ord s e m hm]
  have hout : ∀ x ∈ m, ∀ l ∈ x.2.map (fun r => r.2), l ∈ outgoing s.g s.PresentState.Id :=
    fun x hx l hl => mem_outgoing.mpr ⟨m, hm, x, hx, hl⟩
  apply nodesLoop_moved P ord s s.PresentState e m hwf hm
  · intro x hx
    have hxm : x ∈ m := GoMap.mem_range.mp hx
    refine ⟨hxm, fun l hl => ?_⟩
    rcases hall l (hout x hxm l hl) with h1 | h1
    · exact Or.inl h1
    · refine Or.inr ⟨h1.1, fun n hn => h1.2 n ?_⟩
      rw [hwf.line_to hm hxm hl]
      exact hn
  · refine ⟨x0, GoMap.mem_range.mpr hx0, fun l hl => ?_⟩
    apply hhit0 l (hout x0 hx0 l hl)
    rw [hwf.line_to hm hx0 hl, hwf.line_to hm hx0 hl0x]

/-- The transition `l` and those parallel to it hit, and every transition to
another destination that the successor map does not yield after the
destination of `l` misses: the machine moves to the destination of `l`. -/
theorem FireEvent_moved_first (ord : MapOrder) (s : StateMachine) (e : Event) (l : Link)
    (d : State) (hwf : WF s.g) (hl : l ∈ outgoing s.g s.PresentState.Id)
    (hd : Node s.g l.T.Id = some d)
    (hpar : ∀ l' ∈ outgoing s.g s.PresentState.Id, l'.T.Id = l.T.Id → l'.hits e)
    (hbefore : ∀ l' ∈ outgoing s.g s.PresentState.Id, l'.T.Id ≠ l.T.Id →
      ord.succ l'.T.Id ≤ ord.succ l.T.Id → l'.misses e) :
    FireEvent ord s e = .ok (Fired.moved s d) := by
  obtain ⟨m, hm, x, hx, hlx⟩ := mem_outgoing.mp hl
  have hkey : l.T.Id = x.1 := hwf.line_to hm hx hlx
  have hnd := (hwf.2 _ (GoMap.mem_of_get hm)).1
  rw [FireEvent_of_successors ord s e m hm]
  obtain ⟨pre, post, hsplit, hnot⟩ :=
    List.eq_append_cons_of_mem (GoMap.mem_range.mpr hx : x ∈ GoMap.range ord.succ m)
  have hsorted := GoMap.range_sorted ord.succ m
  rw [hsplit] at hsorted
  have hle := (List.pairwise_append.mp hsorted).2.2
  have hmem : ∀ a ∈ pre, a ∈ m := fun a ha =>
    GoMap.mem_range.mp (by rw [hsplit]; exact List.mem_append_left _ ha)
  rw [hsplit]
  apply nodesLoop_moved_prefix ord s s.PresentState e m hwf hm pre post x d
  · intro a ha
    refine ⟨hmem a ha, fun l' hl' => ?_⟩
    have hkey' : l'.T.Id = a.1 := hwf.line_to hm (hmem a ha) hl'
    apply hbefore l' (mem_outgoing.mpr ⟨m, hm, a, hmem a ha, hl'⟩)
    · rw [hkey', hkey]
      intro hax
      exact hnot (GoMap.eq_of_key_eq hnd hx (hmem a ha) hax.symm ▸ ha)
    · rw [hkey', hkey]
      exact hle a ha x (List.mem_cons_self _ _)
  · exact hx
  · intro l' hl'
    apply hpar l' (mem_outgoing.mpr ⟨m, hm, x, hx, hl'⟩)
    rw [hwf.line_to hm hx hl', hkey]
  · rw [← hkey]
    exact hd

/-- Every outgoing transition misses or is unsupported, and one transition is
unsupported together with all the transitions parallel to it: the call fails
and the machine stays where it is. -/
theorem FireEvent_failed (ord : MapOrder) (s : StateMachine) (e : Event) (hwf : WF s.g)
    (hall : ∀ l ∈ outgoing s.g s.PresentState.Id, l.misses e ∨ l.unsupported e)
    (hex : ∃ l ∈ outgoing s.g s.PresentState.Id,
      ∀ l' ∈ outgoing s.g s.PresentState.Id, l'.T.Id = l.T.Id → l'.unsupported e) :
    ∃ k, k ≠ "eq" ∧ FireEvent ord s e = .ok (Fired.failed s k) := by
  obtain ⟨l0, hl0, hbad0⟩ := hex
  obtain ⟨m, hm, x0, hx0, hl0x⟩ := mem_outgoing.mp hl0
  rw [FireEvent_of_successors ord s e m hm]
  have hout : ∀ x ∈ m, ∀ l ∈ x.2.map (fun r => r.2), l ∈ outgoing s.g s.PresentState.Id :=
    fun x hx l hl => mem_outgoing.mpr ⟨m, hm, x, hx, hl⟩
  apply nodesLoop_failed ord s s.PresentState e m hwf hm
  · intro x hx
    have hxm : x ∈ m := GoMap.mem_range.mp hx
    exact ⟨hxm, fun l hl => hall l (hout x hxm l hl)⟩
  · refine ⟨x0, GoMap.mem_range.mpr hx0, fun l hl => ?_⟩
    apply hbad0 l (hout x0 hx0 l hl)
    rw [hwf.line_to hm hx0 hl, hwf.line_to hm hx0 hl0x]

/-- A call of `FireEvent` that returns an error returns the machine it got. -/
theorem FireEvent_err (ord : MapOrder) (s : StateMachine) (e : Event) (r : Fired)
    (h : FireEvent ord s e = .ok r) (herr : r.err ≠ none) : r.machine = s :=
  nodesLoop_err ord s s.PresentState e _ r h herr

/-! ## The operations that build a machine -/

theorem setEndpoint_ok (g : DirectedGraph) (n : State) :
    setEndpoint g n = .ok { g with nodes := g.nodes.set n.Id n } := by
  unfold setEndpoint AddNode
  cases h : g.nodes.get n.Id <;> simp [h]

theorem SetLine_ok (g : DirectedGraph) (l : Link) :
    SetLine g l =
      .ok (setFrom { g with nodes := (g.nodes.set l.F.Id l.F).set l.T.Id l.T }
        l.F.Id l.T.Id l.Id l) := by
  simp [SetLine, setEndpoint_ok]

theorem LinkStates_ok (c : Globals) (s : StateMachine) (s1 s2 : State)
    (rule : GoMap Operator Event) :
    ∃ g, LinkStates c s s1 s2 rule =
      .ok ({ c with LineIDCntr := wrapInt (c.LineIDCntr + 1) }, { s with g := g }) := by
  simp [LinkStates, SetLine_ok]

theorem Init_ok {c c' : Globals} {s s' : StateMachine} {v : Interface} {st : State}
    (h : Init c s v = .ok (c', s', st)) :
    c' = { c with NodeIDCntr := wrapInt (c.NodeIDCntr + 1) } ∧ st = ⟨c.NodeIDCntr, v⟩ ∧
      s'.PresentState = st ∧ AddNode s.g st = .ok s'.g := by
  unfold Init at h
  cases hadd : AddNode s.g ⟨c.NodeIDCntr, v⟩ with
  | error p => simp [hadd] at h
  | ok g =>
    simp only [hadd, Except.ok.injEq, Prod.mk.injEq] at h
    obtain ⟨h1, h2, h3⟩ := h
    subst h1 h2 h3
    exact ⟨rfl, rfl, rfl, hadd⟩

theorem NewState_ok {c c' : Globals} {s s' : StateMachine} {v : Interface} {st : State}
    (h : NewState c s v = .ok (c', s', st)) :
    c' = { c with NodeIDCntr := wrapInt (c.NodeIDCntr + 1) } ∧ st = ⟨c.NodeIDCntr, v⟩ ∧
      s'.PresentState = s.PresentState ∧ AddNode s.g st = .ok s'.g := by
  unfold NewState at h
  cases hadd : AddNode s.g ⟨c.NodeIDCntr, v⟩ with
  | error p => simp [hadd] at h
  | ok g =>
    simp only [hadd, Except.ok.injEq, Prod.mk.injEq] at h
    obtain ⟨h1, h2, h3⟩ := h
    subst h1 h2 h3
    exact ⟨rfl, rfl, rfl, hadd⟩

theorem AddNode_ok {g g' : DirectedGraph} {n : State} (h : AddNode g n = .ok g') :
    g' = { g with nodes := g.nodes.set n.Id n } := by
  unfold AddNode at h
  cases hget : g.nodes.get n.Id with
  | some _ => simp [hget] at h
  | none =>
    simp only [hget, Except.ok.injEq] at h
    exact h.symm

/-- Storing a node keeps a graph well formed. -/
theorem WF.setNode {g : DirectedGraph} (hwf : WF g) (n : State) :
    WF { g with nodes := g.nodes.set n.Id n } := by
  refine ⟨fun p hp => ?_, fun q hq => ⟨(hwf.2 q hq).1, fun p hp => ?_⟩⟩
  · rcases GoMap.mem_set hp with h | h
    · rw [h]
    · exact hwf.1 p h
  · obtain ⟨h1, h2, h3⟩ := (hwf.2 q hq).2 p hp
    exact ⟨GoMap.get_set_isSome _ _ _ _ (Or.inr h1), h2, h3⟩

/-- Replacing the successor map of one node by a well-formed one keeps a graph
well formed. -/
theorem WF.setSuccessors {g : DirectedGraph} (hwf : WF g) (fid : Int)
    (m : GoMap Int (GoMap Int Link)) (hnd : (m.map Prod.fst).Nodup)
    (hm : ∀ p ∈ m, (g.nodes.get p.1).isSome = true ∧ p.2 ≠ [] ∧ ∀ r ∈ p.2, r.2.T.Id = p.1) :
    WF { g with from_ := g.from_.set fid m } := by
  refine ⟨hwf.1, fun q hq => ?_⟩
  rcases GoMap.mem_set hq with h | h
  · rw [h]
    exact ⟨hnd, hm⟩
  · exact hwf.2 q h

/-- Storing a line whose destination is a stored node keeps a graph well
formed. -/
theorem WF.setFrom {g : DirectedGraph} (hwf : WF g) (l : Link)
    (ht : (g.nodes.get l.T.Id).isSome = true) : WF (setFrom g l.F.Id l.T.Id l.Id l) := by
  have hnew : ∀ r ∈ [(l.Id, l)], r.2.T.Id = l.T.Id := by
    intro r hr
    rw [List.mem_singleton] at hr
    rw [hr]
  cases hget : g.from_.get l.F.Id with
  | none =>
    simp only [Fms.setFrom, hget]
    apply hwf.setSuccessors
    · simp
    · intro p hp
      rw [List.mem_singleton] at hp
      subst hp
      exact ⟨ht, by simp, hnew⟩
  | some m =>
    obtain ⟨hnd, hent⟩ := hwf.2 _ (GoMap.mem_of_get hget)
    cases hget2 : m.get l.T.Id with
    | none =>
      simp only [Fms.setFrom, hget, hget2]
      apply hwf.setSuccessors _ _ (GoMap.nodup_set _ _ hnd)
      intro p hp
      rcases GoMap.mem_set hp with h | h
      · subst h
        exact ⟨ht, by simp, hnew⟩
      · exact hent p h
    | some lm =>
      simp only [Fms.setFrom, hget, hget2]
      apply hwf.setSuccessors _ _ (GoMap.nodup_set _ _ hnd)
      intro p hp
      rcases GoMap.mem_set hp with h | h
      · subst h
        refine ⟨ht, GoMap.set_ne_nil _ _ _, fun r hr => ?_⟩
        rcases GoMap.mem_set hr with h1 | h1
        · rw [h1]
        · exact (hent _ (GoMap.mem_of_get hget2)).2.2 r h1
      · exact hent p h

theorem WF.AddNode {g g' : DirectedGraph} {n : State} (hwf : WF g)
    (h : AddNode g n = .ok g') : WF g' := by
  rw [AddNode_ok h]
  exact hwf.setNode n

theorem WF.SetLine {g g' : DirectedGraph} {l : Link} (hwf : WF g)
    (h : SetLine g l = .ok g') : WF g' := by
  rw [SetLine_ok] at h
  rw [← Except.ok.inj h]
  exact ((hwf.setNode l.F).setNode l.T).setFrom l
    (GoMap.get_set_isSome _ _ _ _ (Or.inl rfl))

theorem WF.LinkStates {c c' : Globals} {s s' : StateMachine} {s1 s2 : State}
    {rule : GoMap Operator Event} (hwf : WF s.g)
    (h : LinkStates c s s1 s2 rule = .ok (c', s')) : WF s'.g := by
  unfold Fms.LinkStates at h
  cases hset : Fms.SetLine s.g { F := s1, T := s2, Id := c.LineIDCntr, Rules := rule } with
  | error p => simp [hset] at h
  | ok g =>
    simp only [hset, Except.ok.injEq, Prod.mk.injEq] at h
    rw [← h.2]
    exact hwf.SetLine hset

/-- The successor loop returns the graph it got. -/
theorem nodesLoop_graph (ord : MapOrder) (s : StateMachine) (present : State) (e : Event)
    (ns : List (Option State)) (r : Fired)
    (h : nodesLoop ord s present e ns = .ok r) : r.machine.g = s.g := by
  induction ns with
  | nil =>
    simp only [nodesLoop, Except.ok.injEq] at h
    subst h
    rfl
  | cons a rest ih =>
    cases a with
    | none => simp [nodesLoop] at h
    | some m =>
      simp only [nodesLoop] at h
      split at h
      · cases h
      · split at h
        · cases h
        · split at h
          · simp only [Except.ok.injEq] at h
            subst h
            rfl
          · simp only [Except.ok.injEq] at h
            subst h
            rfl
          · exact ih h

theorem FireEvent_graph (ord : MapOrder) (s : StateMachine) (e : Event) (r : Fired)
    (h : FireEvent ord s e = .ok r) : r.machine.g = s.g :=
  nodesLoop_graph ord s s.PresentState e _ r h

theorem Compute_graph (fmt : Sprintf) (events : List String) :
    ∀ (ords : Nat → MapOrder) (s : StateMachine) (printState : Bool)
      (res : StateMachine × State × List String),
      Compute fmt ords s events printState = .ok res → res.1.g = s.g := by
  induction events with
  | nil =>
    intro ords s p res h
    simp only [Compute, Except.ok.injEq] at h
    subst h
    rfl
  | cons e es ih =>
    intro ords s p res h
    simp only [Compute] at h
    cases hf : FireEvent (ords 0) s e with
    | error q => simp [hf] at h
    | ok r =>
      simp only [hf] at h
      cases hc : Compute fmt (fun i => ords (i + 1)) r.machine es p with
      | error q => simp [hc] at h
      | ok t =>
        obtain ⟨s2, ret, out⟩ := t
        simp only [hc, Except.ok.injEq] at h
        subst h
        exact (ih _ _ _ _ hc).trans (FireEvent_graph _ s e r hf)

theorem World.WF_set {w : World} (h : w.WF) (m : Nat) (s : StateMachine) (hs : Fms.WF s.g)
    (c : Globals) (out : List String) (created : List State) (linked : List Link) :
    World.WF ⟨c, w.machines.set m s, out, created, linked⟩ := by
  intro s' hs'
  rcases List.mem_or_eq_of_mem_set hs' with h1 | h1
  · exact h s' h1
  · rw [h1]
    exact hs

/-- Every call keeps the graphs of all machines well formed. -/
theorem World.step_WF {w w' : World} {a : Call} (h : w.WF) (hstep : w.step a = .ok w') :
    w'.WF := by
  cases a with
  | new =>
    simp only [World.step, Except.ok.injEq] at hstep
    subst hstep
    intro s hs
    rcases List.mem_append.mp hs with h1 | h1
    · exact h s h1
    · rw [List.mem_singleton] at h1
      rw [h1]
      decide
  | init m v =>
    simp only [World.step] at hstep
    cases hm : w.machines[m]? with
    | none =>
      simp only [hm, Except.ok.injEq] at hstep
      subst hstep
      exact h
    | some s =>
      simp only [hm] at hstep
      cases hi : Init w.c s v with
      | error p => simp [hi] at hstep
      | ok t =>
        obtain ⟨c, s1, st⟩ := t
        simp only [hi, Except.ok.injEq] at hstep
        subst hstep
        exact World.WF_set h m s1
          ((h s (List.getElem?_mem hm)).AddNode (Init_ok hi).2.2.2) _ _ _ _
  | newState m v =>
    simp only [World.step] at hstep
    cases hm : w.machines[m]? with
    | none =>
      simp only [hm, Except.ok.injEq] at hstep
      subst hstep
      exact h
    | some s =>
      simp only [hm] at hstep
      cases hi : NewState w.c s v with
      | error p => simp [hi] at hstep
      | ok t =>
        obtain ⟨c, s1, st⟩ := t
        simp only [hi, Except.ok.injEq] at hstep
        subst hstep
        exact World.WF_set h m s1
          ((h s (List.getElem?_mem hm)).AddNode (NewState_ok hi).2.2.2) _ _ _ _
  | linkStates m s1 s2 rule =>
    simp only [World.step] at hstep
    cases hm : w.machines[m]? with
    | none =>
      simp only [hm, Except.ok.injEq] at hstep
      subst hstep
      exact h
    | some s =>
      simp only [hm] at hstep
      cases hi : LinkStates w.c s s1 s2 rule with
      | error p => simp [hi] at hstep
      | ok t =>
        obtain ⟨c, s3⟩ := t
        simp only [hi, Except.ok.injEq] at hstep
        subst hstep
        exact World.WF_set h m s3 ((h s (List.getElem?_mem hm)).LinkStates hi) _ _ _ _
  | fireEvent m ord e =>
    simp only [World.step] at hstep
    cases hm : w.machines[m]? with
    | none =>
      simp only [hm, Except.ok.injEq] at hstep
      subst hstep
      exact h
    | some s =>
      simp only [hm] at hstep
      cases hf : FireEvent ord s e with
      | error p => simp [hf] at hstep
      | ok r =>
        simp only [hf, Except.ok.injEq] at hstep
        subst hstep
        exact World.WF_set h m r.machine
          ((FireEvent_graph ord s e r hf) ▸ h s (List.getElem?_mem hm)) _ _ _ _
  | compute m fmt ords events printState =>
    simp only [World.step] at hstep
    cases hm : w.machines[m]? with
    | none =>
      simp only [hm, Except.ok.injEq] at hstep
      subst hstep
      exact h
    | some s =>
      simp only [hm] at hstep
      cases hf : Compute fmt ords s events printState with
      | error p => simp [hf] at hstep
      | ok r =>
        obtain ⟨s1, ret, out⟩ := r
        simp only [hf, Except.ok.injEq] at hstep
        subst hstep
        exact World.WF_set h m s1
          ((Compute_graph fmt events ords s printState _ hf) ▸ h s (List.getElem?_mem hm))
          _ _ _ _

/-- Every machine of a process that started from nothing holds a well-formed
graph. -/
theorem World.run_WF (calls : List Call) :
    ∀ {w w' : World}, w.WF → w.run calls = .ok w' → w'.WF := by
  induction calls with
  | nil =>
    intro w w' h hrun
    simp only [World.run, Except.ok.injEq] at hrun
    subst hrun
    exact h
  | cons a rest ih =>
    intro w w' h hrun
    simp only [World.run] at hrun
    cases hs : w.step a with
    | error p => simp [hs] at hrun
    | ok w1 =>
      simp only [hs] at hrun
      exact ih (World.step_WF h hs) hrun

theorem World.initial_WF : World.initial.WF := by
  intro s hs
  simp [World.initial] at hs

/-! ## Single-entry rule sets -/

theorem Link.hits_of_single {l : Link} {e : Event} (h : l.Rules = [("eq", e)]) : l.hits e := by
  unfold Link.hits
  rw [h]
  simp

theorem Link.misses_of_single {l : Link} {e v : Event} (h : l.Rules = [("eq", v)])
    (hv : v ≠ e) : l.misses e := by
  unfold Link.misses
  rw [h]
  simpa using hv

theorem Link.unsupported_of_single {l : Link} {e v : Event} {op : Operator}
    (h : l.Rules = [(op, v)]) (hop : op ≠ "eq") : l.unsupported e := by
  unfold Link.unsupported
  rw [h]
  simp [hop]

/-! ## C1: a single matching transition -/

/-- C1 as stated fails.  In `shadowed`, the machine `shadowedSetup` builds, the
current state 0 has the transition 2 to the stored state 1 with the single
rule ("eq", "a"), and its only other outgoing transition has the single rule
("eq", "b"); `FireEvent "a"`, every map visited in insertion order, returns no
error and leaves the machine in state 0: the transition picked for destination
1 is the parallel one on "b". -/
theorem C1_counterexample :
    (World.run World.initial shadowedSetup).map (fun w => w.machines) = .ok [shadowed] ∧
    WF shadowed.g ∧
    ∃ l ∈ outgoing shadowed.g shadowed.PresentState.Id, ∃ d,
      l.Rules = [("eq", "a")] ∧ Node shadowed.g l.T.Id = some d ∧
      (∀ l' ∈ outgoing shadowed.g shadowed.PresentState.Id, l' ≠ l →
        ∃ v, l'.Rules = [("eq", v)] ∧ v ≠ "a") ∧
      FireEvent MapOrder.insertion shadowed "a" = .ok ⟨shadowed, none, []⟩ ∧
      shadowed.PresentState ≠ d := by
  refine ⟨by decide, by decide,
    ⟨2, ⟨1, .string "d"⟩, ⟨0, .string "s"⟩, [("eq", "a")]⟩, by decide,
    ⟨1, .string "d"⟩, rfl, by decide, ?_, by decide, by decide⟩
  intro l' hl' hne
  have hout : outgoing shadowed.g shadowed.PresentState.Id =
      [⟨1, ⟨1, .string "d"⟩, ⟨0, .string "s"⟩, [("eq", "b")]⟩,
       ⟨2, ⟨1, .string "d"⟩, ⟨0, .string "s"⟩, [("eq", "a")]⟩] := by decide
  rw [hout] at hl'
  rcases List.mem_cons.mp hl' with h | h
  · subst h
    exact ⟨"b", rfl, by decide⟩
  · rw [List.mem_singleton] at h
    exact absurd h hne

/-- C1, amended: on a well-formed graph, if the current state has an outgoing
transition `l` whose rule set is the single entry ("eq", e), `d` is the node
stored under the id of its destination, and every other outgoing transition of
the current state leads to another destination and has a single-entry "eq"
rule whose expected value differs from `e`, then `FireEvent e` returns no
error, prints nothing and leaves `PresentState = d`, whatever the order in
which the maps are visited. -/
theorem C1_fire_sole_match (ord : MapOrder) (s : StateMachine) (e : Event) (l : Link)
    (d : State) (hwf : WF s.g) (hl : l ∈ outgoing s.g s.PresentState.Id)
    (hrule : l.Rules = [("eq", e)]) (hd : Node s.g l.T.Id = some d)
    (hothers : ∀ l' ∈ outgoing s.g s.PresentState.Id, l' ≠ l →
      l'.T.Id ≠ l.T.Id ∧ ∃ v, l'.Rules = [("eq", v)] ∧ v ≠ e) :
    FireEvent ord s e = .ok ⟨{ s with PresentState := d }, none, []⟩ := by
  obtain ⟨d', hd', hfire⟩ := FireEvent_moved (fun n => n = d) ord s e hwf
    (by
      intro l' hl'
      by_cases hll : l' = l
      · subst hll
        exact Or.inr ⟨Link.hits_of_single hrule, fun n hn => by
          rw [hd] at hn
          exact (Option.some.inj hn).symm⟩
      · obtain ⟨v, hv, hve⟩ := (hothers l' hl' hll).2
        exact Or.inl (Link.misses_of_single hv hve))
    ⟨l, hl, by
      intro l' hl' hT
      by_cases hll : l' = l
      · subst hll
        exact Link.hits_of_single hrule
      · exact absurd hT (hothers l' hl' hll).1⟩
  rw [hfire, hd']
  rfl

/-- C1, amended, on the turnstile: "coin" in state "locked", the successors
visited by decreasing id. -/
theorem C1_fire_sole_match_witness :
    FireEvent MapOrder.descending turnstile "coin" =
      .ok ⟨{ turnstile with PresentState := unlocked }, none, []⟩ :=
  C1_fire_sole_match MapOrder.descending turnstile "coin"
    ⟨1, unlocked, locked, [("eq", "coin")]⟩ unlocked (by decide) (by decide) rfl (by decide)
    (by
      intro l' hl' hne
      have hout : outgoing turnstile.g turnstile.PresentState.Id =
          [⟨1, unlocked, locked, [("eq", "coin")]⟩,
           ⟨3, locked, locked, [("eq", "push")]⟩] := by decide
      rw [hout] at hl'
      rcases List.mem_cons.mp hl' with h | h
      · exact absurd h hne
      · rw [List.mem_singleton] at h
        subst h
        exact ⟨by decide, "push", rfl, by decide⟩)

/-! ## C2: no transition matches -/

/-- C2: on a well-formed graph, if every outgoing transition of the current
state has a single-entry "eq" rule whose expected value differs from `e` (in
particular if the current state has no outgoing transition), `FireEvent e`
returns no error, prints nothing and returns the machine it got, whatever the
order in which the maps are visited. -/
theorem C2_no_match_idempotent (ord : MapOrder) (s : StateMachine) (e : Event)
    (hwf : WF s.g)
    (hmiss : ∀ l ∈ outgoing s.g s.PresentState.Id, ∃ v, l.Rules = [("eq", v)] ∧ v ≠ e) :
    FireEvent ord s e = .ok ⟨s, none, []⟩ :=
  FireEvent_stayed ord s e hwf (fun l hl => by
    obtain ⟨v, hv, hve⟩ := hmiss l hl
    exact Link.misses_of_single hv hve)

/-- C2 on the turnstile: "noop" in state "locked", the successors visited by
decreasing id. -/
theorem C2_no_match_idempotent_witness :
    FireEvent MapOrder.descending turnstile "noop" = .ok ⟨turnstile, none, []⟩ :=
  C2_no_match_idempotent MapOrder.descending turnstile "noop" (by decide)
    (by
      intro l hl
      have hout : outgoing turnstile.g turnstile.PresentState.Id =
          [⟨1, unlocked, locked, [("eq", "coin")]⟩,
           ⟨3, locked, locked, [("eq", "push")]⟩] := by decide
      rw [hout] at hl
      rcases List.mem_cons.mp hl with h | h
      · subst h
        exact ⟨"coin", rfl, by decide⟩
      · rw [List.mem_singleton] at h
        subst h
        exact ⟨"push", rfl, by decide⟩)

/-! ## C3: unsupported operators -/

/-- C3 as stated fails.  In `mixed`, the machine `mixedSetup` builds, the
current state 0 has an outgoing transition whose rule is `NewRule "gt" "v"`;
`FireEvent "v"`, every map visited in insertion order, returns no error and
moves the machine to state 1: the transition to state 1 on "v" is examined
first. -/
theorem C3_counterexample :
    (World.run World.initial mixedSetup).map (fun w => w.machines) = .ok [mixed] ∧
    WF mixed.g ∧
    (∃ l ∈ outgoing mixed.g mixed.PresentState.Id, l.Rules = NewRule "gt" "v") ∧
    "gt" ≠ "eq" ∧
    FireEvent MapOrder.insertion mixed "v" =
      .ok ⟨{ mixed with PresentState := ⟨1, .string "a"⟩ }, none, []⟩ ∧
    (⟨1, .string "a"⟩ : State) ≠ mixed.PresentState := by
  decide

/-- C3, amended: on a well-formed graph, if the current state has an outgoing
transition `l` whose rule is `NewRule op v` with `op` different from "eq", `l`
is the only transition from the current state to its destination, and no
outgoing transition of the current state has a rule entry ("eq", v), then
`FireEvent v` returns the error UNSUPPORTED_COMPARISON_OPERATOR, prints the
message for an operator other than "eq" and returns the machine it got,
whatever the order in which the maps are visited; and `LinkStates` with
`NewRule op v` returns on every machine and every pair of states. -/
theorem C3_unsupported_operator (ord : MapOrder) (s : StateMachine) (op : Operator)
    (v : Event) (l : Link) (hwf : WF s.g) (hl : l ∈ outgoing s.g s.PresentState.Id)
    (hrule : l.Rules = NewRule op v) (hop : op ≠ "eq")
    (hsole : ∀ l' ∈ outgoing s.g s.PresentState.Id, l' ≠ l → l'.T.Id ≠ l.T.Id)
    (hnone : ∀ l' ∈ outgoing s.g s.PresentState.Id, ∀ x ∈ l'.Rules, x.1 = "eq" → x.2 ≠ v) :
    (∃ k, k ≠ "eq" ∧ FireEvent ord s v =
      .ok ⟨s, some "UNSUPPORTED_COMPARISON_OPERATOR",
        ["Sorry, comparison operator '" ++ k ++ "' is not supported\n"]⟩) ∧
    (∀ (c : Globals) (s' : StateMachine) (s1 s2 : State),
      ∃ r, LinkStates c s' s1 s2 (NewRule op v) = .ok r) := by
  refine ⟨?_, fun c s' s1 s2 => ?_⟩
  · apply FireEvent_failed ord s v hwf
    · intro l' hl'
      by_cases hall : ∀ x ∈ l'.Rules, x.1 = "eq"
      · exact Or.inl (fun x hx => ⟨hall x hx, hnone l' hl' x hx (hall x hx)⟩)
      · push_neg at hall
        exact Or.inr ⟨hnone l' hl', hall⟩
    · refine ⟨l, hl, fun l' hl' hT => ?_⟩
      by_cases hll : l' = l
      · subst hll
        exact Link.unsupported_of_single hrule hop
      · exact absurd hT (hsole l' hl' hll)
  · obtain ⟨g, hg⟩ := LinkStates_ok c s' s1 s2 (NewRule op v)
    exact ⟨_, hg⟩

/-- C3, amended, on `failing`: the operator "gt" on the only transition. -/
theorem C3_unsupported_operator_witness :
    (∃ k, k ≠ "eq" ∧ FireEvent MapOrder.insertion failing "v" =
      .ok ⟨failing, some "UNSUPPORTED_COMPARISON_OPERATOR",
        ["Sorry, comparison operator '" ++ k ++ "' is not supported\n"]⟩) ∧
    (∀ (c : Globals) (s' : StateMachine) (s1 s2 : State),
      ∃ r, LinkStates c s' s1 s2 (NewRule "gt" "v") = .ok r) :=
  C3_unsupported_operator MapOrder.insertion failing "gt" "v"
    ⟨1, ⟨1, .string "t"⟩, ⟨0, .string "s"⟩, [("gt", "v")]⟩
    (by decide) (by decide) rfl (by decide) (by decide) (by decide)

/-! ## C4: an error leaves the current state alone -/

/-- C4: whenever `FireEvent` returns an error, `PresentState` after the call
is `PresentState` before the call. -/
theorem C4_error_atomic (ord : MapOrder) (s : StateMachine) (e : Event) (r : Fired)
    (h : FireEvent ord s e = .ok r) (herr : r.err ≠ none) :
    r.machine.PresentState = s.PresentState := by
  rw [FireEvent_err ord s e r h herr]

/-- C4 on `failing`, where `FireEvent "v"` returns an error. -/
theorem C4_error_atomic_witness :
    (Fired.failed failing "gt").err ≠ none ∧
    (Fired.failed failing "gt").machine.PresentState = failing.PresentState :=
  ⟨by decide, C4_error_atomic MapOrder.insertion failing "v" (Fired.failed failing "gt")
    (by decide) (by decide)⟩

/-! ## C5: two transitions on the same event -/

/-- C5 as stated fails.  `forkedSetup` links state 0 to state 1 and then state
0 to state 2, both on ("eq", "x"), and builds `forked`; when the successor map
of state 0 is visited with key 2 before key 1, `FireEvent "x"` moves the
machine to state 2, the destination of the transition inserted later. -/
theorem C5_counterexample :
    (World.run World.initial forkedSetup).map (fun w => (w.machines, w.linked)) =
      .ok ([forked],
        [⟨1, ⟨1, .string "d1"⟩, ⟨0, .string "s"⟩, NewRule "eq" "x"⟩,
         ⟨2, ⟨2, .string "d2"⟩, ⟨0, .string "s"⟩, NewRule "eq" "x"⟩]) ∧
    WF forked.g ∧
    FireEvent MapOrder.descending forked "x" =
      .ok ⟨{ forked with PresentState := ⟨2, .string "d2"⟩ }, none, []⟩ ∧
    Node forked.g 1 = some ⟨1, .string "d1"⟩ ∧
    (⟨2, .string "d2"⟩ : State) ≠ ⟨1, .string "d1"⟩ := by
  decide

/-- C5, amended: on a well-formed graph, if the current state has two outgoing
transitions `l1` and `l2` to different destinations, both with the single rule
("eq", e), `d1` and `d2` are the nodes stored under the ids of their
destinations, and every other outgoing transition of the current state leads
to a third destination and has a single-entry "eq" rule whose expected value
differs from `e`, then `FireEvent e` returns no error and leaves `PresentState`
equal to `d1` or to `d2`: to `d1` when the successor map yields the destination
of `l1` before that of `l2`, to `d2` when it yields the destination of `l2`
before that of `l1`. -/
theorem C5_fire_first_visited (ord : MapOrder) (s : StateMachine) (e : Event) (l1 l2 : Link)
    (d1 d2 : State) (hwf : WF s.g)
    (h1 : l1 ∈ outgoing s.g s.PresentState.Id) (h2 : l2 ∈ outgoing s.g s.PresentState.Id)
    (hne : l1.T.Id ≠ l2.T.Id)
    (hr1 : l1.Rules = [("eq", e)]) (hr2 : l2.Rules = [("eq", e)])
    (hd1 : Node s.g l1.T.Id = some d1) (hd2 : Node s.g l2.T.Id = some d2)
    (hothers : ∀ l' ∈ outgoing s.g s.PresentState.Id, l' ≠ l1 → l' ≠ l2 →
      l'.T.Id ≠ l1.T.Id ∧ l'.T.Id ≠ l2.T.Id ∧ ∃ v, l'.Rules = [("eq", v)] ∧ v ≠ e) :
    (ord.succ l1.T.Id < ord.succ l2.T.Id →
      FireEvent ord s e = .ok ⟨{ s with PresentState := d1 }, none, []⟩) ∧
    (ord.succ l2.T.Id < ord.succ l1.T.Id →
      FireEvent ord s e = .ok ⟨{ s with PresentState := d2 }, none, []⟩) ∧
    (FireEvent ord s e = .ok ⟨{ s with PresentState := d1 }, none, []⟩ ∨
      FireEvent ord s e = .ok ⟨{ s with PresentState := d2 }, none, []⟩) := by
  have hself1 : ∀ l' ∈ outgoing s.g s.PresentState.Id, l'.T.Id = l1.T.Id → l' = l1 := by
    intro l' hl' hT
    by_contra hl1
    by_cases hl2 : l' = l2
    · subst hl2
      exact hne hT.symm
    · exact (hothers l' hl' hl1 hl2).1 hT
  have hself2 : ∀ l' ∈ outgoing s.g s.PresentState.Id, l'.T.Id = l2.T.Id → l' = l2 := by
    intro l' hl' hT
    by_contra hl2
    by_cases hl1 : l' = l1
    · subst hl1
      exact hne hT
    · exact (hothers l' hl' hl1 hl2).2.1 hT
  refine ⟨fun hlt => ?_, fun hlt => ?_, ?_⟩
  · apply FireEvent_moved_first ord s e l1 d1 hwf h1 hd1
    · intro l' hl' hT
      rw [hself1 l' hl' hT]
      exact Link.hits_of_single hr1
    · intro l' hl' hT hle
      by_cases hl2 : l' = l2
      · subst hl2
        omega
      · obtain ⟨v, hv, hve⟩ := (hothers l' hl' (fun h => hT (h ▸ rfl)) hl2).2.2
        exact Link.misses_of_single hv hve
  · apply FireEvent_moved_first ord s e l2 d2 hwf h2 hd2
    · intro l' hl' hT
      rw [hself2 l' hl' hT]
      exact Link.hits_of_single hr2
    · intro l' hl' hT hle
      by_cases hl1 : l' = l1
      · subst hl1
        omega
      · obtain ⟨v, hv, hve⟩ := (hothers l' hl' hl1 (fun h => hT (h ▸ rfl))).2.2
        exact Link.misses_of_single hv hve
  · obtain ⟨d', hd', hfire⟩ := FireEvent_moved (fun n => n = d1 ∨ n = d2) ord s e hwf
      (by
        intro l' hl'
        by_cases hl1 : l' = l1
        · subst hl1
          exact Or.inr ⟨Link.hits_of_single hr1, fun n hn => by
            rw [hd1] at hn
            exact Or.inl (Option.some.inj hn).symm⟩
        · by_cases hl2 : l' = l2
          · subst hl2
            exact Or.inr ⟨Link.hits_of_single hr2, fun n hn => by
              rw [hd2] at hn
              exact Or.inr (Option.some.inj hn).symm⟩
          · obtain ⟨v, hv, hve⟩ := (hothers l' hl' hl1 hl2).2.2
            exact Or.inl (Link.misses_of_single hv hve))
      ⟨l1, h1, by
        intro l' hl' hT
        rw [hself1 l' hl' hT]
        exact Link.hits_of_single hr1⟩
    rw [hfire]
    rcases hd' with h | h
    · exact Or.inl (by rw [h]; rfl)
    · exact Or.inr (by rw [h]; rfl)

/-- C5, amended, on `forked`: in `descending` order state 2 comes before state
1, in insertion order the two priorities are equal. -/
theorem C5_fire_first_visited_witness :
    (MapOrder.descending.succ 1 < MapOrder.descending.succ 2 →
      FireEvent MapOrder.descending forked "x" =
        .ok ⟨{ forked with PresentState := ⟨1, .string "d1"⟩ }, none, []⟩) ∧
    (MapOrder.descending.succ 2 < MapOrder.descending.succ 1 →
      FireEvent MapOrder.descending forked "x" =
        .ok ⟨{ forked with PresentState := ⟨2, .string "d2"⟩ }, none, []⟩) ∧
    (FireEvent MapOrder.descending forked "x" =
        .ok ⟨{ forked with PresentState := ⟨1, .string "d1"⟩ }, none, []⟩ ∨
      FireEvent MapOrder.descending forked "x" =
        .ok ⟨{ forked with PresentState := ⟨2, .string "d2"⟩ }, none, []⟩) :=
  C5_fire_first_visited MapOrder.descending forked "x"
    ⟨1, ⟨1, .string "d1"⟩, ⟨0, .string "s"⟩, [("eq", "x")]⟩
    ⟨2, ⟨2, .string "d2"⟩, ⟨0, .string "s"⟩, [("eq", "x")]⟩
    ⟨1, .string "d1"⟩ ⟨2, .string "d2"⟩
    (by decide) (by decide) (by decide) (by decide) rfl rfl (by decide) (by decide)
    (by
      intro l' hl' hn1 hn2
      have hout : outgoing forked.g forked.PresentState.Id =
          [⟨1, ⟨1, .string "d1"⟩, ⟨0, .string "s"⟩, [("eq", "x")]⟩,
           ⟨2, ⟨2, .string "d2"⟩, ⟨0, .string "s"⟩, [("eq", "x")]⟩] := by decide
      rw [hout] at hl'
      rcases List.mem_cons.mp hl' with h | h
      · exact absurd h hn1
      · rw [List.mem_singleton] at h
        exact absurd h hn2)

/-! ## `FireEvent` and `Compute` return on well-formed graphs -/

theorem nodesLoop_total (ord : MapOrder) (s : StateMachine) (present : State) (e : Event)
    (m : GoMap Int (GoMap Int Link)) (hwf : WF s.g)
    (hm : s.g.from_.get present.Id = some m) (ps : List (Int × GoMap Int Link))
    (hps : ∀ x ∈ ps, x ∈ m) :
    ∃ r, nodesLoop ord s present e (ps.map (fun p => s.g.nodes.get p.1)) = .ok r ∧
      r.machine.g = s.g := by
  induction ps with
  | nil => exact ⟨_, rfl, rfl⟩
  | cons x rest ih =>
    obtain ⟨n, l, _, _, heq⟩ := nodesLoop_entry ord s present e m hwf hm x
      (hps x (List.mem_cons_self _ _)) (rest.map (fun p => s.g.nodes.get p.1))
    rw [List.map_cons, heq]
    cases rulesLoop e (GoMap.range (ord.rule x.1) l.Rules) with
    | next => exact ih (fun y hy => hps y (List.mem_cons_of_mem _ hy))
    | goto => exact ⟨_, rfl, rfl⟩
    | fail k => exact ⟨_, rfl, rfl⟩

/-- On a well-formed graph `FireEvent` returns, and returns the graph it got. -/
theorem FireEvent_total (ord : MapOrder) (s : StateMachine) (e : Event) (hwf : WF s.g) :
    ∃ r, FireEvent ord s e = .ok r ∧ r.machine.g = s.g := by
  cases hm : s.g.from_.get s.PresentState.Id with
  | none => exact ⟨_, FireEvent_of_no_successor ord s e hm, rfl⟩
  | some m =>
    rw [FireEvent_of_successors ord s e m hm]
    exact nodesLoop_total ord s s.PresentState e m hwf hm _
      (fun x hx => GoMap.mem_range.mp hx)

/-- On a well-formed graph `Compute` returns the current state of the machine
that the fold of `FireEvent` reaches. -/
theorem Compute_fold (fmt : Sprintf) (events : List String) :
    ∀ (ords : Nat → MapOrder) (s : StateMachine) (printState : Bool), WF s.g →
      ∃ s', foldFire ords s events = .ok s' ∧ s'.g = s.g ∧
        ∃ out, Compute fmt ords s events printState = .ok (s', s'.PresentState, out) := by
  induction events with
  | nil => exact fun ords s p _ => ⟨s, rfl, rfl, [], rfl⟩
  | cons e es ih =>
    intro ords s p hwf
    obtain ⟨r, hr, hg⟩ := FireEvent_total (ords 0) s e hwf
    obtain ⟨s', hfold, hg', out, hc⟩ := ih (fun i => ords (i + 1)) r.machine p (hg ▸ hwf)
    refine ⟨s', ?_, hg'.trans hg, ?_⟩
    · simp only [foldFire, hr, hfold]
    · simp only [Compute, hr, hc]
      exact ⟨_, rfl⟩

/-! ## C6: `Compute` folds `FireEvent` over the events -/

/-- C6: on a well-formed graph and for either value of `printState`, `Compute`
returns; the machine it leaves is the one reached by applying `FireEvent` to
the events in order (`foldFire`), the state it returns is `PresentState` of that
machine, the same machine and state come out for the other value of
`printState`, and on the empty list it returns the current state, prints
nothing and leaves the machine as it is. -/
theorem C6_compute_folds (fmt : Sprintf) (ords : Nat → MapOrder) (s : StateMachine)
    (events : List String) (printState : Bool) (hwf : WF s.g) :
    ∃ s', foldFire ords s events = .ok s' ∧
      (∃ out, Compute fmt ords s events printState = .ok (s', s'.PresentState, out)) ∧
      (∃ out, Compute fmt ords s events (!printState) = .ok (s', s'.PresentState, out)) ∧
      Compute fmt ords s [] printState = .ok (s, s.PresentState, []) := by
  obtain ⟨s1, hf1, _, h1⟩ := Compute_fold fmt events ords s printState hwf
  obtain ⟨s2, hf2, _, h2⟩ := Compute_fold fmt events ords s (!printState) hwf
  have h12 : s2 = s1 := by
    rw [hf1] at hf2
    exact (Except.ok.inj hf2).symm
  subst h12
  exact ⟨s2, hf1, h1, h2, rfl⟩

/-- C6 on the turnstile: "coin" then "push" from "locked". -/
theorem C6_compute_folds_witness :
    ∃ s', foldFire (fun _ => MapOrder.insertion) turnstile ["coin", "push"] = .ok s' ∧
      (∃ out, Compute noFloats (fun _ => MapOrder.insertion) turnstile ["coin", "push"] true =
        .ok (s', s'.PresentState, out)) ∧
      (∃ out, Compute noFloats (fun _ => MapOrder.insertion) turnstile ["coin", "push"] (!true) =
        .ok (s', s'.PresentState, out)) ∧
      Compute noFloats (fun _ => MapOrder.insertion) turnstile [] true =
        .ok (turnstile, turnstile.PresentState, []) :=
  C6_compute_folds noFloats (fun _ => MapOrder.insertion) turnstile ["coin", "push"] true
    (by decide)

/-! ## `Compute` on a concatenation -/

theorem Compute_append (fmt : Sprintf) (xs zs : List String) :
    ∀ (ords : Nat → MapOrder) (s : StateMachine) (printState : Bool),
      Compute fmt ords s (xs ++ zs) printState =
        match Compute fmt ords s xs printState with
        | .error q => .error q
        | .ok (s1, _, o1) =>
          match Compute fmt (fun i => ords (i + xs.length)) s1 zs printState with
          | .error q => .error q
          | .ok (s2, ret, o2) => .ok (s2, ret, o1 ++ o2) := by
  induction xs with
  | nil =>
    intro ords s p
    simp only [List.nil_append, Compute, List.length_nil, Nat.add_zero]
    cases Compute fmt ords s zs p with
    | error q => rfl
    | ok t => simp
  | cons e es ih =>
    intro ords s p
    rw [List.cons_append]
    simp only [Compute, List.length_cons]
    cases FireEvent (ords 0) s e with
    | error q => rfl
    | ok r =>
      simp only [ih]
      cases Compute fmt (fun i => ords (i + 1)) r.machine es p with
      | error q => rfl
      | ok t =>
        obtain ⟨s1, ret1, o1⟩ := t
        simp only []
        have hfun : (fun i => ords (i + es.length + 1)) = fun i => ords (i + (es.length + 1)) :=
          rfl
        rw [hfun]
        cases Compute fmt (fun i => ords (i + (es.length + 1))) s1 zs p with
        | error q => rfl
        | ok u => simp [List.append_assoc]

theorem Compute_congr (fmt : Sprintf) (events : List String) :
    ∀ (ords ords' : Nat → MapOrder) (s : StateMachine) (printState : Bool),
      (∀ i, i < events.length → ords i = ords' i) →
      Compute fmt ords s events printState = Compute fmt ords' s events printState := by
  induction events with
  | nil => intro ords ords' s p _; rfl
  | cons e es ih =>
    intro ords ords' s p h
    simp only [Compute]
    rw [h 0 (by simp)]
    cases FireEvent (ords' 0) s e with
    | error q => rfl
    | ok r =>
      simp only []
      rw [ih (fun i => ords (i + 1)) (fun i => ords' (i + 1)) r.machine p
        (fun i hi => h (i + 1) (by simpa using hi))]

/-! ## C7: `Compute` goes on after an error -/

/-- C7: on a well-formed graph, if `Compute` on `xs` leaves the machine `s1`
and `FireEvent b` returns an error on `s1`, then `Compute` on
`xs ++ [b] ++ ys` returns (a state, no error), and the machine it leaves is the
one `Compute` on `xs ++ ys` leaves, which is the one reached from `s1` by
applying `FireEvent` to every event of `ys` in order. -/
theorem C7_compute_swallows_errors (fmt : Sprintf) (ords : Nat → MapOrder) (s : StateMachine)
    (xs ys : List String) (b : String) (printState : Bool) (hwf : WF s.g)
    (s1 : StateMachine) (ret : State) (out : List String)
    (hxs : Compute fmt ords s xs printState = .ok (s1, ret, out))
    (r : Fired) (hb : FireEvent (ords xs.length) s1 b = .ok r) (herr : r.err ≠ none) :
    ∃ s' out1 out2,
      Compute fmt ords s (xs ++ [b] ++ ys) printState = .ok (s', s'.PresentState, out1) ∧
      Compute fmt (skipOrder xs.length ords) s (xs ++ ys) printState =
        .ok (s', s'.PresentState, out2) ∧
      foldFire (fun i => ords (i + (xs.length + 1))) s1 ys = .ok s' := by
  have hs1 : s1.g = s.g := by
    obtain ⟨s0, _, hg, o, hc⟩ := Compute_fold fmt xs ords s printState hwf
    rw [hxs] at hc
    have := Except.ok.inj hc
    rw [(Prod.mk.inj this).1]
    exact hg
  have hwf1 : WF s1.g := hs1 ▸ hwf
  obtain ⟨s', hfold, _, o2, hc2⟩ :=
    Compute_fold fmt ys (fun i => ords (i + (xs.length + 1))) s1 printState hwf1
  have hrm : r.machine = s1 := FireEvent_err _ s1 b r hb herr
  have hA : Compute fmt ords s (xs ++ [b] ++ ys) printState =
      .ok (s', s'.PresentState,
        out ++ (r.out ++
          (if printState then [State.String fmt s1.PresentState ++ "\n"] else []) ++ o2)) := by
    rw [List.append_assoc, List.singleton_append, Compute_append, hxs]
    have hfun : (fun i => ords (i + 1 + xs.length)) = fun i => ords (i + (xs.length + 1)) := by
      funext i
      congr 1
      omega
    simp only [Compute, Nat.zero_add, hb, hrm, hfun, hc2]
  have hB : Compute fmt (skipOrder xs.length ords) s (xs ++ ys) printState =
      .ok (s', s'.PresentState, out ++ o2) := by
    rw [Compute_append,
      Compute_congr fmt xs (skipOrder xs.length ords) ords s printState
        (fun i hi => by simp [skipOrder, hi]),
      hxs]
    have hfun : (fun i => skipOrder xs.length ords (i + xs.length)) =
        fun i => ords (i + (xs.length + 1)) := by
      funext i
      simp [skipOrder, Nat.add_assoc]
    simp only [hfun, hc2]
  exact ⟨s', _, _, hA, hB, hfold⟩

/-- C7 on `mixed`: the first "v" meets the operator "gt" and fails, the second
"v" is processed and moves the machine to state 1, where the run on the second
"v" alone ends. -/
theorem C7_compute_swallows_errors_witness :
    ∃ s' out1 out2,
      Compute noFloats descendingFirst mixed ([] ++ ["v"] ++ ["v"]) true =
        .ok (s', s'.PresentState, out1) ∧
      Compute noFloats (skipOrder ([] : List String).length descendingFirst) mixed
        ([] ++ ["v"]) true = .ok (s', s'.PresentState, out2) ∧
      foldFire (fun i => descendingFirst (i + (([] : List String).length + 1))) mixed ["v"] =
        .ok s' :=
  C7_compute_swallows_errors noFloats descendingFirst mixed [] ["v"] "v"
    true (by decide) mixed mixed.PresentState [] rfl (Fired.failed mixed "gt")
    (by decide) (by decide)

/-! ## C8: the turnstile of `main` -/

theorem range_pair {K V : Type} (prio : K → Nat) (a b : K × V) :
    GoMap.range prio [a, b] = if prio a.1 ≤ prio b.1 then [a, b] else [b, a] := by
  simp [GoMap.range, List.insertionSort, List.orderedInsert]

theorem range_single {K V : Type} (prio : K → Nat) (a : K × V) :
    GoMap.range prio [a] = [a] := by
  simp [GoMap.range, List.insertionSort, List.orderedInsert]

theorem turnstileNext_mem (st : State) (e : String) (hst : st = locked ∨ st = unlocked) :
    turnstileNext st e = locked ∨ turnstileNext st e = unlocked := by
  unfold turnstileNext
  split_ifs
  · exact Or.inr rfl
  · exact Or.inl rfl
  · exact hst

/-- One event on the turnstile graph, from either state and in any map order. -/
theorem turnstile_fire (ord : MapOrder) (st : State) (e : String)
    (hst : st = locked ∨ st = unlocked) :
    FireEvent ord ⟨st, turnstileGraph⟩ e =
      .ok ⟨⟨turnstileNext st e, turnstileGraph⟩, none, []⟩ := by
  have hc : ∀ x : String, (x = e) = (e = x) := fun x => propext eq_comm
  rcases hst with rfl | rfl
  · by_cases h1 : e = "coin"
    · subst h1
      simp [FireEvent, From, turnstileGraph, GoMap.get, range_pair, range_single, locked, unlocked,
        nodesLoop, Node, Lines, rulesLoop, turnstileNext]
      split_ifs <;> simp [nodesLoop, Node, Lines, rulesLoop, GoMap.get, range_single]
    · by_cases h2 : e = "push"
      · subst h2
        simp [FireEvent, From, turnstileGraph, GoMap.get, range_pair, range_single, locked,
          unlocked, nodesLoop, Node, Lines, rulesLoop, turnstileNext]
        split_ifs <;> simp [nodesLoop, Node, Lines, rulesLoop, GoMap.get, range_single]
      · simp [FireEvent, From, turnstileGraph, GoMap.get, range_pair, range_single, locked,
          unlocked, nodesLoop, Node, Lines, rulesLoop, turnstileNext, h1, h2, hc]
        split_ifs <;>
          simp [nodesLoop, Node, Lines, rulesLoop, GoMap.get, range_single, h1, h2, hc]
  · by_cases h1 : e = "coin"
    · subst h1
      simp [FireEvent, From, turnstileGraph, GoMap.get, range_pair, range_single, locked, unlocked,
        nodesLoop, Node, Lines, rulesLoop, turnstileNext]
      split_ifs <;> simp [nodesLoop, Node, Lines, rulesLoop, GoMap.get, range_single]
    · by_cases h2 : e = "push"
      · subst h2
        simp [FireEvent, From, turnstileGraph, GoMap.get, range_pair, range_single, locked,
          unlocked, nodesLoop, Node, Lines, rulesLoop, turnstileNext]
        split_ifs <;> simp [nodesLoop, Node, Lines, rulesLoop, GoMap.get, range_single]
      · simp [FireEvent, From, turnstileGraph, GoMap.get, range_pair, range_single, locked,
          unlocked, nodesLoop, Node, Lines, rulesLoop, turnstileNext, h1, h2, hc]
        split_ifs <;>
          simp [nodesLoop, Node, Lines, rulesLoop, GoMap.get, range_single, h1, h2, hc]

/-- A sequence of events on the turnstile graph. -/
theorem turnstile_compute (fmt : Sprintf) (events : List String) :
    ∀ (ords : Nat → MapOrder) (st : State) (printState : Bool),
      st = locked ∨ st = unlocked →
      Compute fmt ords ⟨st, turnstileGraph⟩ events printState =
        .ok (⟨turnstileEnd st events, turnstileGraph⟩, turnstileEnd st events,
          if printState then
            (turnstileTrace st events).map (fun n => State.String fmt n ++ "\n")
          else []) := by
  induction events with
  | nil => intro ords st p _; cases p <;> rfl
  | cons e es ih =>
    intro ords st p hst
    simp only [Compute, turnstile_fire (ords 0) st e hst,
      ih (fun i => ords (i + 1)) (turnstileNext st e) p (turnstileNext_mem st e hst)]
    cases p <;> simp [turnstileEnd, turnstileTrace]

/-- C8: `mainSetup` builds `turnstile`, whose current state is "locked"; on its
graph, from either state and in any map order, `FireEvent` returns no error and
leaves the state `turnstileNext` gives, which renders "unlocked" after "coin",
"locked" after "push" and is the state before after any other event; `Compute`
follows `turnstileNext` event by event and prints the rendering of the state
after each event.  From "locked": `["coin", "push"]` prints "unlocked" then
"locked" and ends in "locked"; `["push"]` prints "locked" and ends in "locked";
`["noop"]` leaves "locked" and `FireEvent "noop"` returns no error. -/
theorem C8_turnstile :
    (World.run World.initial mainSetup).map (fun w => w.machines) = .ok [turnstile] ∧
    (∀ (ord : MapOrder) (st : State) (e : String), st = locked ∨ st = unlocked →
      FireEvent ord ⟨st, turnstileGraph⟩ e =
        .ok ⟨⟨turnstileNext st e, turnstileGraph⟩, none, []⟩) ∧
    (∀ (fmt : Sprintf) (st : State),
      State.String fmt (turnstileNext st "coin") = "unlocked" ∧
      State.String fmt (turnstileNext st "push") = "locked" ∧
      ∀ e, e ≠ "coin" → e ≠ "push" → turnstileNext st e = st) ∧
    (∀ (fmt : Sprintf) (ords : Nat → MapOrder) (st : State) (events : List String)
      (printState : Bool), st = locked ∨ st = unlocked →
      Compute fmt ords ⟨st, turnstileGraph⟩ events printState =
        .ok (⟨turnstileEnd st events, turnstileGraph⟩, turnstileEnd st events,
          if printState then
            (turnstileTrace st events).map (fun n => State.String fmt n ++ "\n")
          else [])) ∧
    (∀ (fmt : Sprintf) (ords : Nat → MapOrder),
      Compute fmt ords turnstile ["coin", "push"] true =
        .ok (turnstile, locked, ["unlocked\n", "locked\n"]) ∧
      Compute fmt ords turnstile ["push"] true = .ok (turnstile, locked, ["locked\n"]) ∧
      Compute fmt ords turnstile ["noop"] true = .ok (turnstile, locked, ["locked\n"]) ∧
      FireEvent (ords 0) turnstile "noop" = .ok ⟨turnstile, none, []⟩) := by
  refine ⟨by decide, turnstile_fire, ?_, fun fmt ords st events p hst =>
    turnstile_compute fmt events ords st p hst, fun fmt ords => ⟨?_, ?_, ?_, ?_⟩⟩
  · intro fmt st
    refine ⟨rfl, rfl, fun e h1 h2 => ?_⟩
    simp [turnstileNext, h1, h2]
  · exact turnstile_compute fmt ["coin", "push"] ords locked true (Or.inl rfl)
  · exact turnstile_compute fmt ["push"] ords locked true (Or.inl rfl)
  · exact turnstile_compute fmt ["noop"] ords locked true (Or.inl rfl)
  · exact turnstile_fire (ords 0) locked "noop" (Or.inl rfl)

/-! ## C9: determinism -/

/-- What `Unambiguous` says of the transitions leaving one node. -/
theorem Unambiguous.outgoing {g : DirectedGraph} (hun : Unambiguous g) {uid : Int} {l : Link}
    (hl : l ∈ outgoing g uid) :
    (∀ a ∈ l.Rules, a.1 = "eq") ∧
    ∀ l' ∈ Fms.outgoing g uid, l' ≠ l →
      l'.T.Id ≠ l.T.Id ∧ ∀ a ∈ l.Rules, ∀ b ∈ l'.Rules, a.2 ≠ b.2 := by
  obtain ⟨m, hm, x, hx, hlx⟩ := mem_outgoing.mp hl
  obtain ⟨r, hr, rfl⟩ := List.mem_map.mp hlx
  have hq := hun _ (GoMap.mem_of_get hm) x hx r hr
  refine ⟨hq.1, fun l' hl' hne => ?_⟩
  obtain ⟨m', hm', y, hy, hly⟩ := mem_outgoing.mp hl'
  rw [hm] at hm'
  cases hm'
  obtain ⟨r', hr', rfl⟩ := List.mem_map.mp hly
  exact hq.2 y hy r' hr' hne

/-- On a well-formed unambiguous graph the result of `FireEvent` is the same
in every map order, and holds the graph the call got. -/
theorem FireEvent_deterministic (s : StateMachine) (e : Event) (hwf : WF s.g)
    (hun : Unambiguous s.g) :
    ∃ r, r.machine.g = s.g ∧ ∀ ord, FireEvent ord s e = .ok r := by
  by_cases hex : ∃ l ∈ outgoing s.g s.PresentState.Id, l.hits e
  · obtain ⟨l, hl, hhit⟩ := hex
    obtain ⟨m, hm, x, hx, hlx⟩ := mem_outgoing.mp hl
    have hsome := ((hwf.2 _ (GoMap.mem_of_get hm)).2 x hx).1
    obtain ⟨d, hd⟩ := Option.isSome_iff_exists.mp hsome
    rw [← hwf.line_to hm hx hlx] at hd
    refine ⟨Fired.moved s d, rfl, fun ord => ?_⟩
    obtain ⟨d', hd', hfire⟩ := FireEvent_moved (fun n => n = d) ord s e hwf
      (by
        intro l' hl'
        by_cases hll : l' = l
        · subst hll
          exact Or.inr ⟨hhit, fun n hn => by
            rw [show Node s.g l'.T.Id = s.g.nodes.get l'.T.Id from rfl, hd] at hn
            exact (Option.some.inj hn).symm⟩
        · left
          intro b hb
          refine ⟨(hun.outgoing hl').1 b hb, fun hbe => ?_⟩
          obtain ⟨a, ha, hae⟩ := hhit.2
          exact ((hun.outgoing hl).2 l' hl' hll).2 a ha b hb (hae.trans hbe.symm))
      ⟨l, hl, by
        intro l' hl' hT
        by_cases hll : l' = l
        · subst hll
          exact hhit
        · exact absurd hT ((hun.outgoing hl).2 l' hl' hll).1⟩
    rw [hfire, hd']
  · refine ⟨Fired.stayed s, rfl, fun ord => ?_⟩
    apply FireEvent_stayed ord s e hwf
    intro l hl a ha
    refine ⟨(hun.outgoing hl).1 a ha, fun hae => hex ⟨l, hl, (hun.outgoing hl).1, a, ha, hae⟩⟩

/-- On a well-formed unambiguous graph the result of `Compute` is the same in
every sequence of map orders. -/
theorem Compute_deterministic (fmt : Sprintf) (events : List String) (printState : Bool) :
    ∀ (s : StateMachine), WF s.g → Unambiguous s.g →
      ∃ res, ∀ ords, Compute fmt ords s events printState = .ok res := by
  induction events with
  | nil => exact fun s _ _ => ⟨_, fun _ => rfl⟩
  | cons e es ih =>
    intro s hwf hun
    obtain ⟨r, hg, hr⟩ := FireEvent_deterministic s e hwf hun
    obtain ⟨⟨s2, ret, out⟩, hres⟩ := ih r.machine (hg ▸ hwf) (hg ▸ hun)
    refine ⟨(s2, ret, r.out ++
      (if printState then [State.String fmt r.machine.PresentState ++ "\n"] else []) ++ out),
      fun ords => ?_⟩
    simp only [Compute, hr (ords 0), hres (fun i => ords (i + 1))]

/-- C9 as stated fails, in each of the three kinds of topology it names, for
the two runs that visit the maps in insertion order and in `descending` order.
Several transitions on the same event (`forked`, event "x"): one run ends in
state 1 and prints "d1", the other ends in state 2 and prints "d2".  Parallel
transitions (`shadowed`, event "a"): one run stays in state 0 and prints "s",
the other ends in state 1 and prints "d".  A rule set of two entries
(`twoRules`, event "x"): one run ends in state 1 and prints "d", the other
stays in state 0 and prints the error message and "s". -/
theorem C9_counterexample :
    (Compute noFloats (fun _ => MapOrder.insertion) forked ["x"] true =
        .ok ({ forked with PresentState := ⟨1, .string "d1"⟩ }, ⟨1, .string "d1"⟩, ["d1\n"]) ∧
      Compute noFloats (fun _ => MapOrder.descending) forked ["x"] true =
        .ok ({ forked with PresentState := ⟨2, .string "d2"⟩ }, ⟨2, .string "d2"⟩, ["d2\n"])) ∧
    (Compute noFloats (fun _ => MapOrder.insertion) shadowed ["a"] true =
        .ok (shadowed, ⟨0, .string "s"⟩, ["s\n"]) ∧
      Compute noFloats (fun _ => MapOrder.descending) shadowed ["a"] true =
        .ok ({ shadowed with PresentState := ⟨1, .string "d"⟩ }, ⟨1, .string "d"⟩, ["d\n"])) ∧
    ((World.run World.initial twoRulesSetup).map (fun w => w.machines) = .ok [twoRules] ∧
      Compute noFloats (fun _ => MapOrder.insertion) twoRules ["x"] true =
        .ok ({ twoRules with PresentState := ⟨1, .string "d"⟩ }, ⟨1, .string "d"⟩, ["d\n"]) ∧
      Compute noFloats (fun _ => MapOrder.descending) twoRules ["x"] true =
        .ok (twoRules, ⟨0, .string "s"⟩,
          ["Sorry, comparison operator 'gt' is not supported\n", "s\n"])) :=
  ⟨⟨by decide, by decide⟩, ⟨by decide, by decide⟩, by decide, by decide, by decide⟩

/-- C9, amended: on a well-formed graph in which every rule entry has the
operator "eq", no two transitions leaving the same state lead to the same
destination and no two transitions leaving the same state expect the same
event, `Compute` on an event sequence returns in every run, and any two runs,
whatever the orders in which they visit the maps, leave the same machine,
return the same state and print the same renderings. -/
theorem C9_deterministic (fmt : Sprintf) (s : StateMachine) (events : List String)
    (printState : Bool) (hwf : WF s.g) (hun : Unambiguous s.g) :
    (∃ res, ∀ ords, Compute fmt ords s events printState = .ok res) ∧
    ∀ ords ords', Compute fmt ords s events printState =
      Compute fmt ords' s events printState := by
  obtain ⟨res, hres⟩ := Compute_deterministic fmt events printState s hwf hun
  exact ⟨⟨res, hres⟩, fun ords ords' => by rw [hres ords, hres ords']⟩

/-- C9, amended, on the turnstile. -/
theorem C9_deterministic_witness :
    (∃ res, ∀ ords, Compute noFloats ords turnstile ["coin", "push"] true = .ok res) ∧
    ∀ ords ords', Compute noFloats ords turnstile ["coin", "push"] true =
      Compute noFloats ords' turnstile ["coin", "push"] true :=
  C9_deterministic noFloats turnstile ["coin", "push"] true (by decide) (by decide)

/-! ## C10: the ids handed out by the counters -/

theorem wrapInt_succ (x : Int) : wrapInt (wrapInt x + 1) = wrapInt (x + 1) := by
  unfold wrapInt
  omega

theorem wrapInt_inj (i j : Nat) (hi : i < 2 ^ 64) (hj : j < 2 ^ 64)
    (h : wrapInt i = wrapInt j) : i = j := by
  unfold wrapInt at h
  omega

theorem wrapInt_succ_inj (i j : Nat) (hi : i < 2 ^ 64) (hj : j < 2 ^ 64)
    (h : wrapInt (i + 1) = wrapInt (j + 1)) : i = j := by
  unfold wrapInt at h
  omega

theorem Sequential_created {w : World} (h : w.Sequential) (c : Globals) (ms : List StateMachine)
    (v : Interface) (hc : c = { w.c with NodeIDCntr := wrapInt (w.c.NodeIDCntr + 1) }) :
    World.Sequential { w with c := c, machines := ms,
                              created := w.created ++ [⟨w.c.NodeIDCntr, v⟩] } := by
  obtain ⟨h1, h2, h3, h4⟩ := h
  subst hc
  refine ⟨?_, h2, ?_, h4⟩
  · simp only [List.length_append, List.length_singleton]
    rw [h1, wrapInt_succ]
    push_cast
    rfl
  · simp only [List.map_append, List.map_cons, List.map_nil, List.length_append,
      List.length_singleton, List.range_succ, h3, h1]

theorem Sequential_linked {w : World} (h : w.Sequential) (c : Globals) (ms : List StateMachine)
    (s1 s2 : State) (rule : GoMap Operator Event)
    (hc : c = { w.c with LineIDCntr := wrapInt (w.c.LineIDCntr + 1) }) :
    World.Sequential { w with c := c, machines := ms,
                              linked := w.linked ++ [⟨w.c.LineIDCntr, s2, s1, rule⟩] } := by
  obtain ⟨h1, h2, h3, h4⟩ := h
  subst hc
  refine ⟨h1, ?_, h3, ?_⟩
  · simp only [List.length_append, List.length_singleton]
    rw [h2, wrapInt_succ]
    push_cast
    rfl
  · simp only [List.map_append, List.map_cons, List.map_nil, List.length_append,
      List.length_singleton, List.range_succ, h4, h2]

theorem World.step_sequential {w w' : World} {a : Call} (h : w.Sequential)
    (hstep : w.step a = .ok w') : w'.Sequential := by
  cases a with
  | new =>
    simp only [World.step, Except.ok.injEq] at hstep
    subst hstep
    exact h
  | init m v =>
    simp only [World.step] at hstep
    cases hm : w.machines[m]? with
    | none =>
      simp only [hm, Except.ok.injEq] at hstep
      subst hstep
      exact h
    | some s =>
      simp only [hm] at hstep
      cases hi : Init w.c s v with
      | error p => simp [hi] at hstep
      | ok t =>
        obtain ⟨c, s1, st⟩ := t
        simp only [hi, Except.ok.injEq] at hstep
        subst hstep
        obtain ⟨hc, hst, _, _⟩ := Init_ok hi
        subst hst
        exact Sequential_created h c _ v hc
  | newState m v =>
    simp only [World.step] at hstep
    cases hm : w.machines[m]? with
    | none =>
      simp only [hm, Except.ok.injEq] at hstep
      subst hstep
      exact h
    | some s =>
      simp only [hm] at hstep
      cases hi : NewState w.c s v with
      | error p => simp [hi] at hstep
      | ok t =>
        obtain ⟨c, s1, st⟩ := t
        simp only [hi, Except.ok.injEq] at hstep
        subst hstep
        obtain ⟨hc, hst, _, _⟩ := NewState_ok hi
        subst hst
        exact Sequential_created h c _ v hc
  | linkStates m s1 s2 rule =>
    simp only [World.step] at hstep
    cases hm : w.machines[m]? with
    | none =>
      simp only [hm, Except.ok.injEq] at hstep
      subst hstep
      exact h
    | some s =>
      simp only [hm] at hstep
      obtain ⟨g, hg⟩ := LinkStates_ok w.c s s1 s2 rule
      simp only [hg, Except.ok.injEq] at hstep
      subst hstep
      exact Sequential_linked h _ _ s1 s2 rule rfl
  | fireEvent m ord e =>
    simp only [World.step] at hstep
    cases hm : w.machines[m]? with
    | none =>
      simp only [hm, Except.ok.injEq] at hstep
      subst hstep
      exact h
    | some s =>
      simp only [hm] at hstep
      cases hf : FireEvent ord s e with
      | error p => simp [hf] at hstep
      | ok r =>
        simp only [hf, Except.ok.injEq] at hstep
        subst hstep
        exact h
  | compute m fmt ords events printState =>
    simp only [World.step] at hstep
    cases hm : w.machines[m]? with
    | none =>
      simp only [hm, Except.ok.injEq] at hstep
      subst hstep
      exact h
    | some s =>
      simp only [hm] at hstep
      cases hf : Compute fmt ords s events printState with
      | error p => simp [hf] at hstep
      | ok r =>
        obtain ⟨s1, ret, out⟩ := r
        simp only [hf, Except.ok.injEq] at hstep
        subst hstep
        exact h

theorem World.run_sequential (calls : List Call) :
    ∀ {w w' : World}, w.Sequential → w.run calls = .ok w' → w'.Sequential := by
  induction calls with
  | nil =>
    intro w w' h hrun
    simp only [World.run, Except.ok.injEq] at hrun
    subst hrun
    exact h
  | cons a rest ih =>
    intro w w' h hrun
    simp only [World.run] at hrun
    cases hs : w.step a with
    | error p => simp [hs] at hrun
    | ok w1 =>
      simp only [hs] at hrun
      exact ih (World.step_sequential h hs) hrun

theorem World.initial_sequential : World.initial.Sequential := by
  refine ⟨by decide, by decide, rfl, rfl⟩

/-- C10: in every run of calls of `New`, `Init`, `NewState`, `LinkStates`,
`FireEvent` and `Compute`, on any number of machines, that starts from the
declared counter values and returns, the ids of the states that `Init` and
`NewState` created are pairwise distinct and the ids of the transitions that
`LinkStates` created are pairwise distinct, as long as no more than 2^64
states and no more than 2^64 transitions were created (the range of a 64-bit
counter). -/
theorem C10_ids_unique (calls : List Call) (w : World)
    (hrun : World.run World.initial calls = .ok w)
    (hstates : w.created.length ≤ 2 ^ 64) (hlines : w.linked.length ≤ 2 ^ 64) :
    (w.created.map State.Id).Nodup ∧ (w.linked.map Link.Id).Nodup := by
  obtain ⟨_, _, h3, h4⟩ := World.run_sequential calls World.initial_sequential hrun
  rw [h3, h4]
  constructor
  · apply List.Nodup.map_on _ (List.nodup_range _)
    intro i hi j hj hij
    rw [List.mem_range] at hi hj
    exact wrapInt_inj i j (by omega) (by omega) hij
  · apply List.Nodup.map_on _ (List.nodup_range _)
    intro i hi j hj hij
    rw [List.mem_range] at hi hj
    have := wrapInt_succ_inj i j (by omega) (by omega) hij
    exact this

/-- C10 on the setup of `main`: the states 0 and 1, the transitions 1 to 4. -/
theorem C10_ids_unique_witness :
    World.run World.initial mainSetup = .ok mainWorld ∧
    (mainWorld.created.map State.Id).Nodup ∧ (mainWorld.linked.map Link.Id).Nodup :=
  ⟨by decide, C10_ids_unique mainSetup mainWorld (by decide) (by decide) (by decide)⟩

/-! ## C11: rendering a state -/

theorem digitChar_value :
    ∀ k, k < 10 → (Nat.digitChar k).toNat - 48 = k ∧ (Nat.digitChar k).isDigit = true := by
  decide

theorem toDigitsCore_decimal (fuel : Nat) :
    ∀ (n : Nat) (ds : List Char), n < fuel →
      (Nat.toDigitsCore 10 fuel n ds).foldl (fun a c => 10 * a + (c.toNat - 48)) 0 =
        ds.foldl (fun a c => 10 * a + (c.toNat - 48)) n := by
  induction fuel with
  | zero => intro n ds h; omega
  | succ f ih =>
    intro n ds h
    simp only [Nat.toDigitsCore]
    have hd := (digitChar_value (n % 10) (Nat.mod_lt _ (by decide))).1
    by_cases h0 : n / 10 = 0
    · simp only [h0, if_true, List.foldl_cons, Nat.mul_zero, Nat.zero_add, hd]
      congr 1
      omega
    · simp only [h0, if_false]
      rw [ih (n / 10) _ (by omega)]
      simp only [List.foldl_cons, hd]
      congr 1
      omega

theorem toDigitsCore_isDigit (fuel : Nat) :
    ∀ (n : Nat) (ds : List Char), (∀ c ∈ ds, c.isDigit = true) →
      ∀ c ∈ Nat.toDigitsCore 10 fuel n ds, c.isDigit = true := by
  induction fuel with
  | zero => intro n ds h; simpa [Nat.toDigitsCore] using h
  | succ f ih =>
    intro n ds h
    simp only [Nat.toDigitsCore]
    have hd := (digitChar_value (n % 10) (Nat.mod_lt _ (by decide))).2
    have hcons : ∀ c ∈ Nat.digitChar (n % 10) :: ds, c.isDigit = true := by
      intro c hc
      rcases List.mem_cons.mp hc with h1 | h1
      · rw [h1]; exact hd
      · exact h c h1
    by_cases h0 : n / 10 = 0
    · simpa only [h0, if_true] using hcons
    · simp only [h0, if_false]
      exact ih _ _ hcons

/-- The text `Nat.repr` gives consists of decimal digits that write the number. -/
theorem repr_decimal (m : Nat) :
    decimal (Nat.repr m).data = m ∧ ∀ c ∈ (Nat.repr m).data, c.isDigit = true := by
  constructor
  · show (Nat.toDigits 10 m).foldl _ 0 = m
    rw [Nat.toDigits, toDigitsCore_decimal (m + 1) m [] (by omega)]
    rfl
  · exact toDigitsCore_isDigit (m + 1) m [] (by simp)

theorem Itoa_sign (v : Int) : Itoa v = (if v < 0 then "-" else "") ++ Nat.repr v.natAbs := by
  cases v with
  | ofNat m =>
    have h : ¬ ((m : Int) < 0) := by omega
    simp only [Itoa, Int.ofNat_eq_coe, h, if_false, Int.natAbs_ofNat]
    exact (String.empty_append _).symm
  | negSucc m => simp [Itoa, Int.negSucc_lt_zero, Int.natAbs]

/-- C11: for every state, `String` returns, when the value is an `int`, a minus
sign if it is negative followed by the decimal digits of its absolute value
(digits only, writing that number); "true" or "false" when it is a `bool`; the
text itself when it is a `string`; and the empty string when the value is of
none of the types `int`, `float32`, `float64`, `bool`, `string` (the nil
interface included). -/
theorem C11_state_string (fmt : Sprintf) (id : Int) :
    (∀ v : Int,
      State.String fmt ⟨id, .int v⟩ = (if v < 0 then "-" else "") ++ Nat.repr v.natAbs ∧
      decimal (Nat.repr v.natAbs).data = v.natAbs ∧
      ∀ c ∈ (Nat.repr v.natAbs).data, c.isDigit = true) ∧
    State.String fmt ⟨id, .bool true⟩ = "true" ∧
    State.String fmt ⟨id, .bool false⟩ = "false" ∧
    (∀ t : String, State.String fmt ⟨id, .string t⟩ = t) ∧
    (∀ val : Interface, (∀ v, val ≠ .int v) → (∀ b, val ≠ .float32 b) →
      (∀ b, val ≠ .float64 b) → (∀ b, val ≠ .bool b) → (∀ t, val ≠ .string t) →
      State.String fmt ⟨id, val⟩ = "") := by
  refine ⟨fun v => ⟨Itoa_sign v, repr_decimal _⟩, rfl, rfl, fun t => rfl, ?_⟩
  intro val h1 h2 h3 h4 h5
  cases val with
  | null => rfl
  | int v => exact absurd rfl (h1 v)
  | float32 b => exact absurd rfl (h2 b)
  | float64 b => exact absurd rfl (h3 b)
  | bool b => exact absurd rfl (h4 b)
  | string t => exact absurd rfl (h5 t)
  | other t => rfl

/-! ## `FireEvent` as a scan of the examined transitions -/

/-- One turn of the loop on a well-formed graph, in terms of `examinedAt`. -/
theorem examinedAt_entry (ord : MapOrder) (s : StateMachine) (e : Event)
    (m : GoMap Int (GoMap Int Link)) (hwf : WF s.g)
    (hm : s.g.from_.get s.PresentState.Id = some m) (p : Int × GoMap Int Link) (hp : p ∈ m) :
    ∃ n l tail, s.g.nodes.get p.1 = some n ∧ n.Id = p.1 ∧ l ∈ p.2.map (fun r => r.2) ∧
      Lines ord s.g s.PresentState.Id n.Id = l :: tail ∧
      examinedAt ord s (s.g.nodes.get p.1) = some (n, l) ∧
      ∀ rest, nodesLoop ord s s.PresentState e (s.g.nodes.get p.1 :: rest) =
        match rulesLoop e (GoMap.range (ord.rule n.Id) l.Rules) with
        | .goto => .ok (Fired.moved s n)
        | .fail k => .ok (Fired.failed s k)
        | .next => nodesLoop ord s s.PresentState e rest := by
  obtain ⟨hnodes, hfrom⟩ := hwf
  obtain ⟨hnd, hent⟩ := hfrom _ (GoMap.mem_of_get hm)
  obtain ⟨hsome, hne, _⟩ := hent p hp
  obtain ⟨n, hn⟩ := Option.isSome_iff_exists.mp hsome
  have hid : n.Id = p.1 := hnodes _ (GoMap.mem_of_get hn)
  have hget : m.get p.1 = some p.2 := GoMap.get_of_mem hnd hp
  have hrange := GoMap.range_ne_nil (ord.line p.1) hne
  obtain ⟨q, qs, hq⟩ := List.exists_cons_of_ne_nil hrange
  have hqmem : q ∈ p.2 := GoMap.mem_range.mp (by rw [hq]; exact List.mem_cons_self _ _)
  have hlines : Lines ord s.g s.PresentState.Id n.Id = q.2 :: qs.map (fun r => r.2) := by
    simp only [Lines, hm, hid, hget, hq, List.map_cons]
  have hnode : Node s.g n.Id = some n := by
    rw [hid]
    exact hn
  refine ⟨n, q.2, qs.map (fun r => r.2), hn, hid, List.mem_map.mpr ⟨q, hqmem, rfl⟩, hlines,
    ?_, fun rest => ?_⟩
  · simp only [hn, examinedAt, hnode, hlines]
  · simp only [hn, nodesLoop, hnode, hlines]
    cases rulesLoop e (GoMap.range (ord.rule n.Id) q.2.Rules) <;> rfl

theorem nodesLoop_resolve (ord : MapOrder) (s : StateMachine) (e : Event)
    (m : GoMap Int (GoMap Int Link)) (hwf : WF s.g)
    (hm : s.g.from_.get s.PresentState.Id = some m) (ps : List (Int × GoMap Int Link))
    (hps : ∀ x ∈ ps, x ∈ m) :
    nodesLoop ord s s.PresentState e (ps.map (fun p => s.g.nodes.get p.1)) =
      .ok (resolve ord e s
        ((ps.map (fun p => s.g.nodes.get p.1)).filterMap (examinedAt ord s))) := by
  induction ps with
  | nil => rfl
  | cons x rest ih =>
    obtain ⟨n, l, tail, _, _, _, _, hex, hloop⟩ :=
      examinedAt_entry ord s e m hwf hm x (hps x (List.mem_cons_self _ _))
    rw [List.map_cons, hloop, List.filterMap_cons, hex]
    simp only [resolve]
    cases rulesLoop e (GoMap.range (ord.rule n.Id) l.Rules) with
    | next => exact ih (fun y hy => hps y (List.mem_cons_of_mem _ hy))
    | goto => rfl
    | fail k => rfl

/-- On a well-formed graph `FireEvent` returns what the scan of the examined
transitions gives. -/
theorem FireEvent_resolve (ord : MapOrder) (s : StateMachine) (e : Event) (hwf : WF s.g) :
    FireEvent ord s e = .ok (resolve ord e s (examined ord s)) := by
  cases hm : s.g.from_.get s.PresentState.Id with
  | none =>
    rw [FireEvent_of_no_successor ord s e hm]
    simp [examined, From, hm, resolve]
  | some m =>
    rw [FireEvent_of_successors ord s e m hm]
    have h := nodesLoop_resolve ord s e m hwf hm (GoMap.range ord.succ m)
      (fun x hx => GoMap.mem_range.mp hx)
    simpa only [examined, From, hm] using h

theorem examined_entries (ord : MapOrder) (s : StateMachine)
    (m : GoMap Int (GoMap Int Link)) (hwf : WF s.g)
    (hm : s.g.from_.get s.PresentState.Id = some m) (ps : List (Int × GoMap Int Link))
    (hps : ∀ x ∈ ps, x ∈ m) :
    (((ps.map (fun p => s.g.nodes.get p.1)).filterMap (examinedAt ord s)).map
        (fun x => x.1.Id) = ps.map Prod.fst) ∧
    ∀ x ∈ (ps.map (fun p => s.g.nodes.get p.1)).filterMap (examinedAt ord s),
      ∃ p ∈ ps, x.1.Id = p.1 ∧ x.2 ∈ p.2.map (fun r => r.2) ∧
        s.g.nodes.get p.1 = some x.1 ∧
        ∃ tail, Lines ord s.g s.PresentState.Id x.1.Id = x.2 :: tail := by
  induction ps with
  | nil => simp
  | cons a rest ih =>
    obtain ⟨n, l, tail, hn, hid, hl, hlines, hex, _⟩ :=
      examinedAt_entry ord s "" m hwf hm a (hps a (List.mem_cons_self _ _))
    obtain ⟨ih1, ih2⟩ := ih (fun y hy => hps y (List.mem_cons_of_mem _ hy))
    rw [List.map_cons, List.filterMap_cons, hex]
    refine ⟨by simp only [List.map_cons, ih1, hid], fun x hx => ?_⟩
    rcases List.mem_cons.mp hx with h | h
    · subst h
      exact ⟨a, List.mem_cons_self _ _, hid, hl, hn, tail, hlines⟩
    · obtain ⟨p, hp, hrest⟩ := ih2 x h
      exact ⟨p, List.mem_cons_of_mem _ hp, hrest⟩

/-- The examined transitions of a well-formed graph: each is an outgoing
transition, the first line the store returns for its destination, paired with
the node stored for that destination. -/
theorem examined_mem (ord : MapOrder) (s : StateMachine) (hwf : WF s.g)
    (x : State × Link) (hx : x ∈ examined ord s) :
    x.2 ∈ outgoing s.g s.PresentState.Id ∧ x.2.T.Id = x.1.Id ∧
      Node s.g x.2.T.Id = some x.1 ∧
      ∃ tail, Lines ord s.g s.PresentState.Id x.1.Id = x.2 :: tail := by
  cases hm : s.g.from_.get s.PresentState.Id with
  | none => simp [examined, From, hm] at hx
  | some m =>
    simp only [examined, From, hm] at hx
    obtain ⟨p, hp, hid, hl, hn, htail⟩ :=
      (examined_entries ord s m hwf hm (GoMap.range ord.succ m)
        (fun y hy => GoMap.mem_range.mp hy)).2 x hx
    have hpm : p ∈ m := GoMap.mem_range.mp hp
    have hT : x.2.T.Id = p.1 := hwf.line_to hm hpm hl
    refine ⟨mem_outgoing.mpr ⟨m, hm, p, hpm, hl⟩, hT.trans hid.symm, ?_, htail⟩
    rw [hT]
    exact hn

/-- One transition is examined for each destination. -/
theorem examined_nodup (ord : MapOrder) (s : StateMachine) (hwf : WF s.g) :
    ((examined ord s).map (fun x => x.2.T.Id)).Nodup := by
  have hmap : (examined ord s).map (fun x => x.2.T.Id) =
      (examined ord s).map (fun x => x.1.Id) :=
    List.map_congr_left (fun x hx => (examined_mem ord s hwf x hx).2.1)
  rw [hmap]
  cases hm : s.g.from_.get s.PresentState.Id with
  | none => simp [examined, From, hm]
  | some m =>
    simp only [examined, From, hm]
    rw [(examined_entries ord s m hwf hm (GoMap.range ord.succ m)
      (fun y hy => GoMap.mem_range.mp hy)).1]
    exact ((GoMap.range_perm ord.succ m).map Prod.fst).nodup_iff.mpr
      (hwf.2 _ (GoMap.mem_of_get hm)).1

/-- Every destination of an outgoing transition has its examined transition. -/
theorem examined_cover (ord : MapOrder) (s : StateMachine) (hwf : WF s.g)
    (l : Link) (hl : l ∈ outgoing s.g s.PresentState.Id) :
    ∃ x ∈ examined ord s, x.2.T.Id = l.T.Id := by
  obtain ⟨m, hm, p, hp, hlp⟩ := mem_outgoing.mp hl
  have hkeys := (examined_entries ord s m hwf hm (GoMap.range ord.succ m)
    (fun y hy => GoMap.mem_range.mp hy)).1
  have hmem : p.1 ∈ (GoMap.range ord.succ m).map Prod.fst :=
    List.mem_map.mpr ⟨p, GoMap.mem_range.mpr hp, rfl⟩
  rw [← hkeys] at hmem
  obtain ⟨x, hx, hxid⟩ := List.mem_map.mp hmem
  have hx' : x ∈ examined ord s := by
    simpa only [examined, From, hm] using hx
  refine ⟨x, hx', ?_⟩
  rw [(examined_mem ord s hwf x hx').2.1, hxid, hwf.line_to hm hp hlp]

/-! ## C13: the resolution algorithm -/

theorem rulesLoop_single (e : Event) (prio : Operator → Nat) (k : Operator) (v : Event) :
    rulesLoop e (GoMap.range prio [(k, v)]) =
      if k = "eq" then (if v = e then .goto else .next) else .fail k := by
  rw [range_single]
  simp only [rulesLoop]

theorem resolve_append (ord : MapOrder) (e : Event) (s : StateMachine)
    (pre rest : List (State × Link))
    (hpre : ∀ x ∈ pre, rulesLoop e (GoMap.range (ord.rule x.1.Id) x.2.Rules) = .next) :
    resolve ord e s (pre ++ rest) = resolve ord e s rest := by
  induction pre with
  | nil => rfl
  | cons a as ih =>
    obtain ⟨n, l⟩ := a
    have ha := hpre (n, l) (List.mem_cons_self _ _)
    simp only at ha
    simp only [List.cons_append, resolve, ha]
    exact ih (fun x hx => hpre x (List.mem_cons_of_mem _ hx))

theorem resolve_stayed (ord : MapOrder) (e : Event) (s : StateMachine)
    (xs : List (State × Link))
    (h : ∀ x ∈ xs, rulesLoop e (GoMap.range (ord.rule x.1.Id) x.2.Rules) = .next) :
    resolve ord e s xs = Fired.stayed s := by
  have := resolve_append ord e s xs [] h
  rwa [List.append_nil] at this

theorem rulesLoop_other (e : Event) (prio : Operator → Nat) (l : Link)
    (h : ∃ v, l.Rules = [("eq", v)] ∧ v ≠ e) :
    rulesLoop e (GoMap.range prio l.Rules) = .next := by
  obtain ⟨v, hv, hve⟩ := h
  rw [hv, rulesLoop_single]
  simp [hve]

/-- C13 as stated fails.  The outgoing transitions of state 0 of `shadowed`
are, in the order of insertion, transition 1 on ("eq", "b") and transition 2
on ("eq", "a"), both to state 1.  For the event "a" the first transition whose
rule is ("eq", "a") or has another operator is transition 2, so `PresentState`
should become state 1; `FireEvent "a"`, every map visited in insertion order,
returns no error and leaves the machine in state 0, because of the two
transitions to state 1 only the first is looked at. -/
theorem C13_counterexample :
    outgoing shadowed.g shadowed.PresentState.Id =
      [⟨1, ⟨1, .string "d"⟩, ⟨0, .string "s"⟩, [("eq", "b")]⟩,
       ⟨2, ⟨1, .string "d"⟩, ⟨0, .string "s"⟩, [("eq", "a")]⟩] ∧
    "b" ≠ "a" ∧
    Node shadowed.g 1 = some ⟨1, .string "d"⟩ ∧
    examined MapOrder.insertion shadowed =
      [(⟨1, .string "d"⟩, ⟨1, ⟨1, .string "d"⟩, ⟨0, .string "s"⟩, [("eq", "b")]⟩)] ∧
    FireEvent MapOrder.insertion shadowed "a" = .ok ⟨shadowed, none, []⟩ ∧
    shadowed.PresentState ≠ ⟨1, .string "d"⟩ :=
  ⟨by decide, by decide, by decide, by decide, by decide, by decide⟩

/-- C13, amended: on a well-formed graph `FireEvent e` looks, for each
successor of the current state in the order the store yields them, at the
first transition the store returns for that successor (`examined`: outgoing
transitions, one for each destination), and is decided by the first of these
whose single-entry rule is ("eq", e) or has an operator other than "eq".  If it
is ("eq", e), `PresentState` becomes the stored destination and no error is
returned, whatever the transitions after it; if its operator is not "eq", the
error is returned and the machine is unchanged, whatever the transitions after
it and whatever its expected value; if there is no such transition, no error
is returned and the machine is unchanged. -/
theorem C13_resolution (ord : MapOrder) (s : StateMachine) (e : Event) (hwf : WF s.g) :
    (∀ (pre post : List (State × Link)) (n : State) (l : Link),
      examined ord s = pre ++ (n, l) :: post →
      (∀ x ∈ pre, ∃ v, x.2.Rules = [("eq", v)] ∧ v ≠ e) →
      (l.Rules = [("eq", e)] →
        FireEvent ord s e = .ok ⟨{ s with PresentState := n }, none, []⟩) ∧
      (∀ k v, l.Rules = [(k, v)] → k ≠ "eq" →
        FireEvent ord s e =
          .ok ⟨s, some "UNSUPPORTED_COMPARISON_OPERATOR",
            ["Sorry, comparison operator '" ++ k ++ "' is not supported\n"]⟩)) ∧
    ((∀ x ∈ examined ord s, ∃ v, x.2.Rules = [("eq", v)] ∧ v ≠ e) →
      FireEvent ord s e = .ok ⟨s, none, []⟩) ∧
    (∀ x ∈ examined ord s,
      x.2 ∈ outgoing s.g s.PresentState.Id ∧ Node s.g x.2.T.Id = some x.1 ∧
      ∃ tail, Lines ord s.g s.PresentState.Id x.2.T.Id = x.2 :: tail) ∧
    ((examined ord s).map (fun x => x.2.T.Id)).Nodup ∧
    (∀ l ∈ outgoing s.g s.PresentState.Id, ∃ x ∈ examined ord s, x.2.T.Id = l.T.Id) := by
  refine ⟨fun pre post n l hsplit hpre => ?_, fun hall => ?_, fun x hx => ?_,
    examined_nodup ord s hwf, examined_cover ord s hwf⟩
  · have hres : FireEvent ord s e = .ok (resolve ord e s ((n, l) :: post)) := by
      rw [FireEvent_resolve ord s e hwf, hsplit]
      exact congrArg _ (resolve_append ord e s pre _
        (fun x hx => rulesLoop_other e _ x.2 (hpre x hx)))
    refine ⟨fun hl => ?_, fun k v hl hk => ?_⟩
    · rw [hres]
      simp only [resolve, hl, rulesLoop_single, if_true]
      rfl
    · rw [hres]
      simp only [resolve, hl, rulesLoop_single, hk, if_false]
      rfl
  · rw [FireEvent_resolve ord s e hwf,
      resolve_stayed ord e s _ (fun x hx => rulesLoop_other e _ x.2 (hall x hx))]
    rfl
  · obtain ⟨h1, h2, h3, tail, h4⟩ := examined_mem ord s hwf x hx
    exact ⟨h1, h3, tail, by rw [h2]; exact h4⟩

/-- C13, amended, on the turnstile in state "locked" and insertion order: the
transition on "coin" to "unlocked" is looked at first and is not decisive for
"push", the transition on "push" to "locked" decides. -/
theorem C13_resolution_witness :
    FireEvent MapOrder.insertion turnstile "push" =
      .ok ⟨{ turnstile with PresentState := locked }, none, []⟩ :=
  ((C13_resolution MapOrder.insertion turnstile "push" (by decide)).1
    [(unlocked, ⟨1, unlocked, locked, [("eq", "coin")]⟩)] [] locked
    ⟨3, locked, locked, [("eq", "push")]⟩ (by decide)
    (by
      intro x hx
      rw [List.mem_singleton] at hx
      subst hx
      exact ⟨"coin", rfl, by decide⟩)).1 rfl

/-! ## C14: parallel transitions -/

theorem resolve_congr (ord : MapOrder) (e : Event) (s s2 : StateMachine)
    (hp : s2.PresentState = s.PresentState) (xs : List (State × Link)) :
    (resolve ord e s2 xs).err = (resolve ord e s xs).err ∧
    (resolve ord e s2 xs).out = (resolve ord e s xs).out ∧
    (resolve ord e s2 xs).machine.PresentState = (resolve ord e s xs).machine.PresentState := by
  induction xs with
  | nil => exact ⟨rfl, rfl, hp⟩
  | cons a rest ih =>
    obtain ⟨n, l⟩ := a
    simp only [resolve]
    cases rulesLoop e (GoMap.range (ord.rule n.Id) l.Rules) with
    | next => exact ih
    | goto => exact ⟨rfl, rfl, rfl⟩
    | fail k => exact ⟨rfl, rfl, hp⟩

/-- C14 as stated fails.  The outgoing transitions of state 0 of `shadowed` are
exactly two transitions to state 1, on ("eq", "b") and on ("eq", "a").  Each
call of `FireEvent` ranges over the map of the lines anew: a call on "b" in
which the store returns the transition on "b" first moves the machine to
state 1, and so does a call on "a" in which the store returns the transition
on "a" first.  Neither of the two events is sure to leave the machine in
state 0. -/
theorem C14_counterexample :
    outgoing shadowed.g shadowed.PresentState.Id =
      [⟨1, ⟨1, .string "d"⟩, ⟨0, .string "s"⟩, [("eq", "b")]⟩,
       ⟨2, ⟨1, .string "d"⟩, ⟨0, .string "s"⟩, [("eq", "a")]⟩] ∧
    "b" ≠ "a" ∧ shadowed.PresentState.Id ≠ 1 ∧
    FireEvent MapOrder.insertion shadowed "b" =
      .ok ⟨{ shadowed with PresentState := ⟨1, .string "d"⟩ }, none, []⟩ ∧
    FireEvent MapOrder.descending shadowed "a" =
      .ok ⟨{ shadowed with PresentState := ⟨1, .string "d"⟩ }, none, []⟩ ∧
    ¬ ∃ e, (e = "a" ∨ e = "b") ∧
      ∀ ord, FireEvent ord shadowed e = .ok ⟨shadowed, none, []⟩ := by
  have hb : FireEvent MapOrder.insertion shadowed "b" =
      .ok ⟨{ shadowed with PresentState := ⟨1, .string "d"⟩ }, none, []⟩ := by decide
  have ha : FireEvent MapOrder.descending shadowed "a" =
      .ok ⟨{ shadowed with PresentState := ⟨1, .string "d"⟩ }, none, []⟩ := by decide
  refine ⟨by decide, by decide, by decide, hb, ha, ?_⟩
  rintro ⟨e, he | he, hall⟩
  · subst he
    have h := hall MapOrder.descending
    rw [ha] at h
    exact absurd h (by decide)
  · subst he
    have h := hall MapOrder.insertion
    rw [hb] at h
    exact absurd h (by decide)

/-- C14, amended: on a well-formed graph a call of `FireEvent` is decided by the
scan of the examined transitions alone.  They are one for each destination of
an outgoing transition, namely the first line the store returns for it in that
call, so of several transitions to the same destination exactly one has its
rule evaluated; on any other well-formed machine in the same current state
with the same examined transitions, whatever its other transitions, the call
returns the same error, prints the same and leaves the same current state.  In
particular, if the outgoing transitions of the current state are exactly two
transitions to the same destination, another state, with the rules ("eq", a)
and ("eq", b), a ≠ b, then under the order of one call exactly one of the two
events moves the machine to the destination, the one whose transition the
store returns first, and the other returns no error and leaves the machine as
it is. -/
theorem C14_parallel (ord : MapOrder) (s : StateMachine) (hwf : WF s.g) :
    (∀ e, FireEvent ord s e = .ok (resolve ord e s (examined ord s))) ∧
    (∀ x ∈ examined ord s, x.2 ∈ outgoing s.g s.PresentState.Id ∧
      ∃ tail, Lines ord s.g s.PresentState.Id x.2.T.Id = x.2 :: tail) ∧
    ((examined ord s).map (fun x => x.2.T.Id)).Nodup ∧
    (∀ l ∈ outgoing s.g s.PresentState.Id, ∃ x ∈ examined ord s, x.2.T.Id = l.T.Id) ∧
    (∀ s2 : StateMachine, WF s2.g → s2.PresentState = s.PresentState →
      examined ord s2 = examined ord s →
      ∀ e, ∃ r r2, FireEvent ord s e = .ok r ∧ FireEvent ord s2 e = .ok r2 ∧
        r2.err = r.err ∧ r2.out = r.out ∧
        r2.machine.PresentState = r.machine.PresentState) ∧
    (∀ (la lb : Link) (a b : Event),
      (∀ l, l ∈ outgoing s.g s.PresentState.Id ↔ l = la ∨ l = lb) →
      la.T.Id = lb.T.Id → la.T.Id ≠ s.PresentState.Id →
      la.Rules = [("eq", a)] → lb.Rules = [("eq", b)] → a ≠ b →
      ∃ n, Node s.g la.T.Id = some n ∧
        ((FireEvent ord s a = .ok ⟨{ s with PresentState := n }, none, []⟩ ∧
            FireEvent ord s b = .ok ⟨s, none, []⟩ ∧
            ∃ tail, Lines ord s.g s.PresentState.Id la.T.Id = la :: tail) ∨
          (FireEvent ord s b = .ok ⟨{ s with PresentState := n }, none, []⟩ ∧
            FireEvent ord s a = .ok ⟨s, none, []⟩ ∧
            ∃ tail, Lines ord s.g s.PresentState.Id la.T.Id = lb :: tail))) := by
  refine ⟨fun e => FireEvent_resolve ord s e hwf, fun x hx => ?_, examined_nodup ord s hwf,
    examined_cover ord s hwf, fun s2 hwf2 hp hex e => ?_,
    fun la lb a b hout hT _ hra hrb hab => ?_⟩
  · obtain ⟨h1, h2, _, tail, h4⟩ := examined_mem ord s hwf x hx
    exact ⟨h1, tail, by rw [h2]; exact h4⟩
  · refine ⟨_, _, FireEvent_resolve ord s e hwf, FireEvent_resolve ord s2 e hwf2, ?_⟩
    rw [hex]
    exact resolve_congr ord e s s2 hp _
  · have hin : ∀ x ∈ examined ord s, x.2 = la ∨ x.2 = lb :=
      fun x hx => (hout x.2).mp (examined_mem ord s hwf x hx).1
    have hTall : ∀ x ∈ examined ord s, x.2.T.Id = la.T.Id := by
      intro x hx
      rcases hin x hx with h | h
      · rw [h]
      · rw [h, hT]
    have hnd := examined_nodup ord s hwf
    obtain ⟨x0, hx0, _⟩ := examined_cover ord s hwf la ((hout la).mpr (Or.inl rfl))
    have hmem := examined_mem ord s hwf
    rw [FireEvent_resolve ord s a hwf, FireEvent_resolve ord s b hwf]
    cases hxs : examined ord s with
    | nil =>
      rw [hxs] at hx0
      cases hx0
    | cons x rest =>
      rw [hxs] at hin hTall hnd hmem
      cases rest with
      | cons y ys =>
        simp only [List.map_cons, List.nodup_cons, List.mem_cons] at hnd
        exact absurd (Or.inl ((hTall x (List.mem_cons_self _ _)).trans
          (hTall y (List.mem_cons_of_mem _ (List.mem_cons_self _ _))).symm)) hnd.1
      | nil =>
        obtain ⟨n, l⟩ := x
        obtain ⟨_, hid, hnode, tail, hlines⟩ := hmem (n, l) (List.mem_cons_self _ _)
        have hlT : l.T.Id = la.T.Id := hTall (n, l) (List.mem_cons_self _ _)
        simp only at hid hnode hlines hlT
        refine ⟨n, by rw [← hlT]; exact hnode, ?_⟩
        rcases hin (n, l) (List.mem_cons_self _ _) with h | h
        · left
          simp only at h
          refine ⟨?_, ?_, tail, ?_⟩
          · simp only [resolve, h, hra, rulesLoop_single, if_true]
            rfl
          · simp only [resolve, h, hra, rulesLoop_single, hab, if_true, if_false]
            rfl
          · rw [← hlT, hid, hlines, h]
        · right
          simp only at h
          refine ⟨?_, ?_, tail, ?_⟩
          · simp only [resolve, h, hrb, rulesLoop_single, if_true]
            rfl
          · simp only [resolve, h, hrb, rulesLoop_single, Ne.symm hab, if_true, if_false]
            rfl
          · rw [← hlT, hid, hlines, h]

/-- C14, amended, on `shadowed` in insertion order: of the two transitions to
state 1, on "b" and on "a", the one on "b" is returned first; "b" moves the
machine to state 1 and "a" leaves it in state 0. -/
theorem C14_parallel_witness :
    ∃ n, Node shadowed.g 1 = some n ∧
      ((FireEvent MapOrder.insertion shadowed "b" =
            .ok ⟨{ shadowed with PresentState := n }, none, []⟩ ∧
          FireEvent MapOrder.insertion shadowed "a" = .ok ⟨shadowed, none, []⟩ ∧
          ∃ tail, Lines MapOrder.insertion shadowed.g shadowed.PresentState.Id 1 =
            ⟨1, ⟨1, .string "d"⟩, ⟨0, .string "s"⟩, [("eq", "b")]⟩ :: tail) ∨
        (FireEvent MapOrder.insertion shadowed "a" =
            .ok ⟨{ shadowed with PresentState := n }, none, []⟩ ∧
          FireEvent MapOrder.insertion shadowed "b" = .ok ⟨shadowed, none, []⟩ ∧
          ∃ tail, Lines MapOrder.insertion shadowed.g shadowed.PresentState.Id 1 =
            ⟨2, ⟨1, .string "d"⟩, ⟨0, .string "s"⟩, [("eq", "a")]⟩ :: tail)) :=
  (C14_parallel MapOrder.insertion shadowed (by decide)).2.2.2.2.2
    ⟨1, ⟨1, .string "d"⟩, ⟨0, .string "s"⟩, [("eq", "b")]⟩
    ⟨2, ⟨1, .string "d"⟩, ⟨0, .string "s"⟩, [("eq", "a")]⟩ "b" "a"
    (by
      intro l
      have hout : outgoing shadowed.g shadowed.PresentState.Id =
          [⟨1, ⟨1, .string "d"⟩, ⟨0, .string "s"⟩, [("eq", "b")]⟩,
           ⟨2, ⟨1, .string "d"⟩, ⟨0, .string "s"⟩, [("eq", "a")]⟩] := by decide
      rw [hout]
      simp)
    (by decide) (by decide) rfl rfl (by decide)

/-! ## C20: `Compute` on a concatenation and on one event -/

/-- C20: `Compute` on `xs ++ ys` is `Compute` on `xs` followed by `Compute` on
`ys` from the machine the first leaves (with the map orders of the remaining
calls): same panic if any, same final machine and returned state, the outputs
concatenated; on a well-formed graph all three return.  `Compute` on `[e]`
leaves the machine `FireEvent e` leaves and returns its current state. -/
theorem C20_compute_append (fmt : Sprintf) (ords : Nat → MapOrder) (s : StateMachine)
    (xs ys : List String) (printState : Bool) :
    (Compute fmt ords s (xs ++ ys) printState =
      match Compute fmt ords s xs printState with
      | .error q => .error q
      | .ok (s1, _, o1) =>
        match Compute fmt (fun i => ords (i + xs.length)) s1 ys printState with
        | .error q => .error q
        | .ok (s2, ret, o2) => .ok (s2, ret, o1 ++ o2)) ∧
    (WF s.g → ∃ s1 s2 o1 o2,
      Compute fmt ords s xs printState = .ok (s1, s1.PresentState, o1) ∧
      Compute fmt (fun i => ords (i + xs.length)) s1 ys printState =
        .ok (s2, s2.PresentState, o2) ∧
      Compute fmt ords s (xs ++ ys) printState = .ok (s2, s2.PresentState, o1 ++ o2)) ∧
    (∀ e, Compute fmt ords s [e] printState =
      match FireEvent (ords 0) s e with
      | .error q => .error q
      | .ok r =>
        .ok (r.machine, r.machine.PresentState,
          r.out ++ (if printState then [State.String fmt r.machine.PresentState ++ "\n"]
            else []))) := by
  refine ⟨Compute_append fmt xs ys ords s printState, fun hwf => ?_, fun e => ?_⟩
  · obtain ⟨s1, _, hg1, o1, h1⟩ := Compute_fold fmt xs ords s printState hwf
    obtain ⟨s2, _, _, o2, h2⟩ :=
      Compute_fold fmt ys (fun i => ords (i + xs.length)) s1 printState (hg1 ▸ hwf)
    refine ⟨s1, s2, o1, o2, h1, h2, ?_⟩
    rw [Compute_append, h1]
    simp only [h2]
  · simp only [Compute]
    cases FireEvent (ords 0) s e with
    | error q => rfl
    | ok r => simp

/-! ## C19: `FireEvent` returns on every machine a program builds -/

/-- C19: on every machine of a process that started from nothing, for every
event and every map order: `FireEvent` returns; every successor `From` yields
for the current state is a stored node, and the store returns at least one
line from the current state to it; when the current state has no successor map
the call returns no error and changes nothing; and so it does on a machine
fresh from `New`. -/
theorem C19_fire_total (calls : List Call) (w : World)
    (hrun : World.run World.initial calls = .ok w) (s : StateMachine) (hs : s ∈ w.machines)
    (ord : MapOrder) (e : Event) :
    (∃ r, FireEvent ord s e = .ok r) ∧
    (∀ o ∈ From ord s.g s.PresentState.Id, ∃ n line tail, o = some n ∧
      Node s.g n.Id = some n ∧ Lines ord s.g s.PresentState.Id n.Id = line :: tail) ∧
    (s.g.from_.get s.PresentState.Id = none → FireEvent ord s e = .ok ⟨s, none, []⟩) ∧
    FireEvent ord New e = .ok ⟨New, none, []⟩ := by
  have hwf : WF s.g := World.run_WF calls World.initial_WF hrun s hs
  refine ⟨?_, fun o ho => ?_, fun h => FireEvent_of_no_successor ord s e h, rfl⟩
  · obtain ⟨r, hr, _⟩ := FireEvent_total ord s e hwf
    exact ⟨r, hr⟩
  · cases hm : s.g.from_.get s.PresentState.Id with
    | none => simp [From, hm] at ho
    | some m =>
      simp only [From, hm] at ho
      obtain ⟨p, hp, rfl⟩ := List.mem_map.mp ho
      obtain ⟨n, l, tail, hn, hid, _, hlines, _, _⟩ :=
        examinedAt_entry ord s e m hwf hm p (GoMap.mem_range.mp hp)
      refine ⟨n, l, tail, hn, ?_, hlines⟩
      rw [hid]
      exact hn

/-- C19 on the machine of `main`. -/
theorem C19_fire_total_witness :
    (∃ r, FireEvent MapOrder.descending turnstile "coin" = .ok r) ∧
    (∀ o ∈ From MapOrder.descending turnstile.g turnstile.PresentState.Id,
      ∃ n line tail, o = some n ∧ Node turnstile.g n.Id = some n ∧
        Lines MapOrder.descending turnstile.g turnstile.PresentState.Id n.Id = line :: tail) ∧
    (turnstile.g.from_.get turnstile.PresentState.Id = none →
      FireEvent MapOrder.descending turnstile "coin" = .ok ⟨turnstile, none, []⟩) ∧
    FireEvent MapOrder.descending New "coin" = .ok ⟨New, none, []⟩ :=
  C19_fire_total mainSetup mainWorld (by decide) turnstile (by decide)
    MapOrder.descending "coin"

/-! ## C17: what event processing changes -/

/-- The machine `FireEvent` leaves is the machine it got after the recorded
assignments, of which there is at most one, of a stored node. -/
theorem nodesLoop_assigns (ord : MapOrder) (s : StateMachine) (present : State) (e : Event)
    (ns : List (Option State)) (r : Fired)
    (h : nodesLoop ord s present e ns = .ok r) :
    (nodesLoopAssigns ord s present e ns = [] ∧ r.machine = s) ∨
    ∃ n id, nodesLoopAssigns ord s present e ns = [n] ∧ Node s.g id = some n ∧
      r = Fired.moved s n := by
  induction ns with
  | nil =>
    simp only [nodesLoop, Except.ok.injEq] at h
    subst h
    exact Or.inl ⟨rfl, rfl⟩
  | cons a rest ih =>
    cases a with
    | none => simp [nodesLoop] at h
    | some m =>
      simp only [nodesLoop] at h
      cases hnode : Node s.g m.Id with
      | none => simp [hnode] at h
      | some n =>
        simp only [hnode] at h
        cases hlines : Lines ord s.g present.Id n.Id with
        | nil => simp [hlines] at h
        | cons line tail =>
          simp only [hlines] at h
          cases hloop : rulesLoop e (GoMap.range (ord.rule n.Id) line.Rules) with
          | next =>
            simp only [hloop] at h
            have ha : nodesLoopAssigns ord s present e (some m :: rest) =
                nodesLoopAssigns ord s present e rest := by
              simp only [nodesLoopAssigns, hnode, hlines, hloop]
            rw [ha]
            exact ih h
          | goto =>
            simp only [hloop, Except.ok.injEq] at h
            have ha : nodesLoopAssigns ord s present e (some m :: rest) = [n] := by
              simp only [nodesLoopAssigns, hnode, hlines, hloop]
            exact Or.inr ⟨n, m.Id, ha, hnode, h.symm⟩
          | fail k =>
            simp only [hloop, Except.ok.injEq] at h
            subst h
            have ha : nodesLoopAssigns ord s present e (some m :: rest) = [] := by
              simp only [nodesLoopAssigns, hnode, hlines, hloop]
            exact Or.inl ⟨ha, rfl⟩

theorem nodesLoopAssigns_fires (ord : MapOrder) (s : StateMachine) (e : Event)
    (m : GoMap Int (GoMap Int Link)) (hwf : WF s.g)
    (hm : s.g.from_.get s.PresentState.Id = some m) (ps : List (Int × GoMap Int Link))
    (hps : ∀ x ∈ ps, x ∈ m) :
    nodesLoopAssigns ord s s.PresentState e (ps.map (fun p => s.g.nodes.get p.1)) =
      (fires ord e
        ((ps.map (fun p => s.g.nodes.get p.1)).filterMap (examinedAt ord s))).toList := by
  induction ps with
  | nil => rfl
  | cons x rest ih =>
    obtain ⟨n, l, tail, hn, hid, _, hlines, hex, _⟩ :=
      examinedAt_entry ord s e m hwf hm x (hps x (List.mem_cons_self _ _))
    have hnode : Node s.g n.Id = some n := by
      rw [hid]
      exact hn
    rw [List.map_cons, List.filterMap_cons, hex]
    simp only [hn, nodesLoopAssigns, hnode, hlines, fires]
    cases rulesLoop e (GoMap.range (ord.rule n.Id) l.Rules) with
    | next => exact ih (fun y hy => hps y (List.mem_cons_of_mem _ hy))
    | goto => rfl
    | fail k => rfl

theorem FireEventAssigns_fires (ord : MapOrder) (s : StateMachine) (e : Event) (hwf : WF s.g) :
    FireEventAssigns ord s e = (fires ord e (examined ord s)).toList := by
  cases hm : s.g.from_.get s.PresentState.Id with
  | none => simp [FireEventAssigns, examined, From, hm, nodesLoopAssigns, fires]
  | some m =>
    have h := nodesLoopAssigns_fires ord s e m hwf hm (GoMap.range ord.succ m)
      (fun x hx => GoMap.mem_range.mp hx)
    simpa only [FireEventAssigns, examined, From, hm] using h

theorem resolve_fires (ord : MapOrder) (e : Event) (s : StateMachine)
    (xs : List (State × Link)) :
    (∀ n, fires ord e xs = some n → resolve ord e s xs = Fired.moved s n) ∧
    (fires ord e xs = none → (resolve ord e s xs).machine = s) := by
  induction xs with
  | nil => exact ⟨fun n h => by simp [fires] at h, fun _ => rfl⟩
  | cons a rest ih =>
    obtain ⟨n0, l0⟩ := a
    simp only [fires, resolve]
    cases rulesLoop e (GoMap.range (ord.rule n0.Id) l0.Rules) with
    | next => exact ih
    | goto =>
      refine ⟨fun n h => ?_, fun h => by simp at h⟩
      simp only [Option.some.injEq] at h
      rw [h]
    | fail k => exact ⟨fun n h => by simp at h, fun _ => rfl⟩

theorem World.step_fireEvent_frame {w w' : World} {m : Nat} {ord : MapOrder} {e : Event}
    (h : w.step (.fireEvent m ord e) = .ok w') :
    w'.c = w.c ∧ w'.created = w.created ∧ w'.linked = w.linked ∧
    ∀ i : Nat, (w'.machines[i]?).map (fun s => s.g) = (w.machines[i]?).map (fun s => s.g) ∧
      (i ≠ m → w'.machines[i]? = w.machines[i]?) := by
  simp only [World.step] at h
  cases hm : w.machines[m]? with
  | none =>
    simp only [hm, Except.ok.injEq] at h
    subst h
    exact ⟨rfl, rfl, rfl, fun _ => ⟨rfl, fun _ => rfl⟩⟩
  | some s =>
    simp only [hm] at h
    cases hf : FireEvent ord s e with
    | error p => simp [hf] at h
    | ok r =>
      simp only [hf, Except.ok.injEq] at h
      subst h
      refine ⟨rfl, rfl, rfl, fun i => ?_⟩
      simp only [List.getElem?_set]
      by_cases hi : m = i
      · subst hi
        have hlt : m < w.machines.length := (List.getElem?_eq_some_iff.mp hm).1
        simp [hlt, hm, FireEvent_graph ord s e r hf]
      · simp [hi]

theorem World.step_compute_frame {w w' : World} {m : Nat} {fmt : Sprintf}
    {ords : Nat → MapOrder} {events : List String} {printState : Bool}
    (h : w.step (.compute m fmt ords events printState) = .ok w') :
    w'.c = w.c ∧ w'.created = w.created ∧ w'.linked = w.linked ∧
    ∀ i : Nat, (w'.machines[i]?).map (fun s => s.g) = (w.machines[i]?).map (fun s => s.g) ∧
      (i ≠ m → w'.machines[i]? = w.machines[i]?) := by
  simp only [World.step] at h
  cases hm : w.machines[m]? with
  | none =>
    simp only [hm, Except.ok.injEq] at h
    subst h
    exact ⟨rfl, rfl, rfl, fun _ => ⟨rfl, fun _ => rfl⟩⟩
  | some s =>
    simp only [hm] at h
    cases hf : Compute fmt ords s events printState with
    | error p => simp [hf] at h
    | ok r =>
      obtain ⟨s1, ret, out⟩ := r
      simp only [hf, Except.ok.injEq] at h
      subst h
      refine ⟨rfl, rfl, rfl, fun i => ?_⟩
      simp only [List.getElem?_set]
      by_cases hi : m = i
      · subst hi
        have hlt : m < w.machines.length := (List.getElem?_eq_some_iff.mp hm).1
        have hg : s1.g = s.g := Compute_graph fmt events ords s printState _ hf
        simp [hlt, hm, hg]
      · simp [hi]

/-- The loop records at most one assignment. -/
theorem nodesLoopAssigns_length (ord : MapOrder) (s : StateMachine) (present : State)
    (e : Event) (ns : List (Option State)) :
    (nodesLoopAssigns ord s present e ns).length ≤ 1 := by
  induction ns with
  | nil => simp [nodesLoopAssigns]
  | cons a rest ih =>
    cases a with
    | none => simp [nodesLoopAssigns]
    | some m =>
      simp only [nodesLoopAssigns]
      split
      · simp
      · split
        · simp
        · split
          · simp
          · simp
          · exact ih

/-- A rule set fires only through an entry ("eq", e). -/
theorem rulesLoop_goto_mem {e : Event} {l : List (Operator × Event)}
    (h : rulesLoop e l = .goto) : ("eq", e) ∈ l := by
  induction l with
  | nil => simp [rulesLoop] at h
  | cons a rest ih =>
    obtain ⟨k, v⟩ := a
    simp only [rulesLoop] at h
    by_cases hk : k = "eq"
    · by_cases hv : v = e
      · subst hk hv
        exact List.mem_cons_self _ _
      · simp only [hk, hv, if_true, if_false] at h
        exact List.mem_cons_of_mem _ (ih h)
    · simp [hk] at h

theorem fires_mem (ord : MapOrder) (e : Event) (xs : List (State × Link)) (n : State)
    (h : fires ord e xs = some n) :
    ∃ l, (n, l) ∈ xs ∧ rulesLoop e (GoMap.range (ord.rule n.Id) l.Rules) = .goto := by
  induction xs with
  | nil => simp [fires] at h
  | cons a rest ih =>
    obtain ⟨m, l⟩ := a
    simp only [fires] at h
    cases hr : rulesLoop e (GoMap.range (ord.rule m.Id) l.Rules) with
    | goto =>
      simp only [hr, Option.some.injEq] at h
      subst h
      exact ⟨l, List.mem_cons_self _ _, hr⟩
    | fail k => simp [hr] at h
    | next =>
      simp only [hr] at h
      obtain ⟨l', hl', hg⟩ := ih h
      exact ⟨l', List.mem_cons_of_mem _ hl', hg⟩

theorem fires_append (ord : MapOrder) (e : Event) (pre rest : List (State × Link))
    (hpre : ∀ x ∈ pre, x.2.misses e) : fires ord e (pre ++ rest) = fires ord e rest := by
  induction pre with
  | nil => rfl
  | cons a as ih =>
    obtain ⟨n, l⟩ := a
    have ha : rulesLoop e (GoMap.range (ord.rule n.Id) l.Rules) = .next :=
      Link.misses_loop (hpre (n, l) (List.mem_cons_self _ _)) _
    simp only [List.cons_append, fires, ha]
    exact ih (fun x hx => hpre x (List.mem_cons_of_mem _ hx))

theorem fires_none (ord : MapOrder) (e : Event) (xs : List (State × Link))
    (h : ∀ x ∈ xs, x.2.misses e) : fires ord e xs = none := by
  have := fires_append ord e xs [] h
  rw [List.append_nil] at this
  exact this

/-- When every rule set hits or misses and one hits, a transition fires. -/
theorem fires_some (ord : MapOrder) (e : Event) (xs : List (State × Link))
    (hall : ∀ x ∈ xs, x.2.hits e ∨ x.2.misses e) (hex : ∃ x ∈ xs, x.2.hits e) :
    ∃ n, fires ord e xs = some n := by
  induction xs with
  | nil =>
    obtain ⟨x, hx, _⟩ := hex
    cases hx
  | cons a rest ih =>
    obtain ⟨n, l⟩ := a
    rcases hall (n, l) (List.mem_cons_self _ _) with h | h
    · exact ⟨n, by simp only [fires, Link.hits_loop h]⟩
    · have hn : rulesLoop e (GoMap.range (ord.rule n.Id) l.Rules) = .next :=
        Link.misses_loop h _
      simp only [fires, hn]
      refine ih (fun x hx => hall x (List.mem_cons_of_mem _ hx)) ?_
      obtain ⟨x, hx, hh⟩ := hex
      rcases List.mem_cons.mp hx with rfl | hx
      · exact absurd h (hits_not_misses hh)
      · exact ⟨x, hx, hh⟩

/-- An assignment is that of the destination of an outgoing transition with
the entry ("eq", e), the first line the store returns for that destination. -/
theorem FireEventAssigns_mem (ord : MapOrder) (s : StateMachine) (e : Event) (hwf : WF s.g)
    (n : State) (hn : n ∈ FireEventAssigns ord s e) :
    ∃ l ∈ outgoing s.g s.PresentState.Id, ("eq", e) ∈ l.Rules ∧ Node s.g l.T.Id = some n ∧
      ∃ tail, Lines ord s.g s.PresentState.Id l.T.Id = l :: tail := by
  rw [FireEventAssigns_fires ord s e hwf, Option.mem_toList] at hn
  obtain ⟨l, hl, hg⟩ := fires_mem ord e _ n hn
  obtain ⟨h1, h2, h3, tail, h4⟩ := examined_mem ord s hwf (n, l) hl
  refine ⟨l, h1, GoMap.mem_range.mp (rulesLoop_goto_mem hg), h3, tail, ?_⟩
  simp only at h2 h4
  rw [h2]
  exact h4

/-- Without parallel transitions and with "eq" as the only operator, a
transition that expects the event makes the call assign. -/
theorem FireEventAssigns_of_match (ord : MapOrder) (s : StateMachine) (e : Event)
    (hwf : WF s.g)
    (heq : ∀ l ∈ outgoing s.g s.PresentState.Id, ∀ x ∈ l.Rules, x.1 = "eq")
    (hnd : ((outgoing s.g s.PresentState.Id).map (fun l => l.T.Id)).Nodup)
    (hex : ∃ l ∈ outgoing s.g s.PresentState.Id, ∃ x ∈ l.Rules, x.2 = e) :
    ∃ n, FireEventAssigns ord s e = [n] := by
  have hall : ∀ x ∈ examined ord s, x.2.hits e ∨ x.2.misses e := by
    intro x hx
    have hout := (examined_mem ord s hwf x hx).1
    by_cases h : ∃ y ∈ x.2.Rules, y.2 = e
    · exact Or.inl ⟨heq x.2 hout, h⟩
    · refine Or.inr (fun y hy => ⟨heq x.2 hout y hy, fun hye => h ⟨y, hy, hye⟩⟩)
  obtain ⟨l, hl, hle⟩ := hex
  obtain ⟨x, hx, hxT⟩ := examined_cover ord s hwf l hl
  have hxl : x.2 = l :=
    List.inj_on_of_nodup_map hnd (examined_mem ord s hwf x hx).1 hl hxT
  obtain ⟨n, hn⟩ := fires_some ord e (examined ord s) hall
    ⟨x, hx, by rw [hxl]; exact ⟨heq l hl, hle⟩⟩
  exact ⟨n, by rw [FireEventAssigns_fires ord s e hwf, hn]; rfl⟩

/-- C17 as stated fails.  State 0 of `shadowed` has an outgoing transition
whose rule is ("eq", "a"), so for the event "a" a transition matches; the call
of `FireEvent "a"`, every map visited in insertion order, returns no error,
performs no assignment to `PresentState` and leaves the machine as it is. -/
theorem C17_counterexample :
    (⟨2, ⟨1, .string "d"⟩, ⟨0, .string "s"⟩, [("eq", "a")]⟩ : Link) ∈
      outgoing shadowed.g shadowed.PresentState.Id ∧
    FireEventAssigns MapOrder.insertion shadowed "a" = [] ∧
    FireEvent MapOrder.insertion shadowed "a" = .ok ⟨shadowed, none, []⟩ :=
  ⟨by decide, by decide, by decide⟩

/-- C17, amended: a call of `FireEvent` that returns leaves the graph (states,
transitions and their rule sets) as it was and performs at most one assignment
to `PresentState`: either none, and the machine is unchanged, or one, of a
stored node, and the machine differs from the one before in `PresentState`
alone.  On a well-formed graph an assignment is that of the destination of an
outgoing transition with the rule entry ("eq", e) which is the first line the
store returns for its destination; there is exactly one assignment when, of
the examined transitions (one for each destination) in order, the first that
does not miss hits, and none when it has an unsupported operator or when all
miss.  When no two outgoing transitions of the current state share a
destination and every rule operator is "eq", there is exactly one assignment
if an outgoing transition expects the event, and none otherwise.  `Compute`
leaves the graph as it was.  In a process, a call of `FireEvent` or `Compute`
on one machine leaves both id counters, the states and transitions created so
far, the graph of every machine and every other machine as they were. -/
theorem C17_frame (ord : MapOrder) (s : StateMachine) (e : Event) :
    (∀ r, FireEvent ord s e = .ok r →
      r.machine.g = s.g ∧
      ((FireEventAssigns ord s e = [] ∧ r.machine = s) ∨
        ∃ n id, FireEventAssigns ord s e = [n] ∧ Node s.g id = some n ∧
          r = ⟨{ s with PresentState := n }, none, []⟩)) ∧
    (FireEventAssigns ord s e).length ≤ 1 ∧
    (WF s.g → ∀ n ∈ FireEventAssigns ord s e,
      ∃ l ∈ outgoing s.g s.PresentState.Id, ("eq", e) ∈ l.Rules ∧ Node s.g l.T.Id = some n ∧
        ∃ tail, Lines ord s.g s.PresentState.Id l.T.Id = l :: tail) ∧
    (WF s.g → ∀ (pre post : List (State × Link)) (n : State) (l : Link),
      examined ord s = pre ++ (n, l) :: post → (∀ x ∈ pre, x.2.misses e) →
      (l.hits e → FireEventAssigns ord s e = [n]) ∧
      (l.unsupported e → FireEventAssigns ord s e = [])) ∧
    (WF s.g → (∀ x ∈ examined ord s, x.2.misses e) → FireEventAssigns ord s e = []) ∧
    (WF s.g → (∀ l ∈ outgoing s.g s.PresentState.Id, ∀ x ∈ l.Rules, x.1 = "eq") →
      ((outgoing s.g s.PresentState.Id).map (fun l => l.T.Id)).Nodup →
      ((∃ l ∈ outgoing s.g s.PresentState.Id, ∃ x ∈ l.Rules, x.2 = e) ↔
        ∃ n, FireEventAssigns ord s e = [n])) ∧
    (∀ (fmt : Sprintf) (ords : Nat → MapOrder) (events : List String) (printState : Bool)
      (res : StateMachine × State × List String),
      Compute fmt ords s events printState = .ok res → res.1.g = s.g) ∧
    (∀ (w w' : World) (m : Nat), w.step (.fireEvent m ord e) = .ok w' →
      w'.c = w.c ∧ w'.created = w.created ∧ w'.linked = w.linked ∧
      ∀ i : Nat, (w'.machines[i]?).map (fun s => s.g) = (w.machines[i]?).map (fun s => s.g) ∧
        (i ≠ m → w'.machines[i]? = w.machines[i]?)) ∧
    (∀ (w w' : World) (m : Nat) (fmt : Sprintf) (ords : Nat → MapOrder)
      (events : List String) (printState : Bool),
      w.step (.compute m fmt ords events printState) = .ok w' →
      w'.c = w.c ∧ w'.created = w.created ∧ w'.linked = w.linked ∧
      ∀ i : Nat, (w'.machines[i]?).map (fun s => s.g) = (w.machines[i]?).map (fun s => s.g) ∧
        (i ≠ m → w'.machines[i]? = w.machines[i]?)) := by
  refine ⟨fun r hr => ⟨FireEvent_graph ord s e r hr, ?_⟩,
    nodesLoopAssigns_length ord s s.PresentState e _,
    fun hwf n hn => FireEventAssigns_mem ord s e hwf n hn,
    fun hwf pre post n l hsplit hpre => ?_,
    fun hwf hall => ?_,
    fun hwf heq hnd => ⟨FireEventAssigns_of_match ord s e hwf heq hnd, ?_⟩,
    fun fmt ords events p res h => Compute_graph fmt events ords s p res h,
    fun w w' m h => World.step_fireEvent_frame h,
    fun w w' m fmt ords events p h => World.step_compute_frame h⟩
  · rcases nodesLoop_assigns ord s s.PresentState e _ r hr with h | ⟨n, id, h1, h2, h3⟩
    · exact Or.inl h
    · exact Or.inr ⟨n, id, h1, h2, h3⟩
  · rw [FireEventAssigns_fires ord s e hwf, hsplit, fires_append ord e pre _ hpre]
    refine ⟨fun hh => ?_, fun hu => ?_⟩
    · simp only [fires, Link.hits_loop hh]
      rfl
    · obtain ⟨k, _, hk⟩ := Link.unsupported_loop hu (ord.rule n.Id)
      simp only [fires, hk]
      rfl
  · rw [FireEventAssigns_fires ord s e hwf, fires_none ord e _ hall]
    rfl
  · rintro ⟨n, hn⟩
    obtain ⟨l, hl, hmem, _⟩ :=
      FireEventAssigns_mem ord s e hwf n (by rw [hn]; exact List.mem_singleton_self n)
    exact ⟨l, hl, ("eq", e), hmem, rfl⟩

/-! ## More on Go maps -/

theorem GoMap.set_of_get_none {K V : Type} [DecidableEq K] {m : GoMap K V} {k : K} (v : V)
    (h : m.get k = none) : m.set k v = m ++ [(k, v)] := by
  induction m with
  | nil => rfl
  | cons a rest ih =>
    obtain ⟨k', v'⟩ := a
    by_cases hk : k' = k
    · simp [GoMap.get, hk] at h
    · simp only [GoMap.get, hk, if_false] at h
      simp only [GoMap.set, hk, if_false, List.cons_append, ih h]

theorem GoMap.get_set_self {K V : Type} [DecidableEq K] (m : GoMap K V) (k : K) (v : V) :
    (m.set k v).get k = some v := by
  induction m with
  | nil => simp [GoMap.set, GoMap.get]
  | cons a rest ih =>
    obtain ⟨k', v'⟩ := a
    by_cases hk : k' = k
    · simp [GoMap.set, GoMap.get, hk]
    · simp [GoMap.set, GoMap.get, hk, ih]

theorem GoMap.get_set_of_ne {K V : Type} [DecidableEq K] (m : GoMap K V) (k : K) (v : V)
    {k' : K} (h : k' ≠ k) : (m.set k v).get k' = m.get k' := by
  induction m with
  | nil => simp [GoMap.set, GoMap.get, Ne.symm h]
  | cons a rest ih =>
    obtain ⟨k0, v0⟩ := a
    by_cases hk : k0 = k
    · subst hk
      simp [GoMap.set, GoMap.get, Ne.symm h]
    · by_cases hk' : k0 = k'
      · subst hk'
        simp [GoMap.set, GoMap.get, hk]
      · simp [GoMap.set, GoMap.get, hk, hk', ih]

/-! ## The current state stays a stored node -/

theorem setFrom_nodes (g : DirectedGraph) (fid tid lid : Int) (l : Link) :
    (setFrom g fid tid lid l).nodes = g.nodes := by
  unfold setFrom
  cases h1 : g.from_.get fid with
  | none => rfl
  | some m =>
    cases h2 : m.get tid with
    | none => simp only [h2]
    | some lm => simp only [h2]

theorem LinkStates_nodes {c c' : Globals} {s s' : StateMachine} {s1 s2 : State}
    {rule : GoMap Operator Event} (h : LinkStates c s s1 s2 rule = .ok (c', s')) :
    s'.PresentState = s.PresentState ∧
      s'.g.nodes = (s.g.nodes.set s1.Id s1).set s2.Id s2 := by
  unfold LinkStates at h
  rw [SetLine_ok] at h
  simp only [Except.ok.injEq, Prod.mk.injEq] at h
  rw [← h.2]
  exact ⟨rfl, setFrom_nodes _ _ _ _ _⟩

theorem FireEvent_anchored (ord : MapOrder) (s : StateMachine) (e : Event) (r : Fired)
    (hwf : WF s.g) (h : FireEvent ord s e = .ok r) :
    r.machine.g = s.g ∧ (r.machine = s ∨ r.machine.Anchored) := by
  refine ⟨FireEvent_graph ord s e r h, ?_⟩
  rcases nodesLoop_assigns ord s s.PresentState e _ r h with h1 | ⟨n, id, _, hn, hr⟩
  · exact Or.inl h1.2
  · right
    rw [hr]
    have hid : n.Id = id := hwf.1 _ (GoMap.mem_of_get hn)
    show Node s.g n.Id = some n
    rw [hid]
    exact hn

theorem Compute_anchored (fmt : Sprintf) (events : List String) :
    ∀ (ords : Nat → MapOrder) (s : StateMachine) (printState : Bool)
      (res : StateMachine × State × List String), WF s.g →
      Compute fmt ords s events printState = .ok res →
      res.1.g = s.g ∧ (res.1.PresentState = s.PresentState ∨ res.1.Anchored) := by
  induction events with
  | nil =>
    intro ords s p res _ h
    simp only [Compute, Except.ok.injEq] at h
    subst h
    exact ⟨rfl, Or.inl rfl⟩
  | cons e es ih =>
    intro ords s p res hwf h
    simp only [Compute] at h
    cases hf : FireEvent (ords 0) s e with
    | error q => simp [hf] at h
    | ok r =>
      simp only [hf] at h
      cases hc : Compute fmt (fun i => ords (i + 1)) r.machine es p with
      | error q => simp [hc] at h
      | ok t =>
        obtain ⟨s2, ret, out⟩ := t
        simp only [hc, Except.ok.injEq] at h
        subst h
        obtain ⟨hg, hr⟩ := FireEvent_anchored (ords 0) s e r hwf hf
        obtain ⟨hg2, h2⟩ := ih _ _ _ _ (hg ▸ hwf) hc
        refine ⟨hg2.trans hg, ?_⟩
        rcases h2 with h2 | h2
        · rcases hr with hr | hr
          · left
            rw [h2, hr]
          · right
            show Node s2.g s2.PresentState.Id = some s2.PresentState
            rw [h2, hg2]
            exact hr
        · exact Or.inr h2

theorem State.eq_of_id {l : List State} (hnd : (l.map State.Id).Nodup) {a b : State}
    (ha : a ∈ l) (hb : b ∈ l) (h : a.Id = b.Id) : a = b :=
  List.inj_on_of_nodup_map hnd ha hb h

theorem AddNode_fresh {g g' : DirectedGraph} {n : State} (h : AddNode g n = .ok g') :
    g.nodes.get n.Id = none := by
  unfold AddNode at h
  cases hget : g.nodes.get n.Id with
  | some _ => simp [hget] at h
  | none => rfl

/-- Replacing one machine keeps the invariants when the new machine has them. -/
theorem World.update_inv {w : World} {m : Nat} {s s1 : StateMachine} (D D' : Nat → Prop)
    (hm : w.machines[m]? = some s) (created' : List State)
    (hsub : ∀ x ∈ w.created, x ∈ created') (hown : w.Owned)
    (hanch : ∀ i s', w.machines[i]? = some s' → D i → s'.Anchored)
    (hnodes : ∀ p ∈ s1.g.nodes, p.2 ∈ created') (hs1 : D' m → s1.Anchored)
    (hD : ∀ i, i ≠ m → D' i → D i) (c : Globals) (out : List String) (linked : List Link) :
    World.Owned ⟨c, w.machines.set m s1, out, created', linked⟩ ∧
    ∀ i s', (w.machines.set m s1)[i]? = some s' → D' i → s'.Anchored := by
  constructor
  · intro s' hs' p hp
    rcases List.mem_or_eq_of_mem_set hs' with h | h
    · exact hsub _ (hown s' h p hp)
    · subst h
      exact hnodes p hp
  · intro i s' hi hDi
    rw [List.getElem?_set] at hi
    by_cases him : m = i
    · subst him
      have hlt : m < w.machines.length := (List.getElem?_eq_some_iff.mp hm).1
      simp only [hlt, if_true, Option.some.injEq] at hi
      subst hi
      exact hs1 hDi
    · simp only [him, if_false] at hi
      exact hanch i s' hi (hD i (fun h => him h.symm) hDi)

/-- One admitted call keeps every stored node among the states created and
keeps the current state of every machine on which `Init` has been called
(`D`) a stored node. -/
theorem World.step_inv {w w1 : World} {a : Call} (D : Nat → Prop) (hwf : w.WF)
    (hown : w.Owned) (hanch : ∀ i s', w.machines[i]? = some s' → D i → s'.Anchored)
    (hlt : ∀ i, D i → i < w.machines.length) (hadm : w.admits a)
    (hnd : (w1.created.map State.Id).Nodup) (hstep : w.step a = .ok w1) :
    w1.Owned ∧
    (∀ i s', w1.machines[i]? = some s' → (D i ∨ ∃ v, a = .init i v) → s'.Anchored) ∧
    (∀ i, (D i ∨ ∃ v, a = .init i v) → i < w1.machines.length) := by
  cases a with
  | new =>
    simp only [World.step, Except.ok.injEq] at hstep
    subst hstep
    have hD : ∀ i, (D i ∨ ∃ v, Call.new = Call.init i v) → D i := by
      rintro i (h | ⟨v, h⟩)
      · exact h
      · cases h
    refine ⟨?_, ?_, ?_⟩
    · intro s hs p hp
      rcases List.mem_append.mp hs with h | h
      · exact hown s h p hp
      · rw [List.mem_singleton] at h
        subst h
        cases hp
    · intro i s' hi hDi
      have hil := hlt i (hD i hDi)
      rw [List.getElem?_append_left hil] at hi
      exact hanch i s' hi (hD i hDi)
    · intro i hDi
      have hil := hlt i (hD i hDi)
      simp only [List.length_append, List.length_singleton]
      omega
  | init m v =>
    simp only [World.step] at hstep
    cases hm : w.machines[m]? with
    | none =>
      have := List.getElem?_eq_none_iff.mp hm
      have hadm' : m < w.machines.length := hadm
      omega
    | some s =>
      simp only [hm] at hstep
      cases hi : Init w.c s v with
      | error p => simp [hi] at hstep
      | ok t =>
        obtain ⟨c, s1, st⟩ := t
        simp only [hi, Except.ok.injEq] at hstep
        subst hstep
        obtain ⟨_, hst, hps, hadd⟩ := Init_ok hi
        have hg := AddNode_ok hadd
        obtain ⟨h1, h2⟩ := World.update_inv D (fun i => D i ∨ ∃ v', Call.init m v = .init i v')
          hm (w.created ++ [st]) (fun x hx => List.mem_append_left _ hx) hown hanch
          (by
            intro p hp
            rw [hg] at hp
            rcases GoMap.mem_set hp with h | h
            · rw [h]
              exact List.mem_append_right _ (List.mem_singleton_self _)
            · exact List.mem_append_left _ (hown s (List.getElem?_mem hm) p h))
          (by
            intro _
            show Node s1.g s1.PresentState.Id = some s1.PresentState
            rw [hps, hg]
            exact GoMap.get_set_self _ _ _)
          (by
            rintro i him (h | ⟨v', h⟩)
            · exact h
            · cases h
              exact absurd rfl him)
          c w.out w.linked
        refine ⟨h1, h2, ?_⟩
        rintro i (h | ⟨v', h⟩)
        · simpa using hlt i h
        · cases h
          simpa using (show m < w.machines.length from hadm)
  | newState m v =>
    simp only [World.step] at hstep
    cases hm : w.machines[m]? with
    | none =>
      have := List.getElem?_eq_none_iff.mp hm
      have hadm' : m < w.machines.length := hadm
      omega
    | some s =>
      simp only [hm] at hstep
      cases hi : NewState w.c s v with
      | error p => simp [hi] at hstep
      | ok t =>
        obtain ⟨c, s1, st⟩ := t
        simp only [hi, Except.ok.injEq] at hstep
        subst hstep
        obtain ⟨_, hst, hps, hadd⟩ := NewState_ok hi
        have hg := AddNode_ok hadd
        have hfresh := AddNode_fresh hadd
        have hD : ∀ i, (D i ∨ ∃ v', Call.newState m v = .init i v') → D i := by
          rintro i (h | ⟨v', h⟩)
          · exact h
          · cases h
        obtain ⟨h1, h2⟩ := World.update_inv D
          (fun i => D i ∨ ∃ v', Call.newState m v = .init i v')
          hm (w.created ++ [st]) (fun x hx => List.mem_append_left _ hx) hown hanch
          (by
            intro p hp
            rw [hg] at hp
            rcases GoMap.mem_set hp with h | h
            · rw [h]
              exact List.mem_append_right _ (List.mem_singleton_self _)
            · exact List.mem_append_left _ (hown s (List.getElem?_mem hm) p h))
          (by
            intro hDm
            have ha : Node s.g s.PresentState.Id = some s.PresentState :=
              hanch m s hm (hD m hDm)
            show Node s1.g s1.PresentState.Id = some s1.PresentState
            rw [hps, hg]
            have hne : s.PresentState.Id ≠ st.Id := by
              intro heq
              rw [heq] at ha
              rw [show Node s.g st.Id = s.g.nodes.get st.Id from rfl, hfresh] at ha
              cases ha
            show (s.g.nodes.set st.Id st).get s.PresentState.Id = some s.PresentState
            rw [GoMap.get_set_of_ne _ _ _ hne]
            exact ha)
          (fun i _ h => hD i h)
          c w.out w.linked
        refine ⟨h1, h2, fun i h => ?_⟩
        simpa using hlt i (hD i h)
  | linkStates m s1 s2 rule =>
    simp only [World.step] at hstep
    cases hm : w.machines[m]? with
    | none =>
      have := List.getElem?_eq_none_iff.mp hm
      have hadm' : m < w.machines.length := hadm.1
      omega
    | some s =>
      simp only [hm] at hstep
      cases hi : LinkStates w.c s s1 s2 rule with
      | error p => simp [hi] at hstep
      | ok t =>
        obtain ⟨c, s3⟩ := t
        simp only [hi, Except.ok.injEq] at hstep
        subst hstep
        obtain ⟨hps, hnodes⟩ := LinkStates_nodes hi
        have hD : ∀ i, (D i ∨ ∃ v', Call.linkStates m s1 s2 rule = .init i v') → D i := by
          rintro i (h | ⟨v', h⟩)
          · exact h
          · cases h
        obtain ⟨h1, h2⟩ := World.update_inv D
          (fun i => D i ∨ ∃ v', Call.linkStates m s1 s2 rule = .init i v')
          hm w.created (fun x hx => hx) hown hanch
          (by
            intro p hp
            rw [hnodes] at hp
            rcases GoMap.mem_set hp with h | h
            · rw [h]
              exact hadm.2.2
            · rcases GoMap.mem_set h with h' | h'
              · rw [h']
                exact hadm.2.1
              · exact hown s (List.getElem?_mem hm) p h')
          (by
            intro hDm
            have ha : s.g.nodes.get s.PresentState.Id = some s.PresentState :=
              hanch m s hm (hD m hDm)
            have hpc : s.PresentState ∈ w.created :=
              hown s (List.getElem?_mem hm) _ (GoMap.mem_of_get ha)
            show s3.g.nodes.get s3.PresentState.Id = some s3.PresentState
            rw [hps, hnodes]
            by_cases h2 : s.PresentState.Id = s2.Id
            · have := State.eq_of_id hnd hpc hadm.2.2 h2
              rw [this]
              exact GoMap.get_set_self _ _ _
            · rw [GoMap.get_set_of_ne _ _ _ h2]
              by_cases h1 : s.PresentState.Id = s1.Id
              · have := State.eq_of_id hnd hpc hadm.2.1 h1
                rw [this]
                exact GoMap.get_set_self _ _ _
              · rw [GoMap.get_set_of_ne _ _ _ h1]
                exact ha)
          (fun i _ h => hD i h)
          c w.out (w.linked ++ [⟨w.c.LineIDCntr, s2, s1, rule⟩])
        refine ⟨h1, h2, fun i h => ?_⟩
        simpa using hlt i (hD i h)
  | fireEvent m ord e =>
    simp only [World.step] at hstep
    cases hm : w.machines[m]? with
    | none =>
      have := List.getElem?_eq_none_iff.mp hm
      have hadm' : m < w.machines.length := hadm
      omega
    | some s =>
      simp only [hm] at hstep
      cases hf : FireEvent ord s e with
      | error p => simp [hf] at hstep
      | ok r =>
        simp only [hf, Except.ok.injEq] at hstep
        subst hstep
        obtain ⟨hg, hr⟩ := FireEvent_anchored ord s e r (hwf s (List.getElem?_mem hm)) hf
        have hD : ∀ i, (D i ∨ ∃ v', Call.fireEvent m ord e = .init i v') → D i := by
          rintro i (h | ⟨v', h⟩)
          · exact h
          · cases h
        obtain ⟨h1, h2⟩ := World.update_inv D
          (fun i => D i ∨ ∃ v', Call.fireEvent m ord e = .init i v')
          hm w.created (fun x hx => hx) hown hanch
          (by
            intro p hp
            rw [hg] at hp
            exact hown s (List.getElem?_mem hm) p hp)
          (by
            intro hDm
            rcases hr with hr | hr
            · rw [hr]
              exact hanch m s hm (hD m hDm)
            · exact hr)
          (fun i _ h => hD i h)
          w.c (w.out ++ r.out) w.linked
        refine ⟨h1, h2, fun i h => ?_⟩
        simpa using hlt i (hD i h)
  | compute m fmt ords events printState =>
    simp only [World.step] at hstep
    cases hm : w.machines[m]? with
    | none =>
      have := List.getElem?_eq_none_iff.mp hm
      have hadm' : m < w.machines.length := hadm
      omega
    | some s =>
      simp only [hm] at hstep
      cases hf : Compute fmt ords s events printState with
      | error p => simp [hf] at hstep
      | ok r =>
        obtain ⟨s1, ret, out⟩ := r
        simp only [hf, Except.ok.injEq] at hstep
        subst hstep
        obtain ⟨hg, hr⟩ := Compute_anchored fmt events ords s printState _
          (hwf s (List.getElem?_mem hm)) hf
        simp only at hg hr
        have hD : ∀ i, (D i ∨ ∃ v', Call.compute m fmt ords events printState = .init i v') →
            D i := by
          rintro i (h | ⟨v', h⟩)
          · exact h
          · cases h
        obtain ⟨h1, h2⟩ := World.update_inv D
          (fun i => D i ∨ ∃ v', Call.compute m fmt ords events printState = .init i v')
          hm w.created (fun x hx => hx) hown hanch
          (by
            intro p hp
            rw [hg] at hp
            exact hown s (List.getElem?_mem hm) p hp)
          (by
            intro hDm
            rcases hr with hr | hr
            · show Node s1.g s1.PresentState.Id = some s1.PresentState
              rw [hr, hg]
              exact hanch m s hm (hD m hDm)
            · exact hr)
          (fun i _ h => hD i h)
          w.c (w.out ++ out) w.linked
        refine ⟨h1, h2, fun i h => ?_⟩
        simpa using hlt i (hD i h)

theorem World.step_created {w w1 : World} {a : Call} (hstep : w.step a = .ok w1) :
    ∃ t, w1.created = w.created ++ t := by
  cases a with
  | new =>
    simp only [World.step, Except.ok.injEq] at hstep
    subst hstep
    exact ⟨[], (List.append_nil _).symm⟩
  | init m v =>
    simp only [World.step] at hstep
    cases hm : w.machines[m]? with
    | none =>
      simp only [hm, Except.ok.injEq] at hstep
      subst hstep
      exact ⟨[], (List.append_nil _).symm⟩
    | some s =>
      simp only [hm] at hstep
      cases hi : Init w.c s v with
      | error p => simp [hi] at hstep
      | ok t =>
        obtain ⟨c, s1, st⟩ := t
        simp only [hi, Except.ok.injEq] at hstep
        subst hstep
        exact ⟨[st], rfl⟩
  | newState m v =>
    simp only [World.step] at hstep
    cases hm : w.machines[m]? with
    | none =>
      simp only [hm, Except.ok.injEq] at hstep
      subst hstep
      exact ⟨[], (List.append_nil _).symm⟩
    | some s =>
      simp only [hm] at hstep
      cases hi : NewState w.c s v with
      | error p => simp [hi] at hstep
      | ok t =>
        obtain ⟨c, s1, st⟩ := t
        simp only [hi, Except.ok.injEq] at hstep
        subst hstep
        exact ⟨[st], rfl⟩
  | linkStates m s1 s2 rule =>
    simp only [World.step] at hstep
    cases hm : w.machines[m]? with
    | none =>
      simp only [hm, Except.ok.injEq] at hstep
      subst hstep
      exact ⟨[], (List.append_nil _).symm⟩
    | some s =>
      simp only [hm] at hstep
      cases hi : LinkStates w.c s s1 s2 rule with
      | error p => simp [hi] at hstep
      | ok t =>
        obtain ⟨c, s3⟩ := t
        simp only [hi, Except.ok.injEq] at hstep
        subst hstep
        exact ⟨[], (List.append_nil _).symm⟩
  | fireEvent m ord e =>
    exact ⟨[], by rw [(World.step_fireEvent_frame hstep).2.1, List.append_nil]⟩
  | compute m fmt ords events printState =>
    exact ⟨[], by rw [(World.step_compute_frame hstep).2.1, List.append_nil]⟩

theorem World.run_created (calls : List Call) :
    ∀ {w w' : World}, w.run calls = .ok w' → ∃ t, w'.created = w.created ++ t := by
  induction calls with
  | nil =>
    intro w w' hrun
    simp only [World.run, Except.ok.injEq] at hrun
    subst hrun
    exact ⟨[], (List.append_nil _).symm⟩
  | cons a rest ih =>
    intro w w' hrun
    simp only [World.run] at hrun
    cases hs : w.step a with
    | error p => simp [hs] at hrun
    | ok w1 =>
      simp only [hs] at hrun
      obtain ⟨t1, h1⟩ := World.step_created hs
      obtain ⟨t2, h2⟩ := ih hrun
      exact ⟨t1 ++ t2, by rw [h2, h1, List.append_assoc]⟩

/-- A run of admitted calls keeps every stored node among the states created
and keeps the current state of every machine on which `Init` has been called
a stored node. -/
theorem World.run_inv (calls : List Call) :
    ∀ {w w' : World} (D : Nat → Prop), w.WF → w.Owned →
      (∀ i s', w.machines[i]? = some s' → D i → s'.Anchored) →
      (∀ i, D i → i < w.machines.length) → w.Admissible calls →
      (w'.created.map State.Id).Nodup → w.run calls = .ok w' →
      w'.Owned ∧
      ∀ i s', w'.machines[i]? = some s' → (D i ∨ ∃ v, Call.init i v ∈ calls) →
        s'.Anchored := by
  induction calls with
  | nil =>
    intro w w' D _ hown hanch _ _ _ hrun
    simp only [World.run, Except.ok.injEq] at hrun
    subst hrun
    refine ⟨hown, fun i s' hi hD => ?_⟩
    rcases hD with h | ⟨v, h⟩
    · exact hanch i s' hi h
    · cases h
  | cons a rest ih =>
    intro w w' D hwf hown hanch hlt hadm hnd hrun
    simp only [World.run] at hrun
    cases hs : w.step a with
    | error p => simp [hs] at hrun
    | ok w1 =>
      simp only [hs] at hrun
      simp only [World.Admissible, hs] at hadm
      obtain ⟨t, ht⟩ := World.run_created rest hrun
      have hnd1 : (w1.created.map State.Id).Nodup := by
        rw [ht, List.map_append] at hnd
        exact hnd.of_append_left
      obtain ⟨hown1, hanch1, hlt1⟩ := World.step_inv D hwf hown hanch hlt hadm.1 hnd1 hs
      obtain ⟨hown', hanch'⟩ := ih (fun i => D i ∨ ∃ v, a = .init i v)
        (World.step_WF hwf hs) hown1 hanch1 hlt1 hadm.2 hnd hrun
      refine ⟨hown', fun i s' hi hD => hanch' i s' hi ?_⟩
      rcases hD with h | ⟨v, h⟩
      · exact Or.inl (Or.inl h)
      · rcases List.mem_cons.mp h with h1 | h1
        · exact Or.inl (Or.inr ⟨v, h1.symm⟩)
        · exact Or.inr ⟨v, h1⟩

theorem World.Sequential.nodup_created {w : World} (h : w.Sequential)
    (hlen : w.created.length ≤ 2 ^ 64) : (w.created.map State.Id).Nodup := by
  rw [h.2.2.1]
  apply List.Nodup.map_on _ (List.nodup_range _)
  intro i hi j hj hij
  rw [List.mem_range] at hi hj
  exact wrapInt_inj i j (by omega) (by omega) hij

theorem World.initial_owned : World.initial.Owned := by
  intro s hs
  simp [World.initial] at hs

/-! ## C18: the current state is a stored node -/

/-- C18: in a run that starts from nothing, makes every call on a machine `New`
has returned, passes to `LinkStates` only states that `Init` or `NewState`
returned, creates no more than 2^64 states and returns, every machine on which
`Init` has been called has for `PresentState` the node stored under its id in
the graph of that machine (same id, same value), whatever calls of `NewState`,
`LinkStates`, `FireEvent` and `Compute` followed. -/
theorem C18_present_stored (calls : List Call) (w : World)
    (hrun : World.run World.initial calls = .ok w)
    (hadm : World.initial.Admissible calls) (hbound : w.created.length ≤ 2 ^ 64)
    (m : Nat) (s : StateMachine) (hm : w.machines[m]? = some s)
    (hinit : ∃ v, Call.init m v ∈ calls) :
    Node s.g s.PresentState.Id = some s.PresentState :=
  (World.run_inv calls (fun _ => False) World.initial_WF World.initial_owned
    (fun _ _ _ h => h.elim) (fun _ h => h.elim) hadm
    ((World.run_sequential calls World.initial_sequential hrun).nodup_created hbound)
    hrun).2 m s hm (Or.inr hinit)

/-- C18 on the machine of `main` after `Compute` on "coin", "push", "coin". -/
theorem C18_present_stored_witness :
    Node turnstileGraph unlocked.Id = some unlocked :=
  C18_present_stored mainRun mainRunWorld (by decide) (by decide) (by decide) 0
    ⟨unlocked, turnstileGraph⟩ (by decide) ⟨.string "locked", by simp [mainRun, mainSetup]⟩

/-! ## C12: `Init` -/

/-- The id the counter holds is no key of any graph of a process that passed on
the states it was given and created fewer than 2^64 states. -/
theorem World.counter_fresh {w : World} (hseq : w.Sequential) (hwf : w.WF) (hown : w.Owned)
    (hlen : w.created.length < 2 ^ 64) (s : StateMachine) (hs : s ∈ w.machines) :
    s.g.nodes.get w.c.NodeIDCntr = none := by
  cases hget : s.g.nodes.get w.c.NodeIDCntr with
  | none => rfl
  | some n =>
    exfalso
    have hmem := GoMap.mem_of_get hget
    have hid : n.Id = w.c.NodeIDCntr := (hwf s hs).1 _ hmem
    have hc : n ∈ w.created := hown s hs _ hmem
    have hin : n.Id ∈ w.created.map State.Id := List.mem_map.mpr ⟨n, hc, rfl⟩
    rw [hseq.2.2.1] at hin
    obtain ⟨i, hi, hwi⟩ := List.mem_map.mp hin
    rw [List.mem_range] at hi
    rw [hid, hseq.1] at hwi
    have := wrapInt_inj i w.created.length (by omega) hlen hwi
    omega

/-- C12: when the id the counter holds is no key of the graph, `Init v` returns:
it creates the one state of that id and value `v`, appends it to the nodes of
the graph, leaves every node and every transition stored before in place,
makes the new state `PresentState` and returns it, and advances the state
counter; this holds on every machine, also one on which `Init` was called
before.  When the id is a key of the graph, `AddNode` panics.  In a process
that passed on to `LinkStates` only states it was given and created fewer than
2^64 states, `Init` returns on every machine, and the id of the state it
returns is the id of no state created before on any machine. -/
theorem C12_init (c : Globals) (s : StateMachine) (v : Interface) :
    (s.g.nodes.get c.NodeIDCntr = none →
      Init c s v =
        .ok ({ c with NodeIDCntr := wrapInt (c.NodeIDCntr + 1) },
          ⟨⟨c.NodeIDCntr, v⟩,
            { s.g with nodes := s.g.nodes ++ [(c.NodeIDCntr, ⟨c.NodeIDCntr, v⟩)] }⟩,
          ⟨c.NodeIDCntr, v⟩)) ∧
    (∀ n, s.g.nodes.get c.NodeIDCntr = some n →
      Init c s v = .error (.nodeIDCollision c.NodeIDCntr)) ∧
    (∀ c' s' st, Init c s v = .ok (c', s', st) →
      st = ⟨c.NodeIDCntr, v⟩ ∧ s'.PresentState = st ∧
      Node s.g st.Id = none ∧ Node s'.g st.Id = some st ∧
      s'.g.nodes = s.g.nodes ++ [(st.Id, st)] ∧ s'.g.from_ = s.g.from_ ∧
      c'.NodeIDCntr = wrapInt (c.NodeIDCntr + 1) ∧ c'.LineIDCntr = c.LineIDCntr) ∧
    (∀ (calls : List Call) (w : World) (m : Nat) (s0 : StateMachine),
      World.run World.initial calls = .ok w → World.initial.Admissible calls →
      w.created.length < 2 ^ 64 → w.machines[m]? = some s0 →
      ∃ c' s' st, Init w.c s0 v = .ok (c', s', st) ∧
        st.Id ∉ w.created.map State.Id) := by
  have hok : s.g.nodes.get c.NodeIDCntr = none →
      Init c s v =
        .ok ({ c with NodeIDCntr := wrapInt (c.NodeIDCntr + 1) },
          ⟨⟨c.NodeIDCntr, v⟩,
            { s.g with nodes := s.g.nodes ++ [(c.NodeIDCntr, ⟨c.NodeIDCntr, v⟩)] }⟩,
          ⟨c.NodeIDCntr, v⟩) := by
    intro h
    simp only [Init, AddNode, h, GoMap.set_of_get_none _ h]
  have herr : ∀ n, s.g.nodes.get c.NodeIDCntr = some n →
      Init c s v = .error (.nodeIDCollision c.NodeIDCntr) := by
    intro n h
    simp only [Init, AddNode, h]
  refine ⟨hok, herr, fun c' s' st h => ?_, fun calls w m s0 hrun hadm hlen hm => ?_⟩
  · cases hget : s.g.nodes.get c.NodeIDCntr with
    | some n =>
      rw [herr n hget] at h
      cases h
    | none =>
      rw [hok hget] at h
      simp only [Except.ok.injEq, Prod.mk.injEq] at h
      obtain ⟨h1, h2, h3⟩ := h
      subst h1 h2 h3
      refine ⟨rfl, rfl, hget, ?_, rfl, rfl, rfl, rfl⟩
      show (s.g.nodes ++ [(c.NodeIDCntr, (⟨c.NodeIDCntr, v⟩ : State))]).get c.NodeIDCntr = _
      rw [← GoMap.set_of_get_none _ hget]
      exact GoMap.get_set_self _ _ _
  · have hseq := World.run_sequential calls World.initial_sequential hrun
    have hwf := World.run_WF calls World.initial_WF hrun
    have hown := (World.run_inv calls (fun _ => False) World.initial_WF World.initial_owned
      (fun _ _ _ h => h.elim) (fun _ h => h.elim) hadm
      (hseq.nodup_created (by omega)) hrun).1
    have hfresh := World.counter_fresh hseq hwf hown hlen s0 (List.getElem?_mem hm)
    have hnew : w.c.NodeIDCntr ∉ w.created.map State.Id := by
      intro hin
      rw [hseq.2.2.1] at hin
      obtain ⟨i, hi, hwi⟩ := List.mem_map.mp hin
      rw [List.mem_range] at hi
      rw [hseq.1] at hwi
      have := wrapInt_inj i w.created.length (by omega) hlen hwi
      omega
    cases hi : Init w.c s0 v with
    | ok t =>
      refine ⟨t.1, t.2.1, t.2.2, rfl, ?_⟩
      rw [(Init_ok hi).2.1]
      exact hnew
    | error p => simp [Init, AddNode, hfresh] at hi

/-! ## C15 and C16: the counters -/

/-- C15 as stated fails.  The calls of `freshSetup` on the first machine of a
process give the states 0 and 1 and the transition 1; the same calls on a
second, fresh machine, after the setup of `main` on the first machine, give the
states 2 and 3 and the transition 5. -/
theorem C15_counterexample :
    (World.run World.initial freshSetup).map
        (fun w => (w.created.map State.Id, w.linked.map Link.Id,
          (w.machines[0]?).map (fun s => s.g.nodes.map Prod.fst))) =
      .ok ([0, 1], [1], some [0, 1]) ∧
    (World.run World.initial secondSetup).map
        (fun w => ((w.created.drop 2).map State.Id, (w.linked.drop 4).map Link.Id,
          (w.machines[1]?).map (fun s => s.g.nodes.map Prod.fst))) =
      .ok ([2, 3], [5], some [2, 3]) :=
  ⟨by decide, by decide⟩

/-- C15, amended: the two counters are variables of the process.  After any
run, on whichever machine the next call is made, `Init` and `NewState` give the
new state the number of states the process has created so far on all its
machines, and `LinkStates` gives the new transition the number of transitions
the process has created so far plus one (both up to the wrap-around of a
64-bit counter). -/
theorem C15_process_counters (calls : List Call) (w : World)
    (hrun : World.run World.initial calls = .ok w) (m : Nat) (v : Interface)
    (s1 s2 : State) (rule : GoMap Operator Event) (hm : m < w.machines.length) :
    (∀ w', w.step (.init m v) = .ok w' →
      w'.created = w.created ++ [⟨wrapInt w.created.length, v⟩]) ∧
    (∀ w', w.step (.newState m v) = .ok w' →
      w'.created = w.created ++ [⟨wrapInt w.created.length, v⟩]) ∧
    (∃ w', w.step (.linkStates m s1 s2 rule) = .ok w' ∧
      w'.linked = w.linked ++ [⟨wrapInt (w.linked.length + 1), s2, s1, rule⟩]) := by
  obtain ⟨hn, hl, _, _⟩ := World.run_sequential calls World.initial_sequential hrun
  obtain ⟨s, hs⟩ : ∃ s, w.machines[m]? = some s :=
    ⟨w.machines[m], List.getElem?_eq_getElem hm⟩
  refine ⟨fun w' h => ?_, fun w' h => ?_, ?_⟩
  · simp only [World.step, hs] at h
    cases hi : Init w.c s v with
    | error p => simp [hi] at h
    | ok t =>
      obtain ⟨c, s', st⟩ := t
      simp only [hi, Except.ok.injEq] at h
      subst h
      rw [(Init_ok hi).2.1, hn]
  · simp only [World.step, hs] at h
    cases hi : NewState w.c s v with
    | error p => simp [hi] at h
    | ok t =>
      obtain ⟨c, s', st⟩ := t
      simp only [hi, Except.ok.injEq] at h
      subst h
      rw [(NewState_ok hi).2.1, hn]
  · obtain ⟨g, hg⟩ := LinkStates_ok w.c s s1 s2 rule
    have hstep : w.step (.linkStates m s1 s2 rule) =
        .ok { w with
          c := ⟨w.c.NodeIDCntr, wrapInt (w.c.LineIDCntr + 1)⟩
          machines := w.machines.set m ⟨s.PresentState, g⟩
          linked := w.linked ++ [⟨w.c.LineIDCntr, s2, s1, rule⟩] } := by
      simp only [World.step, hs, hg]
    refine ⟨_, hstep, ?_⟩
    simp only [hl]

/-- C15, amended, after the setup of `main`: the next state on the machine
gets the number 2, the next transition the number 5. -/
theorem C15_process_counters_witness :
    (∀ w', mainWorld.step (.init 0 (.string "a")) = .ok w' →
      w'.created = mainWorld.created ++ [⟨wrapInt mainWorld.created.length, .string "a"⟩]) ∧
    (∀ w', mainWorld.step (.newState 0 (.string "a")) = .ok w' →
      w'.created = mainWorld.created ++ [⟨wrapInt mainWorld.created.length, .string "a"⟩]) ∧
    (∃ w', mainWorld.step (.linkStates 0 locked unlocked (NewRule "eq" "go")) = .ok w' ∧
      w'.linked = mainWorld.linked ++
        [⟨wrapInt (mainWorld.linked.length + 1), unlocked, locked, NewRule "eq" "go"⟩]) :=
  C15_process_counters mainSetup mainWorld (by decide) 0 (.string "a") locked unlocked
    (NewRule "eq" "go") (by decide)

theorem World.run_append (xs ys : List Call) :
    ∀ w : World, w.run (xs ++ ys) =
      match w.run xs with
      | .error p => .error p
      | .ok w1 => w1.run ys := by
  induction xs with
  | nil => intro w; rfl
  | cons a rest ih =>
    intro w
    simp only [List.cons_append, World.run]
    cases w.step a with
    | error p => rfl
    | ok w1 => exact ih w1

/-- `Init` on a machine fresh from `New` returns. -/
theorem Init_New (c : Globals) (v : Interface) :
    Init c New v =
      .ok ({ c with NodeIDCntr := wrapInt (c.NodeIDCntr + 1) },
        ⟨⟨c.NodeIDCntr, v⟩, ⟨[(c.NodeIDCntr, ⟨c.NodeIDCntr, v⟩)], []⟩⟩, ⟨c.NodeIDCntr, v⟩) :=
  rfl

/-- The process `manyInits n` returns, with `n` machines and `n` states. -/
theorem manyInits_run (n : Nat) :
    ∃ w, World.run World.initial (manyInits n) = .ok w ∧ w.machines.length = n ∧
      w.created.length = n := by
  induction n with
  | zero => exact ⟨World.initial, rfl, rfl, rfl⟩
  | succ n ih =>
    obtain ⟨w, hrun, hm, hc⟩ := ih
    have hget : (w.machines ++ [New])[n]? = some New := by
      rw [List.getElem?_append_right (by omega), hm]
      simp
    refine ⟨{ w with
        c := { w.c with NodeIDCntr := wrapInt (w.c.NodeIDCntr + 1) }
        machines := (w.machines ++ [New]).set n
          ⟨⟨w.c.NodeIDCntr, .null⟩, ⟨[(w.c.NodeIDCntr, ⟨w.c.NodeIDCntr, .null⟩)], []⟩⟩
        created := w.created ++ [⟨w.c.NodeIDCntr, .null⟩] }, ?_, ?_, ?_⟩
    · simp only [manyInits]
      rw [World.run_append, hrun]
      simp only [World.run, World.step, hget, Init_New]
    · simp [hm]
    · simp [hc]

theorem getElem?_map_range (f : Nat → Int) (n i : Nat) (h : i < n) :
    ((List.range n).map f)[i]? = some (f i) := by
  simp [h]

/-- C16 as stated fails.  The process that creates 2^64 + 1 machines and calls
`Init` once on each returns; its state number 2^63 + 1 gets the id -2^63 and
not 2^63, an id below that of the first state, and its state number 2^64 + 1
gets the id 0, which the first state has. -/
theorem C16_counterexample :
    ∃ w, World.run World.initial (manyInits (2 ^ 64 + 1)) = .ok w ∧
      w.created.length = 2 ^ 64 + 1 ∧
      (w.created.map State.Id)[0]? = some 0 ∧
      (w.created.map State.Id)[2 ^ 63]? = some (-2 ^ 63) ∧
      (w.created.map State.Id)[2 ^ 64]? = some 0 := by
  obtain ⟨w, hrun, _, hlen⟩ := manyInits_run (2 ^ 64 + 1)
  have hseq := World.run_sequential _ World.initial_sequential hrun
  refine ⟨w, hrun, hlen, ?_, ?_, ?_⟩
  · rw [hseq.2.2.1, hlen, getElem?_map_range _ _ _ (by norm_num)]
    norm_num [wrapInt]
  · rw [hseq.2.2.1, hlen, getElem?_map_range _ _ _ (by norm_num)]
    norm_num [wrapInt]
  · rw [hseq.2.2.1, hlen, getElem?_map_range _ _ _ (by norm_num)]
    norm_num [wrapInt]

/-- C16, amended: in a run from the declared counter values the states get, in
the order of their creation by `Init` or `NewState` on any machine, the ids
0, 1, 2, ... and the transitions, in the order of their creation by
`LinkStates`, the ids 1, 2, 3, ..., both reduced to the range of a signed
64-bit integer.  As long as no more than 2^63 states were created, the n-th
state has the id n - 1 and the ids of the states increase strictly with the
order of creation; as long as fewer than 2^63 transitions were created, the
k-th transition has the id k; and among the first 2^64 states and among the
first 2^64 transitions no id is given twice. -/
theorem C16_sequential_ids (calls : List Call) (w : World)
    (hrun : World.run World.initial calls = .ok w) :
    w.created.map State.Id = (List.range w.created.length).map (fun n : Nat => wrapInt n) ∧
    w.linked.map Link.Id =
      (List.range w.linked.length).map (fun k : Nat => wrapInt (k + 1)) ∧
    (w.created.length ≤ 2 ^ 63 →
      w.created.map State.Id = (List.range w.created.length).map (fun n : Nat => (n : Int)) ∧
      (w.created.map State.Id).Pairwise (fun a b => a < b)) ∧
    (w.linked.length < 2 ^ 63 →
      w.linked.map Link.Id =
        (List.range w.linked.length).map (fun k : Nat => (k : Int) + 1)) ∧
    (w.created.length ≤ 2 ^ 64 → (w.created.map State.Id).Nodup) ∧
    (w.linked.length ≤ 2 ^ 64 → (w.linked.map Link.Id).Nodup) := by
  have hseq := World.run_sequential calls World.initial_sequential hrun
  have h3 := hseq.2.2.1
  have h4 := hseq.2.2.2
  refine ⟨h3, h4, fun hstates => ?_, fun hlines => ?_, hseq.nodup_created, fun hl => ?_⟩
  · have hs : w.created.map State.Id =
        (List.range w.created.length).map (fun n : Nat => (n : Int)) := by
      rw [h3]
      apply List.map_congr_left
      intro i hi
      rw [List.mem_range] at hi
      unfold wrapInt
      omega
    refine ⟨hs, ?_⟩
    rw [hs, List.pairwise_map]
    exact (List.pairwise_lt_range _).imp (fun h => by exact_mod_cast h)
  · rw [h4]
    apply List.map_congr_left
    intro i hi
    rw [List.mem_range] at hi
    unfold wrapInt
    omega
  · rw [h4]
    apply List.Nodup.map_on _ (List.nodup_range _)
    intro i hi j hj hij
    rw [List.mem_range] at hi hj
    exact wrapInt_succ_inj i j (by omega) (by omega) hij

/-- C16, amended, on the setup of `main`: the states 0 and 1, the transitions
1 to 4. -/
theorem C16_sequential_ids_witness :
    mainWorld.created.map State.Id = [0, 1] ∧
    mainWorld.linked.map Link.Id = [1, 2, 3, 4] ∧
    (mainWorld.created.map State.Id).Pairwise (fun a b => a < b) ∧
    (mainWorld.created.map State.Id).Nodup ∧ (mainWorld.linked.map Link.Id).Nodup :=
  ⟨((C16_sequential_ids mainSetup mainWorld (by decide)).2.2.1 (by decide)).1.trans
      (by decide),
    ((C16_sequential_ids mainSetup mainWorld (by decide)).2.2.2.1 (by decide)).trans
      (by decide),
    ((C16_sequential_ids mainSetup mainWorld (by decide)).2.2.1 (by decide)).2,
    (C16_sequential_ids mainSetup mainWorld (by decide)).2.2.2.2.1 (by decide),
    (C16_sequential_ids mainSetup mainWorld (by decide)).2.2.2.2.2 (by decide)⟩

/-! ## The claims with conditions inside, at concrete inputs -/

/-- C12 on the machine of `main` after its setup, on which `Init` has been
called: the id 2 is no node of the graph, a second `Init` returns the state 2,
makes it the current state and appends it to the nodes; in the process of
`main` the call returns and the id is new. -/
theorem C12_init_witness :
    turnstile.g.nodes.get mainWorld.c.NodeIDCntr = none ∧
    Init mainWorld.c turnstile (.string "again") =
      .ok ({ mainWorld.c with NodeIDCntr := wrapInt (mainWorld.c.NodeIDCntr + 1) },
        ⟨⟨mainWorld.c.NodeIDCntr, .string "again"⟩,
          { turnstile.g with nodes := turnstile.g.nodes ++
            [(mainWorld.c.NodeIDCntr, ⟨mainWorld.c.NodeIDCntr, .string "again"⟩)] }⟩,
        ⟨mainWorld.c.NodeIDCntr, .string "again"⟩) ∧
    ∃ c' s' st, Init mainWorld.c turnstile (.string "again") = .ok (c', s', st) ∧
      st.Id ∉ mainWorld.created.map State.Id :=
  ⟨by decide, (C12_init mainWorld.c turnstile (.string "again")).1 (by decide),
    (C12_init mainWorld.c turnstile (.string "again")).2.2.2 mainSetup mainWorld 0 turnstile
      (by decide) (by decide) (by decide) (by decide)⟩

/-- C17, amended, on the turnstile in state "locked" and the event "coin", in
insertion order: the graph is as it was, and since no two transitions leaving
"locked" share a destination and the transition to "unlocked" expects "coin",
there is one assignment, that of the state "unlocked". -/
theorem C17_frame_witness :
    (({ turnstile with PresentState := unlocked } : StateMachine).g = turnstile.g ∧
      ((FireEventAssigns MapOrder.insertion turnstile "coin" = [] ∧
          ({ turnstile with PresentState := unlocked } : StateMachine) = turnstile) ∨
        ∃ n id, FireEventAssigns MapOrder.insertion turnstile "coin" = [n] ∧
          Node turnstile.g id = some n ∧
          (⟨{ turnstile with PresentState := unlocked }, none, []⟩ : Fired) =
            ⟨{ turnstile with PresentState := n }, none, []⟩)) ∧
    (∃ n, FireEventAssigns MapOrder.insertion turnstile "coin" = [n]) ∧
    FireEventAssigns MapOrder.insertion turnstile "coin" = [unlocked] :=
  ⟨(C17_frame MapOrder.insertion turnstile "coin").1
      ⟨{ turnstile with PresentState := unlocked }, none, []⟩ (by decide),
    ((C17_frame MapOrder.insertion turnstile "coin").2.2.2.2.2.1 (by decide) (by decide)
      (by decide)).mp
      ⟨⟨1, unlocked, locked, [("eq", "coin")]⟩, by decide, ("eq", "coin"), by decide, rfl⟩,
    by decide⟩

/-- C20 on the turnstile: `Compute` on "coin", "push" is `Compute` on "coin"
followed by `Compute` on "push". -/
theorem C20_compute_append_witness :
    WF turnstile.g ∧
    ∃ s1 s2 o1 o2,
      Compute noFloats (fun _ => MapOrder.insertion) turnstile ["coin"] true =
        .ok (s1, s1.PresentState, o1) ∧
      Compute noFloats (fun i => (fun _ => MapOrder.insertion) (i + ["coin"].length)) s1
        ["push"] true = .ok (s2, s2.PresentState, o2) ∧
      Compute noFloats (fun _ => MapOrder.insertion) turnstile (["coin"] ++ ["push"]) true =
        .ok (s2, s2.PresentState, o1 ++ o2) :=
  ⟨by decide, (C20_compute_append noFloats (fun _ => MapOrder.insertion) turnstile ["coin"]
    ["push"] true).2.1 (by decide)⟩

end Fms
